import Mathlib

/-!
# Calibrated photometric stereo: the reconstruction core

A shallow embedding of `utilEigen.hpp` and `PhotometricStereoSolver.hpp`, with the parts
of `Image.hpp` and `DataStructure.hpp` that they use, the containers of the configuration
of `DataStructure.hpp`, and `strReplace` and `splitString` of `utilString.hpp`.

* Dense Eigen matrices are Mathlib matrices indexed by `Fin`; the shapes that Eigen
  checks when two matrices are multiplied or subtracted are carried by the types.
* Scalars are exact: the functions that only use field operations and comparisons are
  written over an arbitrary linearly ordered field `K` (they run over `ℚ`), the functions
  that take a Euclidean norm (a square root) are written over `ℝ`.
* Index accesses whose index is computed at run time (`S.row(c*numberOfPixels+p)`,
  `R(k)`, `Ssub.row(c)`) are bounds-checked by Eigen; an access out of range ends the call
  and is `none` here.
* Machine integers are natural numbers; no index computation of the solver comes near
  the 32-bit range for matrices that fit in memory.
* The decompositions supplied by the Eigen library itself (`JacobiSVD`) are a parameter
  of the functions that call them.
* A quotient `1 / x` is the division of the field, which is `0` at `x = 0`; the
  floating-point quotient is an infinity there, so the statements about a quotient are
  made for divisors that are not zero, and the divisors that the code meets are traced
  beside the function.
* The inverse of a singular matrix does not exist; what Eigen returns for one (infinite
  or NaN coefficients from `inverse()`, a solution on the non-zero pivots from
  `colPivHouseholderQr().inverse()`) is not modelled, and no statement rests on the value
  of `Eigen.inverse` at a singular matrix.
* The program runs in `float`. Where rounding decides a claim, for
  `estimateSurfaceAlbedo`, the function is also given over the values of binary32 with
  their rounded operations.
* An image of CImg is its three dimensions and the value of every channel of every
  pixel. CImg and `std::vector` do not check their indices: a read or a write outside
  the container, and a division of integers by zero, have no defined result and are
  `none` here.
* Pixel indices and coordinates are non-negative `int` and are natural numbers here.
* The decoding of an image file and the parsing of a string of numbers are parameters
  of the functions that call them; the writing of an image file is left out.
-/

namespace Eigen

open Matrix

/-- The decomposition options handed to the constructor of `Eigen::JacobiSVD`:
`ComputeThinU | ComputeThinV` or `ComputeFullU | ComputeFullV`. -/
inductive DecompositionOptions where
  | ComputeThin
  | ComputeFull
  deriving DecidableEq, Repr

/-- The object `Eigen::JacobiSVD` of an `m x n` matrix, as far as the program reads it:
`matrixU()`, `matrixV()` and `singularValues()` (a vector of `min m n` entries). -/
structure JacobiSVD (K : Type) (m n : ℕ) where
  colsU : ℕ
  colsV : ℕ
  matrixU : Matrix (Fin m) (Fin colsU) K
  matrixV : Matrix (Fin n) (Fin colsV) K
  singularValues : Fin (min m n) → K

/-- The constructor `JacobiSVD svd(A, options)` of the Eigen library: the routine that
computes the decomposition. It is not part of the repository and is a parameter. -/
abbrev SvdSolver (K : Type) : Type :=
  (m n : ℕ) → Matrix (Fin m) (Fin n) K → DecompositionOptions → JacobiSVD K m n

/-- The singular value `i` of the decomposition, `0` past the last one. -/
def JacobiSVD.sv {K : Type} [Zero K] {m n : ℕ} (svd : JacobiSVD K m n) (i : ℕ) : K :=
  if h : i < min m n then svd.singularValues ⟨i, h⟩ else 0

/-- The rectangular diagonal matrix `Sigma` of the decomposition `A = U * Sigma * V^T`,
of shape `cols(U) x cols(V)`. -/
def JacobiSVD.sigma {K : Type} [Zero K] {m n : ℕ} (svd : JacobiSVD K m n) :
    Matrix (Fin svd.colsU) (Fin svd.colsV) K :=
  fun i j => if i.val = j.val then svd.sv i.val else 0

/-- What the Eigen library promises of a singular value decomposition of `A`: the
columns of `U` and of `V` are orthonormal, the singular values are non-negative, and
`A = U * Sigma * V^T`. -/
structure IsSVD {K : Type} [LinearOrderedField K] {m n : ℕ}
    (A : Matrix (Fin m) (Fin n) K) (svd : JacobiSVD K m n) : Prop where
  orthoU : svd.matrixUᵀ * svd.matrixU = 1
  orthoV : svd.matrixVᵀ * svd.matrixV = 1
  nonneg : ∀ i, 0 ≤ svd.singularValues i
  decomp : A = svd.matrixU * svd.sigma * svd.matrixVᵀ

/-- With `ComputeFullU | ComputeFullV` the factors are square: `U` is `m x m` and `V`
is `n x n`. -/
def JacobiSVD.IsFull {K : Type} {m n : ℕ} (svd : JacobiSVD K m n) : Prop :=
  svd.colsU = m ∧ svd.colsV = n

/-- With `ComputeThinU | ComputeThinV` both factors have `min m n` columns. -/
def JacobiSVD.IsThin {K : Type} {m n : ℕ} (svd : JacobiSVD K m n) : Prop :=
  svd.colsU = min m n ∧ svd.colsV = min m n

/-- The write `M(i, j) = v` of a coefficient; Eigen checks the two indices, a write
outside the matrix changes nothing here. -/
def setCoeff {K : Type} {a b : ℕ} (M : Matrix (Fin a) (Fin b) K) (i j : ℕ) (v : K) :
    Matrix (Fin a) (Fin b) K :=
  fun r c => if r.val = i ∧ c.val = j then v else M r c

/-- The exact inverse `B.inverse()` of an invertible square matrix (also what
`B.colPivHouseholderQr().inverse()` is for an invertible matrix in exact arithmetic): the
adjugate over the determinant. A singular matrix has no inverse, and the value of this
function there stands for nothing that Eigen returns. -/
def inverse {K : Type} [Field K] {n : ℕ} (B : Matrix (Fin n) (Fin n) K) :
    Matrix (Fin n) (Fin n) K :=
  B.det⁻¹ • B.adjugate

/-- The Euclidean norm `v.norm()` of a vector: the square root of the sum of the
squared coefficients. -/
noncomputable def norm {n : ℕ} (v : Fin n → ℝ) : ℝ :=
  Real.sqrt (∑ j, v j * v j)

/-- The reduction `M.colwise().norm()`: the row vector of the norms of the columns. -/
noncomputable def colwiseNorm {a b : ℕ} (M : Matrix (Fin a) (Fin b) ℝ) :
    Matrix (Fin 1) (Fin b) ℝ :=
  fun _ j => Eigen.norm (fun i => M i j)

/-- The read `M(k)` with a single index: Eigen stores a dense matrix column by column,
so `k` names row `k % rows` of column `k / rows`; `none` when `k` is out of range. -/
def coeff {K : Type} {a b : ℕ} (M : Matrix (Fin a) (Fin b) K) (k : ℕ) : Option K :=
  if h : k < a * b then
    some (M ⟨k % a, Nat.mod_lt _ (Nat.pos_of_ne_zero (by rintro rfl; simp at h))⟩
      ⟨k / a, Nat.div_lt_of_lt_mul h⟩)
  else none

/-- The write `M(k) = v` with a single index; `none` when `k` is out of range. -/
def setCoeffLinear {K : Type} {a b : ℕ} (M : Matrix (Fin a) (Fin b) K) (k : ℕ) (v : K) :
    Option (Matrix (Fin a) (Fin b) K) :=
  if k < a * b then some (setCoeff M (k % a) (k / a) v) else none

/-- The read `M.row(k)`; `none` when `k` is not a row of `M`. -/
def row {K : Type} {a b : ℕ} (M : Matrix (Fin a) (Fin b) K) (k : ℕ) : Option (Fin b → K) :=
  if h : k < a then some (M ⟨k, h⟩) else none

/-- The write `M.row(k) = v`; `none` when `k` is not a row of `M`. -/
def setRow {K : Type} {a b : ℕ} (M : Matrix (Fin a) (Fin b) K) (k : ℕ) (v : Fin b → K) :
    Option (Matrix (Fin a) (Fin b) K) :=
  if h : k < a then some (M.updateRow ⟨k, h⟩ v) else none

end Eigen

open Matrix Eigen

/-! ## utilEigen.hpp -/

/-- The function `pinvMoorePenrose` of `utilEigen.hpp`. A square matrix is inverted;
otherwise both branches (`m > n` and `m < n`) evaluate
`(AT * A).colPivHouseholderQr().inverse() * AT`. -/
def pinvMoorePenrose {K : Type} [Field K] {m n : ℕ} (A : Matrix (Fin m) (Fin n) K) :
    Matrix (Fin n) (Fin m) K :=
  if h : m = n then
    (inverse (A.submatrix (Fin.cast h.symm) id)).submatrix id (Fin.cast h)
  else
    let AT := Aᵀ
    if m > n then
      inverse (AT * A) * AT
    else
      inverse (AT * A) * AT

/-- The default value `1e-6` of the parameter `epsilon` of `getInverseSigma`. -/
def defaultEpsilon {K : Type} [Field K] : K := 1e-6

/-- The function `getInverseSigma` of `utilEigen.hpp`: a zero matrix of shape
`cols(V) x cols(U)` into whose diagonal the loop writes `1 / sigma_i` for every
singular value above `epsilon`. -/
def getInverseSigma {K : Type} [LinearOrderedField K] {m n : ℕ}
    (svd : JacobiSVD K m n) (epsilon : K) : Matrix (Fin svd.colsV) (Fin svd.colsU) K :=
  let vecSV := svd.singularValues
  (List.finRange (min m n)).foldl
    (fun Sinv i => if vecSV i > epsilon then setCoeff Sinv i i (1 / vecSV i) else Sinv)
    (0 : Matrix (Fin svd.colsV) (Fin svd.colsU) K)

/-- The function `pinvSvdThin` of `utilEigen.hpp`. -/
def pinvSvdThin {K : Type} [LinearOrderedField K] (jacobi : SvdSolver K) {m n : ℕ}
    (A : Matrix (Fin m) (Fin n) K) : Matrix (Fin n) (Fin m) K :=
  let svd := jacobi m n A DecompositionOptions.ComputeThin
  let Sinv := getInverseSigma svd defaultEpsilon
  svd.matrixV * Sinv * svd.matrixUᵀ

/-- The function `pinvSvdFull` of `utilEigen.hpp`. -/
def pinvSvdFull {K : Type} [LinearOrderedField K] (jacobi : SvdSolver K) {m n : ℕ}
    (A : Matrix (Fin m) (Fin n) K) : Matrix (Fin n) (Fin m) K :=
  let svd := jacobi m n A DecompositionOptions.ComputeFull
  let Sinv := getInverseSigma svd defaultEpsilon
  svd.matrixV * Sinv * svd.matrixUᵀ

/-- The function `pinv` of `utilEigen.hpp`: the dispatch on `idx` (default `0`). -/
def pinv {K : Type} [LinearOrderedField K] (jacobi : SvdSolver K) {m n : ℕ}
    (A : Matrix (Fin m) (Fin n) K) (idx : ℤ) : Matrix (Fin n) (Fin m) K :=
  match idx with
  | 1 => pinvMoorePenrose A
  | 2 => pinvSvdThin jacobi A
  | _ => pinvSvdFull jacobi A

/-! ## PhotometricStereoSolver.hpp -/

/-- The function `estimateSurface` of `PhotometricStereoSolver.hpp`; `eps` is
`std::numeric_limits<DataType>::epsilon()`. -/
noncomputable def estimateSurface (jacobi : SvdSolver ℝ) (eps : ℝ) {r n : ℕ}
    (I : Matrix (Fin r) (Fin n) ℝ) (L : Matrix (Fin 3) (Fin n) ℝ) :
    Matrix (Fin r) (Fin 3) ℝ :=
  let Linv := pinv jacobi L 0
  let Shat := I * Linv
  let tol := eps * 255
  (List.finRange r).foldl
    (fun Shat i => if Eigen.norm (I i) < tol then Shat.updateRow i 0 else Shat) Shat

/-- The function `estimateSurfaceAlbedo` of `PhotometricStereoSolver.hpp`, in exact
arithmetic; `Binary32.estimateSurfaceAlbedo` is the same function at the type `float`. -/
noncomputable def estimateSurfaceAlbedo {r c : ℕ} (S : Matrix (Fin r) (Fin c) ℝ) :
    Matrix (Fin 1) (Fin r) ℝ :=
  let ST := Sᵀ
  colwiseNorm ST

/-- The body of the loop over the colour channels in `estimateSurfaceNormal`: the two
scratch matrices `Ssub` and `RsubInv` receive row `c*numberOfPixels+p` of `S` and the
reciprocal of the matching entry of `R`. The reciprocal is that of the field; where the
entry of `R` is zero the code obtains an infinity instead, and
`estimateSurfaceNormalDivisors` records the divisors. -/
def estimateSurfaceNormalChannel {K : Type} [LinearOrderedField K] {sr ra rb : ℕ}
    (S : Matrix (Fin sr) (Fin 3) K) (R : Matrix (Fin ra) (Fin rb) K)
    (numberOfPixels p : ℕ)
    (scratch : Matrix (Fin 3) (Fin 3) K × Matrix (Fin 1) (Fin 3) K) (c : ℕ) :
    Option (Matrix (Fin 3) (Fin 3) K × Matrix (Fin 1) (Fin 3) K) := do
  let Srow ← row S (c * numberOfPixels + p)
  let Ssub ← setRow scratch.1 c Srow
  let Rcp ← coeff R (c * numberOfPixels + p)
  let RsubInv ← setCoeffLinear scratch.2 c (1 / Rcp)
  pure (Ssub, RsubInv)

/-- The body of the loop over the pixels in `estimateSurfaceNormal`; the state is
`(N, Ssub, RsubInv)`, the scratch matrices live across the iterations. -/
def estimateSurfaceNormalPixel {K : Type} [LinearOrderedField K] {sr ra rb : ℕ}
    (S : Matrix (Fin sr) (Fin 3) K) (R : Matrix (Fin ra) (Fin rb) K)
    (numberOfPixels color : ℕ)
    (state : Matrix (Fin numberOfPixels) (Fin 3) K ×
      Matrix (Fin 3) (Fin 3) K × Matrix (Fin 1) (Fin 3) K) (p : ℕ) :
    Option (Matrix (Fin numberOfPixels) (Fin 3) K ×
      Matrix (Fin 3) (Fin 3) K × Matrix (Fin 1) (Fin 3) K) := do
  let Rp ← coeff R p
  if Rp > 0 then
    let scratch ← (List.range color).foldlM
      (estimateSurfaceNormalChannel S R numberOfPixels p) state.2
    let N ← setRow state.1 p (fun j => (scratch.2 * scratch.1) 0 j / 3)
    pure (N, scratch)
  else
    pure state

/-- The function `estimateSurfaceNormal` of `PhotometricStereoSolver.hpp`. -/
def estimateSurfaceNormal {K : Type} [LinearOrderedField K] {sr ra rb : ℕ}
    (S : Matrix (Fin sr) (Fin 3) K) (R : Matrix (Fin ra) (Fin rb) K)
    (numberOfPixels color : ℕ) : Option (Matrix (Fin numberOfPixels) (Fin 3) K) :=
  ((List.range numberOfPixels).foldlM
    (estimateSurfaceNormalPixel S R numberOfPixels color)
    ((0 : Matrix (Fin numberOfPixels) (Fin 3) K),
      (0 : Matrix (Fin 3) (Fin 3) K), (0 : Matrix (Fin 1) (Fin 3) K))).map Prod.fst

/-- The function `computeErrorLambertian` of `PhotometricStereoSolver.hpp`. -/
def computeErrorLambertian {K : Type} [Ring K] {r n : ℕ}
    (I : Matrix (Fin r) (Fin n) K) (Shat : Matrix (Fin r) (Fin 3) K)
    (L : Matrix (Fin 3) (Fin n) K) : Matrix (Fin r) (Fin n) K :=
  I - Shat * L

/-! ## Checked coefficient access of Eigen -/

namespace Eigen

/-- The read `M(i, j)` of a coefficient; `none` when an index is out of range. -/
def coeffAt {K : Type} {a b : ℕ} (M : Matrix (Fin a) (Fin b) K) (i j : ℕ) : Option K :=
  if h : i < a ∧ j < b then some (M ⟨i, h.1⟩ ⟨j, h.2⟩) else none

/-- The write `M(i, j) = v` of a coefficient; `none` when an index is out of range. -/
def setCoeffAt {K : Type} {a b : ℕ} (M : Matrix (Fin a) (Fin b) K) (i j : ℕ) (v : K) :
    Option (Matrix (Fin a) (Fin b) K) :=
  if i < a ∧ j < b then some (setCoeff M i j v) else none

end Eigen

/-! ## CImg.h -/

/-- An image `cimg_library::CImg<T>` of depth `1`: its width, height and number of
channels (`spectrum`), and the value `data x y c` of channel `c` of pixel `(x, y)`.
An image is either empty, with all its dimensions zero, or has no zero dimension. -/
structure CImg (α : Type) where
  width : ℕ
  height : ℕ
  spectrum : ℕ
  data : ℕ → ℕ → ℕ → α
  wellFormed : (width = 0 ∧ height = 0 ∧ spectrum = 0) ∨
    (0 < width ∧ 0 < height ∧ 0 < spectrum)

/-- The constructor `CImg(size_x, size_y, 1, size_c, value)`: an image filled with
`value`, and the empty image when one of the sizes is zero. -/
def CImg.filled {α : Type} (size_x size_y size_c : ℕ) (value : α) : CImg α :=
  if h : 0 < size_x ∧ 0 < size_y ∧ 0 < size_c then
    ⟨size_x, size_y, size_c, fun _ _ _ => value, Or.inr h⟩
  else
    ⟨0, 0, 0, fun _ _ _ => value, Or.inl ⟨rfl, rfl, rfl⟩⟩

/-- The read `img(x, y, 0, c)`. CImg does not check the coordinates: outside the image
the read has no defined result, which is `none` here. -/
def CImg.get {α : Type} (img : CImg α) (x y c : ℕ) : Option α :=
  if x < img.width ∧ y < img.height ∧ c < img.spectrum then some (img.data x y c) else none

/-- The write `img(x, y, 0, c) = v`; outside the image it has no defined result. -/
def CImg.set {α : Type} (img : CImg α) (x y c : ℕ) (v : α) : Option (CImg α) :=
  if x < img.width ∧ y < img.height ∧ c < img.spectrum then
    some ⟨img.width, img.height, img.spectrum,
      fun x1 y1 c1 => if x1 = x ∧ y1 = y ∧ c1 = c then v else img.data x1 y1 c1,
      img.wellFormed⟩
  else none

/-- The remainder `a % b` of two non-negative `int`; no result for `b = 0`. -/
def checkedMod (a b : ℕ) : Option ℕ := if b = 0 then none else some (a % b)

/-- The quotient `a / b` of two non-negative `int`; no result for `b = 0`. -/
def checkedDiv (a b : ℕ) : Option ℕ := if b = 0 then none else some (a / b)

/-! ## Image.hpp -/

/-- The operator `ImageSingle::operator()(x, y, c)`: the value of channel
`min(c, color - 1)` of pixel `(x, y)`. -/
def ImageSingle.value {α : Type} (img : CImg α) (x y : ℕ) (c : ℤ) : Option α :=
  let color : ℤ := img.spectrum
  let channel := min c (color - 1)
  if 0 ≤ channel then img.get x y channel.toNat else none

/-- The operator `ImageSingle::operator()(x, y)`: the vector of the values of all the
channels of pixel `(x, y)`. -/
def ImageSingle.pixelValue {α : Type} (img : CImg α) (x y : ℕ) : Option (List α) :=
  (List.range img.spectrum).mapM (fun c => img.get x y c)

/-- The member `ImageSingle::_index`. -/
def ImageSingle._index (width x y : ℕ) : ℕ := y * width + x

/-! ## DataStructure.hpp -/

/-- The struct `PixelLocation`. -/
structure PixelLocation where
  x : ℕ
  y : ℕ
  deriving DecidableEq, Repr

/-- The class `CPS::ObservationSingle`: the file name of an image, the direction of its
light source as a string, and the intensity of the light source. -/
structure ObservationSingle (K : Type) where
  strImage : String
  lightDirection : String
  lightIntensity : K

/-- The member `CalibratedPhotometricStereo::computeIndex`. -/
def computeIndex (width : ℕ) (pixel : PixelLocation) : ℕ :=
  pixel.y * width + pixel.x

/-- The member `CalibratedPhotometricStereo::computePixelLocation`. -/
def computePixelLocation (width : ℕ) (index : ℕ) : PixelLocation :=
  ⟨index % width, index / width⟩

/-! ## utilEigen.hpp, the reciprocals of `getInverseSigma` -/

/-- The divisors of the reciprocals `1.0 / vecSV(i)` that the loop of `getInverseSigma`
evaluates, in the order of the loop. -/
def getInverseSigmaDivisors {K : Type} [LinearOrderedField K] {m n : ℕ}
    (svd : JacobiSVD K m n) (epsilon : K) : List K :=
  let vecSV := svd.singularValues
  (List.finRange (min m n)).foldl
    (fun divisors i => if vecSV i > epsilon then divisors ++ [vecSV i] else divisors) []

/-! ## PhotometricStereoSolver.hpp, assembly and visualisation -/

/-- The function `loadAvailablePixels`; `imgMask` is the decoded mask image, the result
is `(width, height, indexOfPixels)`. -/
def loadAvailablePixels (imgMask : CImg ℕ) (indexOfPixels : List ℕ) :
    Option (ℕ × ℕ × List ℕ) :=
  let width := imgMask.width
  let height := imgMask.height
  ((List.range height).foldlM
    (fun indexOfPixels y =>
      (List.range width).foldlM
        (fun indexOfPixels x => do
          let v ← ImageSingle.value imgMask x y 0
          if v = 255 then pure (indexOfPixels ++ [y * width + x]) else pure indexOfPixels)
        indexOfPixels)
    indexOfPixels).map (fun indexOfPixels => (width, height, indexOfPixels))

/-- The function `buildObservationMatrix`; `load` stands for the decoding of an image
file. -/
def buildObservationMatrix {K : Type} [Zero K] (load : String → CImg K)
    (indexOfPixels : List ℕ) (obsSingle : List (ObservationSingle K)) (color width : ℕ) :
    Option (Matrix (Fin (indexOfPixels.length * color)) (Fin obsSingle.length) K) :=
  let numberOfPixels := indexOfPixels.length
  let numberOfImages := obsSingle.length
  (List.range numberOfImages).foldlM
    (fun I f => do
      let obs ← obsSingle[f]?
      let img := load obs.strImage
      (List.range numberOfPixels).foldlM
        (fun I p => do
          let index ← indexOfPixels[p]?
          let x ← checkedMod index width
          let y ← checkedDiv index width
          let pixelValue ← ImageSingle.pixelValue img x y
          (List.range color).foldlM
            (fun I c => do
              let v ← pixelValue[c]?
              setCoeffAt I (c * numberOfPixels + p) f v)
            I)
        I)
    (0 : Matrix (Fin (indexOfPixels.length * color)) (Fin obsSingle.length) K)

/-- The function `buildLightSourceMatrix`; `str2vector` stands for the parser of
`utilString.hpp`, which reads the numbers of a string through a `std::stringstream`. -/
def buildLightSourceMatrix {K : Type} [Zero K] [Mul K] (str2vector : String → List K)
    (obsSingle : List (ObservationSingle K)) :
    Option (Matrix (Fin 3) (Fin obsSingle.length) K) :=
  let numberOfImages := obsSingle.length
  (List.range numberOfImages).foldlM
    (fun L f => do
      let obs ← obsSingle[f]?
      let vecL := str2vector obs.lightDirection
      (List.range 3).foldlM
        (fun L d => do
          let v ← vecL[d]?
          setCoeffAt L d f (obs.lightIntensity * v))
        L)
    (0 : Matrix (Fin 3) (Fin obsSingle.length) K)

/-- The function `saveSurfaceNormalToImage`, without the writing of the file. -/
def saveSurfaceNormalToImage {K : Type} [LinearOrderedField K] {nr nc : ℕ}
    (N : Matrix (Fin nr) (Fin nc) K) (indexOfPixels : List ℕ) (width height : ℕ) :
    Option (CImg K) :=
  let img := CImg.filled width height 3 (0 : K)
  let numberOfPixels := indexOfPixels.length
  (List.range numberOfPixels).foldlM
    (fun img p => do
      let index ← indexOfPixels[p]?
      let x ← checkedMod index width
      let y ← checkedDiv index width
      (List.range 3).foldlM
        (fun img c => do
          let v ← coeffAt N p c
          img.set x y c (255 * (v + 1) / 2))
        img)
    img

/-- The function `saveReprojectionError`, without the writing of the file. -/
def saveReprojectionError {K : Type} [LinearOrderedField K] {ir ic : ℕ}
    (Idiff : Matrix (Fin ir) (Fin ic) K) (indexOfPixels : List ℕ)
    (width height color : ℕ) : Option (CImg K) :=
  let numberOfPixels := indexOfPixels.length
  let img := CImg.filled width height color (0 : K)
  (List.range numberOfPixels).foldlM
    (fun img p => do
      let index ← indexOfPixels[p]?
      let x ← checkedMod index width
      let y ← checkedDiv index width
      (List.range color).foldlM
        (fun img c => do
          let v ← coeffAt Idiff (c * numberOfPixels + p) c
          img.set x y c |v|)
        img)
    img

/-! ## DataStructure.hpp, the containers of the configuration -/

/-- The class `CPS::ObservationAll`: the observations, the file name of the mask, the
directory of the observations and the number of colour channels. -/
structure ObservationAll (K : Type) where
  observation_ : List (ObservationSingle K)
  strImageMask_ : String
  strDirObservation_ : String
  color_ : ℤ

/-- The default constructor `ObservationAll()`: no observation, empty names, one colour
channel. -/
def ObservationAll.ctor {K : Type} : ObservationAll K := ⟨[], "", "", 1⟩

/-- The getter `ObservationAll::observation()`. -/
def ObservationAll.observation {K : Type} (obsAll : ObservationAll K) :
    List (ObservationSingle K) :=
  obsAll.observation_

/-- The member `ObservationAll::addObservation`: `observation_.push_back(obs)`. -/
def ObservationAll.addObservation {K : Type} (obsAll : ObservationAll K)
    (obs : ObservationSingle K) : ObservationAll K :=
  { obsAll with observation_ := obsAll.observation_ ++ [obs] }

/-- The member `ObservationAll::numberOfObservation`. Its body is the expression statement
`observation_.size();`: the size is evaluated and dropped, and no `return` statement
follows. Control runs off the end of a function of return type `int`, which hands no
defined value to the caller: the result is `none`. -/
def ObservationAll.numberOfObservation {K : Type} (obsAll : ObservationAll K) : Option ℕ :=
  let _size := obsAll.observation_.length
  none

/-- The class `CPS::CpsConfig`: the observations, the output directory and the name of
the reflectance model. -/
structure CpsConfig (K : Type) where
  obsAll_ : ObservationAll K
  strDirOutput_ : String
  strReflection_ : String

/-- The default constructor `CpsConfig()`. -/
def CpsConfig.ctor {K : Type} : CpsConfig K := ⟨ObservationAll.ctor, "", ""⟩

/-- The getter `CpsConfig::obsAll()`. -/
def CpsConfig.obsAll {K : Type} (config : CpsConfig K) : ObservationAll K := config.obsAll_

/-- The member `CpsConfig::addObservation`: `obsAll_.addObservation(obs)`. -/
def CpsConfig.addObservation {K : Type} (config : CpsConfig K) (obs : ObservationSingle K) :
    CpsConfig K :=
  { config with obsAll_ := config.obsAll_.addObservation obs }

/-- The member `CpsConfig::numberOfObservation`: `return obsAll_.numberOfObservation();`. -/
def CpsConfig.numberOfObservation {K : Type} (config : CpsConfig K) : Option ℕ :=
  config.obsAll_.numberOfObservation

/-- The members of the class `CPS::CalibratedPhotometricStereo` that the accessors of the
pixel indices use. -/
structure CalibratedPhotometricStereo where
  width_ : ℕ
  height_ : ℕ
  color_ : ℕ
  indexOfPixels_ : List ℕ
  numberOfPixels_ : ℕ

/-- The setter `CalibratedPhotometricStereo::indexOfPixels(const std::vector<int>&)`:
it stores the list and sets `numberOfPixels_` to its size. -/
def CalibratedPhotometricStereo.setIndexOfPixels (cps : CalibratedPhotometricStereo)
    (indexOfPixels : List ℕ) : CalibratedPhotometricStereo :=
  { cps with indexOfPixels_ := indexOfPixels, numberOfPixels_ := indexOfPixels.length }

/-- The getter `CalibratedPhotometricStereo::numberOfPixels()`. -/
def CalibratedPhotometricStereo.numberOfPixels (cps : CalibratedPhotometricStereo) : ℕ :=
  cps.numberOfPixels_

/-- The member `CalibratedPhotometricStereo::indexOfPixel`:
`return indexOfPixels_[std::min(n, numberOfPixels_)];`, for an `int n`. -/
def CalibratedPhotometricStereo.indexOfPixel (cps : CalibratedPhotometricStereo) (n : ℤ) :
    Option ℕ :=
  let k := min n (cps.numberOfPixels_ : ℤ)
  if 0 ≤ k then cps.indexOfPixels_[k.toNat]? else none

/-! ## PhotometricStereoSolver.hpp, the albedo image and the reciprocals of the normals -/

/-- The function `saveSurfaceAlbedoToImage`, without the writing of the file. -/
def saveSurfaceAlbedoToImage {K : Type} [LinearOrderedField K] {ra rb : ℕ}
    (R : Matrix (Fin ra) (Fin rb) K) (indexOfPixels : List ℕ)
    (width height color : ℕ) : Option (CImg K) :=
  let img := CImg.filled width height color (0 : K)
  let numberOfPixels := indexOfPixels.length
  (List.range numberOfPixels).foldlM
    (fun img p => do
      let index ← indexOfPixels[p]?
      let x ← checkedMod index width
      let y ← checkedDiv index width
      (List.range color).foldlM
        (fun img c => do
          let v ← coeff R (c * numberOfPixels + p)
          img.set x y c (255 * (v + 1) / 2))
        img)
    img

/-- The divisors of the reciprocals `1.0 / R(c*numberOfPixels+p)` that the loops of
`estimateSurfaceNormal` evaluate, in the order of the loops: for every pixel `p` that
passes the test `R(p) > 0`, the entries `R(c*numberOfPixels+p)` of the channels
`c < color`. -/
def estimateSurfaceNormalDivisors {K : Type} [LinearOrderedField K] {ra rb : ℕ}
    (R : Matrix (Fin ra) (Fin rb) K) (numberOfPixels color : ℕ) : Option (List K) :=
  (List.range numberOfPixels).foldlM
    (fun divisors p => do
      let Rp ← coeff R p
      if Rp > 0 then
        (List.range color).foldlM
          (fun divisors c => do
            let Rcp ← coeff R (c * numberOfPixels + p)
            pure (divisors ++ [Rcp]))
          divisors
      else pure divisors)
    []

/-! ## utilString.hpp

A `std::string` is the list of its characters. The members `find`, `replace` and `substr`
of `std::string` follow the C++ standard library; a position beyond the end of the string
makes `replace` and `substr` throw, which is `none` here. The two `while` loops have no
bound of their own: the models take the number of passes they may make as `fuel`, and are
`none` when this number is used up. -/

/-- The search of `std::string::find`: the first position, counted from `pos`, at which
`pattern` starts in `rest`, the characters of the string from position `pos` on. -/
def StdString.findFrom (pattern : List Char) : List Char → ℕ → Option ℕ
  | [], pos => if pattern = [] then some pos else none
  | c :: rest, pos =>
    if pattern <+: c :: rest then some pos else StdString.findFrom pattern rest (pos + 1)

/-- The member `std::string::find(pattern, pos)`: the least position `i ≥ pos` at which
`pattern` occurs in `str`, and `npos`, here `none`, when there is none. -/
def StdString.find (str pattern : List Char) (pos : ℕ) : Option ℕ :=
  if pos ≤ str.length then StdString.findFrom pattern (str.drop pos) pos else none

/-- The member `std::string::substr(pos, len)`. -/
def StdString.substr (str : List Char) (pos len : ℕ) : Option (List Char) :=
  if pos ≤ str.length then some ((str.drop pos).take len) else none

/-- The member `std::string::substr(pos)`, to the end of the string. -/
def StdString.substrFrom (str : List Char) (pos : ℕ) : Option (List Char) :=
  if pos ≤ str.length then some (str.drop pos) else none

/-- The `while` loop of `splitString` with the rest `_str` of the string and the pieces
`res` found so far, followed by the statements after the loop. The `int p` that receives
the position found is a natural number, as for strings of fewer than `2^31` characters. -/
def splitStringLoop (delim : List Char) :
    ℕ → List Char → List (List Char) → Option (List (List Char))
  | 0, _, _ => none
  | fuel + 1, _str, res =>
    match StdString.find _str delim 0 with
    | some p => do
      let piece ← StdString.substr _str 0 p
      let _str ← StdString.substrFrom _str (p + delim.length)
      splitStringLoop delim fuel _str (res ++ [piece])
    | none => some (if _str.length > 0 then res ++ [_str] else res)

/-- The function `splitString(str, delim)`. -/
def splitString (fuel : ℕ) (str delim : List Char) : Option (List (List Char)) :=
  splitStringLoop delim fuel str []

/-! ## The arithmetic of `float`

`main.cpp` instantiates the templates with `float`, the format binary32 of IEEE 754. Its
values and its rounded operations are modelled here for the one function whose claim is
decided by rounding, `estimateSurfaceAlbedo`. The sign of a zero is not recorded. -/

/-- A value of the type `float`: a finite number, an infinity or a NaN. -/
inductive Binary32 where
  | finite (value : ℚ)
  | infinite (negative : Bool)
  | nan
  deriving DecidableEq

namespace Binary32

/-- The integer nearest to `q`, the even one of the two when `q` lies halfway. -/
def roundHalfEven (q : ℚ) : ℤ :=
  let f := ⌊q⌋
  let r := q - f
  if r < 1 / 2 then f else if 1 / 2 < r then f + 1 else if f % 2 = 0 then f else f + 1

/-- The spacing of the values of binary32 around `x`: `2 ^ (e - 23)` for the exponent
`e` of `x`, which is at least `-126` (below, the values are subnormal). -/
def ulp (x : ℚ) : ℚ :=
  2 ^ (max (Int.log 2 |x|) (-126) - 23)

/-- The rounding of a real result to binary32, to nearest and ties to even: a result
whose rounded magnitude reaches `2 ^ 128` overflows to an infinity, a result below half
of the least subnormal `2 ^ (-149)` underflows to zero. -/
def round (x : ℚ) : Binary32 :=
  let y : ℚ := roundHalfEven (x / ulp x) * ulp x
  if 2 ^ (128 : ℕ) ≤ |y| then infinite (decide (y < 0)) else finite y

/-- The product `a * b` of two values of `float`. -/
def mul : Binary32 → Binary32 → Binary32
  | finite a, finite b => round (a * b)
  | finite a, infinite s => if a = 0 then nan else infinite (xor s (decide (a < 0)))
  | infinite s, finite b => if b = 0 then nan else infinite (xor s (decide (b < 0)))
  | infinite s, infinite t => infinite (xor s t)
  | nan, _ => nan
  | _, nan => nan

/-- The sum `a + b` of two values of `float`. -/
def add : Binary32 → Binary32 → Binary32
  | finite a, finite b => round (a + b)
  | finite _, infinite s => infinite s
  | infinite s, finite _ => infinite s
  | infinite s, infinite t => if s = t then infinite s else nan
  | nan, _ => nan
  | _, nan => nan

/-- The square root `std::sqrt(a)` of a value of `float`, correctly rounded: with `u` the
spacing of binary32 around the root, the result is the multiple of `u` nearest to the
root. The root of a value of binary32 never lies halfway between two multiples. -/
def sqrt : Binary32 → Binary32
  | finite q =>
    if q < 0 then nan
    else
      let u : ℚ := 2 ^ (Int.log 2 q / 2 - 23)
      let t : ℚ := q / (u * u)
      let m : ℚ := Nat.sqrt ⌊t⌋₊
      if t ≤ (m + 1 / 2) ^ 2 then finite (m * u) else finite ((m + 1) * u)
  | infinite false => infinite false
  | infinite true => nan
  | nan => nan

/-- The reduction `v.squaredNorm()` in `float`: the squares of the coefficients, added
in the order of the indices. -/
def squaredNorm {n : ℕ} (v : Fin n → Binary32) : Binary32 :=
  (List.finRange n).foldl (fun acc j => add acc (mul (v j) (v j))) (finite 0)

/-- The norm `v.norm()` of Eigen in `float`: `sqrt(squaredNorm())`. -/
def norm {n : ℕ} (v : Fin n → Binary32) : Binary32 :=
  sqrt (squaredNorm v)

/-- The reduction `M.colwise().norm()` in `float`. -/
def colwiseNorm {a b : ℕ} (M : Matrix (Fin a) (Fin b) Binary32) :
    Matrix (Fin 1) (Fin b) Binary32 :=
  fun _ j => norm (fun i => M i j)

/-- The function `estimateSurfaceAlbedo` at the type `float` of the program. -/
def estimateSurfaceAlbedo {r c : ℕ} (S : Matrix (Fin r) (Fin c) Binary32) :
    Matrix (Fin 1) (Fin r) Binary32 :=
  let ST := Sᵀ
  colwiseNorm ST

end Binary32

/-! ## PhotometricStereoSolver.hpp, the rows written by `buildObservationMatrix` -/

/-- The rows of `I` that the loops over the pixels and the channels of
`buildObservationMatrix` write while one image is processed, in the order of the writes
`I(c*numberOfPixels+p, f) = pixelValue(c)`. -/
def buildObservationMatrixRows (indexOfPixels : List ℕ) (color : ℕ) : List ℕ :=
  let numberOfPixels := indexOfPixels.length
  (List.range numberOfPixels).foldl
    (fun rows p =>
      (List.range color).foldl (fun rows c => rows ++ [c * numberOfPixels + p]) rows)
    []

/-! ## The invariant of the scan of the mask -/

/-- The state of the scan of `loadAvailablePixels` when it stands before pixel `(x, y)`:
the list holds, in increasing order, the indices of the pixels of value `255` met so
far. -/
def scanned (mask : CImg ℕ) (x y : ℕ) (l : List ℕ) : Prop :=
  l.Sorted (· < ·) ∧ (∀ e ∈ l, e < y * mask.width + x) ∧
    ∀ e, e ∈ l ↔ ∃ x1 y1, x1 < mask.width ∧ (y1 < y ∨ (y1 = y ∧ x1 < x)) ∧
      e = y1 * mask.width + x1 ∧ mask.data x1 y1 0 = 255

/-! ## A solver for the worked examples -/

/-- A solver that answers every request with identity factors and unit singular values:
a decomposition of the identity matrices, used in the examples. -/
def identitySolver : SvdSolver ℝ :=
  fun m n _ _ => ⟨m, n, 1, 1, fun _ => 1⟩

/-- A second solver for the worked examples: it returns the decomposition of the
rectangular matrix with `2` on its diagonal by identity factors, with square factors for
`ComputeFull` and with their first `min m n` columns for `ComputeThin`. -/
def rectangularSolver : SvdSolver ℚ :=
  fun m n _ options =>
    match options with
    | .ComputeFull => ⟨m, n, 1, 1, fun _ => 2⟩
    | .ComputeThin =>
      ⟨min m n, min m n, fun i j => if i.val = j.val then 1 else 0,
        fun i j => if i.val = j.val then 1 else 0, fun _ => 2⟩

/-! ## Auxiliary lemmas -/

/-- The loop of `estimateSurface` in closed form. -/
theorem zeroRows_foldl {r : ℕ} (cond : Fin r → Prop) [DecidablePred cond]
    (l : List (Fin r)) (M : Matrix (Fin r) (Fin 3) ℝ) (i : Fin r) :
    (l.foldl (fun Shat k => if cond k then Shat.updateRow k 0 else Shat) M) i =
      if i ∈ l ∧ cond i then 0 else M i := by
  induction l generalizing M with
  | nil => simp
  | cons k l ih =>
    rw [List.foldl_cons, ih]
    by_cases hk : cond k
    · by_cases hik : i = k
      · subst hik
        simp [hk]
      · by_cases hl : i ∈ l ∧ cond i
        · have : (i = k ∨ i ∈ l) ∧ cond i := ⟨Or.inr hl.1, hl.2⟩
          simp [hl, this]
        · have : ¬ ((i = k ∨ i ∈ l) ∧ cond i) := by
            rintro ⟨h1 | h1, h2⟩
            · exact hik h1
            · exact hl ⟨h1, h2⟩
          simp [hl, this, hk, Matrix.updateRow_ne hik]
    · by_cases hik : i = k
      · subst hik
        simp [hk]
      · simp [hk, hik]

theorem estimateSurface_apply_row (jacobi : SvdSolver ℝ) (eps : ℝ) {r n : ℕ}
    (I : Matrix (Fin r) (Fin n) ℝ) (L : Matrix (Fin 3) (Fin n) ℝ) (i : Fin r) :
    estimateSurface jacobi eps I L i =
      if Eigen.norm (I i) < eps * 255 then 0 else (I * pinv jacobi L 0) i := by
  unfold estimateSurface
  rw [zeroRows_foldl (fun k => Eigen.norm (I k) < eps * 255)]
  simp [List.mem_finRange]

theorem Eigen.norm_nonneg {n : ℕ} (v : Fin n → ℝ) : 0 ≤ Eigen.norm v := Real.sqrt_nonneg _

theorem Eigen.norm_eq_zero_iff {n : ℕ} (v : Fin n → ℝ) : Eigen.norm v = 0 ↔ v = 0 := by
  unfold Eigen.norm
  have hnn : 0 ≤ ∑ j, v j * v j := Finset.sum_nonneg (fun j _ => mul_self_nonneg (v j))
  rw [Real.sqrt_eq_zero hnn, Finset.sum_eq_zero_iff_of_nonneg (fun j _ => mul_self_nonneg (v j))]
  constructor
  · intro h
    funext j
    simpa using h j (Finset.mem_univ j)
  · intro h j _
    simp [h]

theorem Eigen.norm_eq_euclidean {n : ℕ} (v : Fin n → ℝ) :
    Eigen.norm v = ‖(WithLp.equiv 2 (Fin n → ℝ)).symm v‖ := by
  unfold Eigen.norm
  rw [EuclideanSpace.norm_eq]
  congr 1
  apply Finset.sum_congr rfl
  intro j _
  simp [sq]

theorem Eigen.norm_zero {n : ℕ} : Eigen.norm (0 : Fin n → ℝ) = 0 :=
  (Eigen.norm_eq_zero_iff 0).2 rfl

theorem Eigen.row_of_lt {K : Type} {a b : ℕ} (M : Matrix (Fin a) (Fin b) K) {k : ℕ}
    (h : k < a) : row M k = some (M ⟨k, h⟩) := by
  simp [row, h]

theorem Eigen.coeff_isSome {K : Type} {a b : ℕ} (M : Matrix (Fin a) (Fin b) K) {k : ℕ}
    (h : k < a * b) : ∃ x, coeff M k = some x := by
  simp [coeff, h]

theorem Eigen.coeff_rowVector {K : Type} {b : ℕ} (M : Matrix (Fin 1) (Fin b) K) {k : ℕ}
    (h : k < b) : coeff M k = some (M 0 ⟨k, h⟩) := by
  have h1 : k < 1 * b := by omega
  simp only [coeff, h1, dif_pos]
  congr 1
  congr 1
  · apply Fin.ext; exact Nat.mod_one k
  · apply Fin.ext; exact Nat.div_one k

/-- The loop over the colour channels of `estimateSurfaceNormal` in closed form: the
first `k` rows of the scratch matrices are overwritten, the others are kept. -/
theorem channel_foldlM {K : Type} [LinearOrderedField K] {sr ra rb : ℕ}
    (S : Matrix (Fin sr) (Fin 3) K) (R : Matrix (Fin ra) (Fin rb) K) (P p : ℕ) (k : ℕ)
    (hk : k ≤ 3) (hS : ∀ c < k, c * P + p < sr) (hR : ∀ c < k, c * P + p < ra * rb)
    (A : Matrix (Fin 3) (Fin 3) K) (B : Matrix (Fin 1) (Fin 3) K) :
    (List.range k).foldlM (estimateSurfaceNormalChannel S R P p) (A, B) =
      some ((fun i => if i.val < k then (row S (i.val * P + p)).getD 0 else A i),
        (fun z j => if j.val < k then 1 / (coeff R (j.val * P + p)).getD 0 else B z j)) := by
  induction k with
  | zero => simp
  | succ k ih =>
    rw [List.range_succ, List.foldlM_append,
      ih (by omega) (fun c hc => hS c (by omega)) (fun c hc => hR c (by omega))]
    have h1 := hS k (by omega)
    obtain ⟨x, hx⟩ := Eigen.coeff_isSome R (hR k (by omega))
    have hk3 : k < 3 := by omega
    have hk3' : k < 1 * 3 := by omega
    simp only [Option.some_bind, Option.bind_eq_bind, List.foldlM_cons, List.foldlM_nil,
      estimateSurfaceNormalChannel, Eigen.row_of_lt S h1, setRow, hk3, dif_pos, hx,
      setCoeffLinear, hk3', if_pos, Option.pure_def, Option.bind_some]
    congr 1
    refine Prod.ext ?_ ?_
    · show Matrix.updateRow _ _ _ = _
      funext i
      by_cases hik : i = ⟨k, hk3⟩
      · subst hik
        simp [Eigen.row_of_lt S h1]
      · have : i.val ≠ k := fun h => hik (Fin.ext h)
        have h2 : (i.val < k + 1) ↔ (i.val < k) := by omega
        rw [Matrix.updateRow_ne hik]
        simp [h2]
    · show setCoeff _ _ _ _ = _
      funext z j
      by_cases hjk : j.val = k
      · have hz : z.val = 0 := by omega
        simp [setCoeff, hjk, hz, hx, Nat.mod_one]
      · have h2 : (j.val < k + 1) ↔ (j.val < k) := by omega
        simp [setCoeff, hjk, h2, Nat.div_one]

/-- The product `RsubInv * Ssub` after the channel loop, when the scratch rows from
`color` on are zero: a sum over the channels below `color`. -/
theorem scratch_product {K : Type} [LinearOrderedField K] (color : ℕ) (hc : color ≤ 3)
    (f : ℕ → K) (g : ℕ → Fin 3 → K) (A : Matrix (Fin 3) (Fin 3) K)
    (B : Matrix (Fin 1) (Fin 3) K)
    (hinv : ∀ i : Fin 3, color ≤ i.val → A i = 0 ∧ ∀ z, B z i = 0) (j : Fin 3) :
    ((Matrix.of fun (z : Fin 1) (i : Fin 3) => if i.val < color then f i.val else B z i) *
      (Matrix.of fun (i : Fin 3) => if i.val < color then g i.val else A i)) 0 j =
      ∑ c in Finset.range color, f c * g c j := by
  have hA : ∀ i : Fin 3, ¬ i.val < color → A i j = 0 := by
    intro i hi
    rw [(hinv i (by omega)).1]; rfl
  have hB : ∀ i : Fin 3, ¬ i.val < color → B 0 i = 0 := by
    intro i hi
    exact (hinv i (by omega)).2 0
  simp only [Matrix.mul_apply, Fin.sum_univ_three, Matrix.of_apply]
  interval_cases color
  · simp [hA, hB]
  · have := hA 1 (by simp); have := hA 2 (by simp); have := hB 1 (by simp)
    have := hB 2 (by simp)
    simp [Finset.sum_range_succ, *]
  · have := hA 2 (by simp); have := hB 2 (by simp)
    simp [Finset.sum_range_succ, *]
  · simp [Finset.sum_range_succ]

/-- One iteration of the loop over the pixels of `estimateSurfaceNormal`, when every
index is in range and the unused scratch rows are zero. -/
theorem pixel_step {K : Type} [LinearOrderedField K] {sr ra rb : ℕ}
    (S : Matrix (Fin sr) (Fin 3) K) (R : Matrix (Fin ra) (Fin rb) K) (P color : ℕ)
    (hc : color ≤ 3) (hS : color * P ≤ sr) (hR : color * P ≤ ra * rb) (hP : P ≤ ra * rb)
    (p : ℕ) (hp : p < P)
    (N : Matrix (Fin P) (Fin 3) K) (A : Matrix (Fin 3) (Fin 3) K)
    (B : Matrix (Fin 1) (Fin 3) K)
    (hinv : ∀ i : Fin 3, color ≤ i.val → A i = 0 ∧ ∀ z, B z i = 0) :
    ∃ A' B', estimateSurfaceNormalPixel S R P color (N, A, B) p =
        some ((if (coeff R p).getD 0 > 0 then
            N.updateRow ⟨p, hp⟩ (fun j => (∑ c in Finset.range color,
              (1 / (coeff R (c * P + p)).getD 0) * (row S (c * P + p)).getD 0 j) / 3)
          else N), A', B') ∧
      ∀ i : Fin 3, color ≤ i.val → A' i = 0 ∧ ∀ z, B' z i = 0 := by
  have hidx : ∀ c < color, c * P + p < color * P := by
    intro c hcc
    calc c * P + p < c * P + P := by omega
      _ = (c + 1) * P := by ring
      _ ≤ color * P := Nat.mul_le_mul_right P hcc
  obtain ⟨x, hx⟩ := Eigen.coeff_isSome R (lt_of_lt_of_le hp hP)
  by_cases hpos : x > 0
  · refine ⟨fun i => if i.val < color then (row S (i.val * P + p)).getD 0 else A i,
      fun z j => if j.val < color then 1 / (coeff R (j.val * P + p)).getD 0 else B z j,
      ?_, ?_⟩
    · simp only [estimateSurfaceNormalPixel, hx, Option.some_bind, Option.bind_eq_bind,
        hpos, if_pos, Option.getD_some]
      rw [channel_foldlM S R P p color hc (fun c h => lt_of_lt_of_le (hidx c h) hS)
        (fun c h => lt_of_lt_of_le (hidx c h) hR)]
      simp only [Option.some_bind, setRow, hp, dif_pos, Option.pure_def]
      refine congrArg some (Prod.ext ?_ rfl)
      show N.updateRow _ _ = N.updateRow _ _
      refine congrArg _ ?_
      funext j
      refine congrArg (fun t => t / 3) ?_
      exact scratch_product color hc (fun c => 1 / (coeff R (c * P + p)).getD 0)
        (fun c => (row S (c * P + p)).getD 0) A B hinv j
    · intro i hi
      have : ¬ i.val < color := by omega
      simp only [this, if_false]
      exact hinv i hi
  · refine ⟨A, B, ?_, hinv⟩
    simp [estimateSurfaceNormalPixel, hx, hpos]

/-- The loop over the pixels of `estimateSurfaceNormal` after `k` iterations. -/
theorem pixel_foldlM {K : Type} [LinearOrderedField K] {sr ra rb : ℕ}
    (S : Matrix (Fin sr) (Fin 3) K) (R : Matrix (Fin ra) (Fin rb) K) (P color : ℕ)
    (hc : color ≤ 3) (hS : color * P ≤ sr) (hR : color * P ≤ ra * rb) (hP : P ≤ ra * rb)
    (k : ℕ) (hk : k ≤ P) :
    ∃ A B, (List.range k).foldlM (estimateSurfaceNormalPixel S R P color)
        ((0 : Matrix (Fin P) (Fin 3) K), (0 : Matrix (Fin 3) (Fin 3) K),
          (0 : Matrix (Fin 1) (Fin 3) K)) =
        some ((fun q => if q.val < k ∧ (coeff R q.val).getD 0 > 0 then
            (fun j => (∑ c in Finset.range color,
              (1 / (coeff R (c * P + q.val)).getD 0) * (row S (c * P + q.val)).getD 0 j) / 3)
          else 0), A, B) ∧
      ∀ i : Fin 3, color ≤ i.val → A i = 0 ∧ ∀ z, B z i = 0 := by
  induction k with
  | zero =>
    refine ⟨0, 0, ?_, fun i _ => ⟨rfl, fun _ => rfl⟩⟩
    simp
    rfl
  | succ k ih =>
    obtain ⟨A, B, hfold, hinv⟩ := ih (by omega)
    obtain ⟨A', B', hstep, hinv'⟩ :=
      pixel_step S R P color hc hS hR hP k (by omega) _ A B hinv
    refine ⟨A', B', ?_, hinv'⟩
    rw [List.range_succ, List.foldlM_append, hfold]
    simp only [Option.some_bind, Option.bind_eq_bind, List.foldlM_cons, List.foldlM_nil,
      Option.pure_def]
    erw [hstep]
    simp only [Option.some_bind]
    refine congrArg some (Prod.ext ?_ rfl)
    funext q
    show (ite _ _ _ : Matrix (Fin P) (Fin 3) K) q = _
    by_cases hqk : q = ⟨k, by omega⟩
    · subst hqk
      by_cases hpos : (coeff R k).getD 0 > 0
      · simp [hpos]
      · simp [hpos]
    · have hne : q.val ≠ k := fun h => hqk (Fin.ext h)
      have h2 : q.val < k + 1 ↔ q.val < k := by omega
      by_cases hpos : (coeff R k).getD 0 > 0
      · simp only [hpos, if_true, h2]
        rw [Matrix.updateRow_ne hqk]
      · simp only [hpos, if_false, h2]

/-- The function `estimateSurfaceNormal` in closed form, when every index it forms is in
range. -/
theorem estimateSurfaceNormal_eq {K : Type} [LinearOrderedField K] {sr ra rb : ℕ}
    (S : Matrix (Fin sr) (Fin 3) K) (R : Matrix (Fin ra) (Fin rb) K) (P color : ℕ)
    (hc : color ≤ 3) (hS : color * P ≤ sr) (hR : color * P ≤ ra * rb) (hP : P ≤ ra * rb) :
    estimateSurfaceNormal S R P color =
      some (fun q => if (coeff R q.val).getD 0 > 0 then
          (fun j => (∑ c in Finset.range color,
            (1 / (coeff R (c * P + q.val)).getD 0) * (row S (c * P + q.val)).getD 0 j) / 3)
        else 0) := by
  obtain ⟨A, B, hfold, _⟩ := pixel_foldlM S R P color hc hS hR hP P le_rfl
  unfold estimateSurfaceNormal
  rw [hfold]
  simp only [Option.map_some', Option.some.injEq]
  funext q
  simp [q.isLt]

theorem foldlM_eq_none {α β : Type} (f : β → α → Option β) (l : List α) (a : α)
    (ha : a ∈ l) (hf : ∀ s, f s a = none) (s : β) : l.foldlM f s = none := by
  obtain ⟨l1, l2, rfl⟩ := List.append_of_mem ha
  rw [List.foldlM_append]
  cases h : List.foldlM f s l1 with
  | none => rfl
  | some s' => simp [hf]

/-- A fourth colour channel does not fit the `3 x 3` scratch matrix: as soon as one pixel
has a positive albedo, the call ends in an index error. -/
theorem estimateSurfaceNormal_eq_none {K : Type} [LinearOrderedField K] {sr ra rb : ℕ}
    (S : Matrix (Fin sr) (Fin 3) K) (R : Matrix (Fin ra) (Fin rb) K) (P color : ℕ)
    (hc : 3 < color) (p : ℕ) (hp : p < P) (x : K) (hx : coeff R p = some x) (hpos : x > 0) :
    estimateSurfaceNormal S R P color = none := by
  unfold estimateSurfaceNormal
  rw [foldlM_eq_none _ _ p (List.mem_range.2 hp)]
  · rfl
  · intro st
    simp only [estimateSurfaceNormalPixel, hx, Option.some_bind, Option.bind_eq_bind, hpos,
      if_pos]
    rw [foldlM_eq_none _ _ 3 (List.mem_range.2 hc)]
    · rfl
    · intro sc
      simp only [estimateSurfaceNormalChannel, Option.bind_eq_bind]
      cases row S (3 * P + p) with
      | none => rfl
      | some v => simp [setRow]

/-- A rectangular matrix that is zero off the diagonal, with `f t` at position `(t, t)`. -/
theorem rectDiag_mul {K : Type} [Field K] {a b c : ℕ} (f g : ℕ → K) :
    (Matrix.of fun (i : Fin a) (j : Fin b) => if i.val = j.val then f i.val else 0) *
      (Matrix.of fun (i : Fin b) (j : Fin c) => if i.val = j.val then g i.val else 0) =
      Matrix.of fun (i : Fin a) (j : Fin c) =>
        if i.val = j.val then (if i.val < b then f i.val * g i.val else 0) else 0 := by
  ext i j
  simp only [Matrix.mul_apply, Matrix.of_apply]
  by_cases hb : i.val < b
  · rw [Finset.sum_eq_single (⟨i.val, hb⟩ : Fin b)]
    · simp [hb]
    · intro k _ hk
      have : i.val ≠ k.val := fun h => hk (Fin.ext h.symm)
      simp [this]
    · intro h; exact absurd (Finset.mem_univ _) h
  · rw [Finset.sum_eq_zero]
    · simp [hb]
    · intro k _
      have : i.val ≠ k.val := by have := k.isLt; omega
      simp [this]

theorem rectDiag_congr {K : Type} [Field K] {a b : ℕ} (f g : ℕ → K)
    (h : ∀ t, t < a → t < b → f t = g t) :
    (Matrix.of fun (i : Fin a) (j : Fin b) => if i.val = j.val then f i.val else 0) =
      Matrix.of fun (i : Fin a) (j : Fin b) => if i.val = j.val then g i.val else 0 := by
  ext i j
  simp only [Matrix.of_apply]
  by_cases hij : i.val = j.val
  · simp [hij, h j.val (hij ▸ i.isLt) j.isLt]
  · simp [hij]

theorem sigma_eq_rectDiag {K : Type} [LinearOrderedField K] {m n : ℕ} (svd : JacobiSVD K m n) :
    svd.sigma = Matrix.of fun (i : Fin svd.colsU) (j : Fin svd.colsV) =>
      if i.val = j.val then svd.sv i.val else 0 := rfl

theorem sigma_transpose_eq_rectDiag {K : Type} [LinearOrderedField K] {m n : ℕ}
    (svd : JacobiSVD K m n) :
    svd.sigmaᵀ = Matrix.of fun (i : Fin svd.colsV) (j : Fin svd.colsU) =>
      if i.val = j.val then svd.sv i.val else 0 := by
  ext i j
  simp only [Matrix.transpose_apply, JacobiSVD.sigma, Matrix.of_apply]
  by_cases h : j.val = i.val
  · simp [h]
  · have : ¬ i.val = j.val := fun h' => h h'.symm
    simp [h, this]

/-- The loop of `getInverseSigma` over a list of indices. -/
theorem getInverseSigma_foldl {K : Type} [LinearOrderedField K] {a b d : ℕ}
    (f : ℕ → K) (ε : K) (l : List (Fin d)) (M : Matrix (Fin a) (Fin b) K)
    (j : Fin a) (i : Fin b) :
    (l.foldl (fun Sinv (k : Fin d) =>
        if f k.val > ε then setCoeff Sinv k.val k.val (1 / f k.val) else Sinv) M)
        j i =
      if j.val = i.val ∧ (∃ k ∈ l, k.val = j.val) ∧ f j.val > ε then 1 / f j.val
      else M j i := by
  induction l generalizing M with
  | nil => simp
  | cons k l ih =>
    rw [List.foldl_cons, ih]
    by_cases hc : j.val = i.val ∧ (∃ k' ∈ l, k'.val = j.val) ∧ f j.val > ε
    · have hc' : j.val = i.val ∧ (∃ k' ∈ k :: l, k'.val = j.val) ∧ f j.val > ε := by
        obtain ⟨h1, ⟨k', hk', hk''⟩, h3⟩ := hc
        exact ⟨h1, ⟨k', List.mem_cons_of_mem _ hk', hk''⟩, h3⟩
      rw [if_pos hc, if_pos hc']
    · rw [if_neg hc]
      by_cases hk : k.val = j.val ∧ j.val = i.val ∧ f j.val > ε
      · obtain ⟨h1, h2, h3⟩ := hk
        have hc' : j.val = i.val ∧ (∃ k' ∈ k :: l, k'.val = j.val) ∧ f j.val > ε :=
          ⟨h2, ⟨k, List.mem_cons_self _ _, h1⟩, h3⟩
        rw [if_pos hc']
        have hfk : f k.val > ε := h1 ▸ h3
        rw [if_pos hfk]
        simp [setCoeff, h1, h2]
      · have hc' :
            ¬ (j.val = i.val ∧ (∃ k' ∈ k :: l, k'.val = j.val) ∧ f j.val > ε) := by
          rintro ⟨h1, ⟨k', hk', hk''⟩, h3⟩
          rcases List.mem_cons.1 hk' with rfl | hmem
          · exact hk ⟨hk'', h1, h3⟩
          · exact hc ⟨h1, ⟨k', hmem, hk''⟩, h3⟩
        rw [if_neg hc']
        by_cases hfk : f k.val > ε
        · have : ¬ (j.val = k.val ∧ i.val = k.val) := by
            rintro ⟨h1, h2⟩
            exact hk ⟨h1.symm, h1.trans h2.symm, h1 ▸ hfk⟩
          simp [hfk, setCoeff, this]
        · simp [hfk]

theorem JacobiSVD.sv_val {K : Type} [LinearOrderedField K] {m n : ℕ} (svd : JacobiSVD K m n)
    (k : Fin (min m n)) : svd.sv k.val = svd.singularValues k := by
  simp [JacobiSVD.sv, k.isLt]

/-- The matrix returned by `getInverseSigma`, entry by entry. -/
theorem getInverseSigma_apply {K : Type} [LinearOrderedField K] {m n : ℕ}
    (svd : JacobiSVD K m n) (ε : K) :
    getInverseSigma svd ε = Matrix.of fun (j : Fin svd.colsV) (i : Fin svd.colsU) =>
      if j.val = i.val then
        (if j.val < min m n ∧ svd.sv j.val > ε then 1 / svd.sv j.val else 0) else 0 := by
  have hstep : (fun (Sinv : Matrix (Fin svd.colsV) (Fin svd.colsU) K) (i : Fin (min m n)) =>
      if svd.singularValues i > ε then setCoeff Sinv i i (1 / svd.singularValues i) else Sinv) =
      fun Sinv (k : Fin (min m n)) =>
        if svd.sv k.val > ε then setCoeff Sinv k.val k.val (1 / svd.sv k.val) else Sinv := by
    funext Sinv k
    rw [JacobiSVD.sv_val]
  ext j i
  unfold getInverseSigma
  simp only [hstep]
  rw [getInverseSigma_foldl]
  simp only [List.mem_finRange, true_and, Matrix.of_apply, Matrix.zero_apply]
  by_cases hji : j.val = i.val
  · by_cases hd : j.val < min m n
    · have : ∃ k : Fin (min m n), k.val = j.val := ⟨⟨j.val, hd⟩, rfl⟩
      simp [hji, hd, this, hji ▸ hd, hji ▸ this]
    · have : ¬ ∃ k : Fin (min m n), k.val = j.val := by
        rintro ⟨k, hk⟩; exact hd (hk ▸ k.isLt)
      have h2 : ¬ ∃ k : Fin (min m n), k.val = i.val := hji ▸ this
      have h3 : ¬ i.val < min m n := hji ▸ hd
      simp [hji, hd, this, h2, h3]
  · simp [hji]

theorem JacobiSVD.sv_of_not_lt {K : Type} [LinearOrderedField K] {m n : ℕ}
    (svd : JacobiSVD K m n) {t : ℕ} (h : ¬ t < min m n) : svd.sv t = 0 := by
  simp [JacobiSVD.sv, h]

/-- When every non-zero singular value is above the tolerance, the truncated inverse
`Sinv` of `getInverseSigma` satisfies `Sinv * Sigma * Sigma^T = Sigma^T`. -/
theorem getInverseSigma_mul_sigma_mul_transpose {K : Type} [LinearOrderedField K] {m n : ℕ}
    (svd : JacobiSVD K m n) (ε : K)
    (hσ : ∀ i, svd.singularValues i ≠ 0 → svd.singularValues i > ε) :
    getInverseSigma svd ε * svd.sigma * svd.sigmaᵀ = svd.sigmaᵀ := by
  rw [getInverseSigma_apply, sigma_transpose_eq_rectDiag, sigma_eq_rectDiag,
    rectDiag_mul (fun t => if t < min m n ∧ svd.sv t > ε then 1 / svd.sv t else 0)
      (fun t => svd.sv t),
    rectDiag_mul (fun t => if t < svd.colsU then
      (if t < min m n ∧ svd.sv t > ε then 1 / svd.sv t else 0) * svd.sv t else 0)
      (fun t => svd.sv t)]
  have key : ∀ t, t < svd.colsV → t < svd.colsU →
      (if t < svd.colsV then (if t < svd.colsU then
        (if t < min m n ∧ svd.sv t > ε then 1 / svd.sv t else 0) * svd.sv t else 0) * svd.sv t
        else 0) = svd.sv t := by
    intro t h1 h2
    rw [if_pos h1, if_pos h2]
    by_cases hd : t < min m n
    · by_cases hpos : svd.sv t > ε
      · rw [if_pos ⟨hd, hpos⟩]
        by_cases h0 : svd.sv t = 0
        · simp [h0]
        · field_simp
      · have h0 : svd.sv t = 0 := by
          by_contra hne
          have := hσ ⟨t, hd⟩ (by rwa [← JacobiSVD.sv_val svd ⟨t, hd⟩])
          rw [← JacobiSVD.sv_val svd ⟨t, hd⟩] at this
          exact hpos this
        simp [h0]
    · simp [hd, JacobiSVD.sv_of_not_lt svd hd]
  exact rectDiag_congr _ _ key

/-- When all the singular values are above a non-negative tolerance and `Sigma` has at
least as many columns as rows, `Sigma * Sinv` is the identity. -/
theorem sigma_mul_getInverseSigma {K : Type} [LinearOrderedField K] {m n : ℕ}
    (svd : JacobiSVD K m n) (ε : K) (hε : 0 ≤ ε)
    (hshape : svd.colsU ≤ min m n ∧ svd.colsU ≤ svd.colsV)
    (hσ : ∀ i, svd.singularValues i > ε) :
    svd.sigma * getInverseSigma svd ε = 1 := by
  rw [getInverseSigma_apply, sigma_eq_rectDiag, rectDiag_mul (fun t => svd.sv t)
    (fun t => if t < min m n ∧ svd.sv t > ε then 1 / svd.sv t else 0)]
  ext i j
  simp only [Matrix.of_apply, Matrix.one_apply]
  have hi : i.val < min m n := lt_of_lt_of_le i.isLt hshape.1
  have hi' : i.val < svd.colsV := lt_of_lt_of_le i.isLt hshape.2
  have hpos : svd.sv i.val > ε := by
    have := hσ ⟨i.val, hi⟩
    rwa [← JacobiSVD.sv_val svd ⟨i.val, hi⟩] at this
  have hne : svd.sv i.val ≠ 0 := ne_of_gt (lt_of_le_of_lt hε hpos)
  by_cases hij : i = j
  · subst hij
    simp only [if_true, hi', hi, hpos, and_self]
    field_simp
  · have : ¬ i.val = j.val := fun h => hij (Fin.ext h)
    simp [this, hij]

/-- The normal equations of the pseudoinverse assembled from a singular value
decomposition: `A+ * A * A^T = A^T`. -/
theorem pinvSvd_mul_mul_transpose {K : Type} [LinearOrderedField K] {m n : ℕ}
    (A : Matrix (Fin m) (Fin n) K) (svd : JacobiSVD K m n) (ε : K) (hsvd : IsSVD A svd)
    (hσ : ∀ i, svd.singularValues i ≠ 0 → svd.singularValues i > ε) :
    svd.matrixV * getInverseSigma svd ε * svd.matrixUᵀ * A * Aᵀ = Aᵀ := by
  have hT : Aᵀ = svd.matrixV * svd.sigmaᵀ * svd.matrixUᵀ := by
    rw [hsvd.decomp]
    simp [Matrix.transpose_mul, Matrix.mul_assoc]
  have hA := hsvd.decomp
  calc svd.matrixV * getInverseSigma svd ε * svd.matrixUᵀ * A * Aᵀ
      = svd.matrixV * getInverseSigma svd ε * svd.matrixUᵀ *
          (svd.matrixU * svd.sigma * svd.matrixVᵀ) *
          (svd.matrixV * svd.sigmaᵀ * svd.matrixUᵀ) := by rw [hT, ← hA]
    _ = svd.matrixV * (getInverseSigma svd ε * (svd.matrixUᵀ * svd.matrixU) * svd.sigma *
          (svd.matrixVᵀ * svd.matrixV) * svd.sigmaᵀ) * svd.matrixUᵀ := by
        simp only [Matrix.mul_assoc]
    _ = svd.matrixV * (getInverseSigma svd ε * svd.sigma * svd.sigmaᵀ) * svd.matrixUᵀ := by
        rw [hsvd.orthoU, hsvd.orthoV, Matrix.mul_one, Matrix.mul_one]
    _ = Aᵀ := by rw [getInverseSigma_mul_sigma_mul_transpose svd ε hσ, hT]

/-- For a full decomposition of a matrix with at most as many rows as columns, all of
whose singular values are above the tolerance, the assembled pseudoinverse is a right
inverse. -/
theorem mul_pinvSvd_eq_one {K : Type} [LinearOrderedField K] {m n : ℕ}
    (A : Matrix (Fin m) (Fin n) K) (svd : JacobiSVD K m n) (ε : K) (hε : 0 ≤ ε)
    (hsvd : IsSVD A svd) (hfull : svd.IsFull) (hmn : m ≤ n)
    (hσ : ∀ i, svd.singularValues i > ε) :
    A * (svd.matrixV * getInverseSigma svd ε * svd.matrixUᵀ) = 1 := by
  have hshape : svd.colsU ≤ min m n ∧ svd.colsU ≤ svd.colsV := by
    rw [hfull.1, hfull.2]; exact ⟨le_min le_rfl hmn, hmn⟩
  have hUU : svd.matrixU * svd.matrixUᵀ = 1 := by
    obtain ⟨cu, cv, U, V, σ⟩ := svd
    obtain ⟨h1, h2⟩ := hfull
    simp only at h1 h2
    subst h1
    exact Matrix.mul_eq_one_comm.1 hsvd.orthoU
  calc A * (svd.matrixV * getInverseSigma svd ε * svd.matrixUᵀ)
      = svd.matrixU * svd.sigma * svd.matrixVᵀ *
          (svd.matrixV * getInverseSigma svd ε * svd.matrixUᵀ) := by rw [← hsvd.decomp]
    _ = svd.matrixU * (svd.sigma * (svd.matrixVᵀ * svd.matrixV) * getInverseSigma svd ε) *
          svd.matrixUᵀ := by simp only [Matrix.mul_assoc]
    _ = 1 := by
        rw [hsvd.orthoV, Matrix.mul_one, sigma_mul_getInverseSigma svd ε hε hshape hσ,
          Matrix.mul_one, hUU]

/-- The default dispatch of `pinv` unfolded: the product `V * Sinv * U^T` of `pinvSvdFull`. -/
theorem pinv_zero_eq {K : Type} [LinearOrderedField K] (jacobi : SvdSolver K) {m n : ℕ}
    (A : Matrix (Fin m) (Fin n) K) :
    pinv jacobi A 0 =
      (jacobi m n A DecompositionOptions.ComputeFull).matrixV *
        getInverseSigma (jacobi m n A DecompositionOptions.ComputeFull) defaultEpsilon *
        (jacobi m n A DecompositionOptions.ComputeFull).matrixUᵀ := rfl

/-- The tolerance `1e-6` is not negative. -/
theorem defaultEpsilon_nonneg {K : Type} [LinearOrderedField K] :
    (0 : K) ≤ defaultEpsilon := by
  unfold defaultEpsilon; norm_num

/-- When no row of `I` is below the threshold, `estimateSurface` is the plain product. -/
theorem estimateSurface_eq_mul (jacobi : SvdSolver ℝ) (eps : ℝ) {r n : ℕ}
    (I : Matrix (Fin r) (Fin n) ℝ) (L : Matrix (Fin 3) (Fin n) ℝ)
    (hI : ∀ i, ¬ Eigen.norm (I i) < eps * 255) :
    estimateSurface jacobi eps I L = I * pinv jacobi L 0 := by
  funext i
  rw [estimateSurface_apply_row, if_neg (hI i)]

/-- A residual orthogonal to the rows of `L` is the smallest one in the sum of squares. -/
theorem sum_sq_le_of_normal_eq {r n : ℕ} (I : Matrix (Fin r) (Fin n) ℝ)
    (S S' : Matrix (Fin r) (Fin 3) ℝ) (L : Matrix (Fin 3) (Fin n) ℝ)
    (h : (I - S * L) * Lᵀ = 0) :
    ∑ i, ∑ j, (I - S * L) i j ^ 2 ≤ ∑ i, ∑ j, (I - S' * L) i j ^ 2 := by
  have hsplit : I - S' * L = (I - S * L) + (S - S') * L := by
    rw [Matrix.sub_mul]; abel
  have hsq : ∀ M : Matrix (Fin r) (Fin n) ℝ, ∑ i, ∑ j, M i j ^ 2 = (M * Mᵀ).trace := by
    intro M
    simp [Matrix.trace, Matrix.mul_apply, sq]
  have hcross : ((I - S * L) * ((S - S') * L)ᵀ).trace = 0 := by
    rw [Matrix.transpose_mul, ← Matrix.mul_assoc, h, Matrix.zero_mul, Matrix.trace_zero]
  have hcross' : (((S - S') * L) * (I - S * L)ᵀ).trace = 0 := by
    rw [← Matrix.trace_transpose, Matrix.transpose_mul, Matrix.transpose_transpose, hcross]
  rw [hsq, hsq, hsplit, Matrix.transpose_add, Matrix.add_mul, Matrix.mul_add, Matrix.mul_add,
    Matrix.trace_add, Matrix.trace_add, Matrix.trace_add, hcross, hcross']
  have hnn : 0 ≤ (((S - S') * L) * ((S - S') * L)ᵀ).trace := by
    rw [← hsq]
    exact Finset.sum_nonneg (fun i _ => Finset.sum_nonneg (fun j _ => sq_nonneg _))
  linarith

/-- Row `c*numberOfPixels + p` lies among the first `color*numberOfPixels` rows. -/
theorem channel_row_lt {color P : ℕ} (c : Fin color) (p : Fin P) :
    c.val * P + p.val < color * P := by
  calc c.val * P + p.val < c.val * P + P := by have := p.isLt; omega
    _ = (c.val + 1) * P := by ring
    _ ≤ color * P := Nat.mul_le_mul_right P c.isLt

/-- Pixel `p` of channel `0` is one of the `color*numberOfPixels` rows as soon as there
is a channel. -/
theorem pixel_lt_rows {color P : ℕ} (h1 : 1 ≤ color) (p : Fin P) : p.val < color * P :=
  lt_of_lt_of_le p.isLt (Nat.le_mul_of_pos_left P h1)

/-- The function `estimateSurfaceNormal` on a row vector `R`, in closed form with
checked indices. -/
theorem estimateSurfaceNormal_apply {K : Type} [LinearOrderedField K] {sr rr : ℕ}
    (S : Matrix (Fin sr) (Fin 3) K) (R : Matrix (Fin 1) (Fin rr) K) (P color : ℕ)
    (hc : color ≤ 3) (hS : color * P ≤ sr) (hR : color * P ≤ rr) (hP : P ≤ rr) :
    ∃ N, estimateSurfaceNormal S R P color = some N ∧
      ∀ p : Fin P, N p =
        if R 0 ⟨p.val, lt_of_lt_of_le p.isLt hP⟩ > 0 then
          fun j => (∑ c : Fin color,
            (1 / R 0 ⟨c.val * P + p.val, lt_of_lt_of_le (channel_row_lt c p) hR⟩) *
              S ⟨c.val * P + p.val, lt_of_lt_of_le (channel_row_lt c p) hS⟩ j) / 3
        else 0 := by
  refine ⟨_, estimateSurfaceNormal_eq S R P color hc hS (by simpa using hR)
    (by simpa using hP), ?_⟩
  intro p
  rw [Eigen.coeff_rowVector R (lt_of_lt_of_le p.isLt hP), Option.getD_some]
  by_cases hpos : R 0 ⟨p.val, lt_of_lt_of_le p.isLt hP⟩ > 0
  · rw [if_pos hpos, if_pos hpos]
    funext j
    refine congrArg (fun t => t / 3) ?_
    rw [Finset.sum_range]
    apply Finset.sum_congr rfl
    intro c _
    rw [Eigen.coeff_rowVector R (lt_of_lt_of_le (channel_row_lt c p) hR),
      Eigen.row_of_lt S (lt_of_lt_of_le (channel_row_lt c p) hS)]
    rfl
  · rw [if_neg hpos, if_neg hpos]

/-- The norm of a scaled vector. -/
theorem Eigen.norm_smul {n : ℕ} (a : ℝ) (v : Fin n → ℝ) :
    Eigen.norm (fun j => a * v j) = |a| * Eigen.norm v := by
  unfold Eigen.norm
  have : ∑ j, a * v j * (a * v j) = a ^ 2 * ∑ j, v j * v j := by
    rw [Finset.mul_sum]
    exact Finset.sum_congr rfl (fun j _ => by ring)
  rw [this, Real.sqrt_mul (sq_nonneg a), Real.sqrt_sq_eq_abs]

/-- In the single-channel pipeline a pixel with positive albedo receives a normal of
Euclidean norm `1/3`, a pixel without albedo receives the zero vector. -/
theorem estimateSurfaceNormal_single_channel {P : ℕ} (S : Matrix (Fin P) (Fin 3) ℝ) :
    ∃ N : Matrix (Fin P) (Fin 3) ℝ,
      estimateSurfaceNormal S (estimateSurfaceAlbedo S) P 1 = some N ∧
      ∀ p : Fin P, (estimateSurfaceAlbedo S 0 p > 0 → Eigen.norm (N p) = 1 / 3) ∧
        (estimateSurfaceAlbedo S 0 p ≤ 0 → N p = 0) := by
  obtain ⟨N, hN, hrow⟩ := estimateSurfaceNormal_apply S (estimateSurfaceAlbedo S) P 1
    (by norm_num) (by omega) (by omega) le_rfl
  refine ⟨N, hN, fun p => ⟨fun hpos => ?_, fun hle => ?_⟩⟩
  · have hR : estimateSurfaceAlbedo S 0 p = Eigen.norm (S p) := rfl
    have hNp : N p = fun j => (1 / (3 * Eigen.norm (S p))) * S p j := by
      rw [hrow p, if_pos hpos]
      funext j
      simp only [Fin.sum_univ_one, Fin.val_zero, zero_mul, zero_add, Fin.eta, hR]
      rw [hR] at hpos
      field_simp
      left; ring
    rw [hNp, Eigen.norm_smul]
    rw [hR] at hpos
    rw [abs_of_pos (by positivity)]
    field_simp
    ring
  · rw [hrow p, if_neg (not_lt.2 hle)]

/-- The solver of the examples decomposes the identity matrix. -/
theorem identitySolver_isSVD (n : ℕ) (o : DecompositionOptions) :
    IsSVD (1 : Matrix (Fin n) (Fin n) ℝ) (identitySolver n n 1 o) := by
  have hs : JacobiSVD.sigma (⟨n, n, 1, 1, fun _ => 1⟩ : JacobiSVD ℝ n n) =
      (1 : Matrix (Fin n) (Fin n) ℝ) := by
    ext i j
    have hi : i.val < min n n := lt_min i.isLt i.isLt
    by_cases hij : i = j
    · subst hij
      simp [JacobiSVD.sigma, JacobiSVD.sv, hi]
    · have : ¬ i.val = j.val := fun h => hij (Fin.ext h)
      simp [JacobiSVD.sigma, this, hij]
  exact
    { orthoU := by simp [identitySolver]
      orthoV := by simp [identitySolver]
      nonneg := fun _ => by simp [identitySolver]
      decomp := by
        show (1 : Matrix (Fin n) (Fin n) ℝ) =
          (1 : Matrix (Fin n) (Fin n) ℝ) *
            JacobiSVD.sigma (⟨n, n, 1, 1, fun _ => 1⟩ : JacobiSVD ℝ n n) *
            (1 : Matrix (Fin n) (Fin n) ℝ)ᵀ
        rw [hs]
        simp }

/-- The row `(1, 0, 0)` has norm `1`, above the threshold of single precision. -/
theorem norm_example_row (i : Fin 1) :
    ¬ Eigen.norm ((!![1, 0, 0] : Matrix (Fin 1) (Fin 3) ℝ) i) < 2⁻¹ ^ 23 * 255 := by
  have h : Eigen.norm ((!![1, 0, 0] : Matrix (Fin 1) (Fin 3) ℝ) i) = 1 := by
    fin_cases i
    unfold Eigen.norm
    simp [Fin.sum_univ_three]
  rw [h]
  norm_num

/-- The adjugate over the determinant is the inverse of Mathlib. -/
theorem Eigen.inverse_eq_inv {K : Type} [Field K] {n : ℕ} (B : Matrix (Fin n) (Fin n) K) :
    Eigen.inverse B = B⁻¹ := by
  rw [Eigen.inverse, Matrix.inv_def, Ring.inverse_eq_inv']

/-- The exact inverse is a left inverse of a matrix with invertible determinant. -/
theorem Eigen.inverse_mul_self {K : Type} [Field K] {n : ℕ} (B : Matrix (Fin n) (Fin n) K)
    (h : IsUnit B.det) : Eigen.inverse B * B = 1 := by
  rw [Eigen.inverse_eq_inv, Matrix.nonsing_inv_mul B h]

/-- A square matrix of full rank has an invertible determinant. -/
theorem isUnit_det_of_rank_eq {K : Type} [Field K] {n : ℕ} (B : Matrix (Fin n) (Fin n) K)
    (h : B.rank = n) : IsUnit B.det := by
  have hrange : LinearMap.range B.mulVecLin = ⊤ := by
    apply Submodule.eq_top_of_finrank_eq
    rw [← Matrix.rank, h]
    simp
  have hsurj : Function.Surjective B.mulVecLin := LinearMap.range_eq_top.1 hrange
  have hinj : Function.Injective B.mulVecLin := LinearMap.injective_iff_surjective.2 hsurj
  have hunit : IsUnit B := Matrix.mulVec_injective_iff_isUnit.1 hinj
  exact (Matrix.isUnit_iff_isUnit_det B).1 hunit

/-! ## Auxiliary lemmas for the arithmetic of `float` -/

/-- A number in `[0, 1/2)` is rounded to `0`. -/
theorem Binary32.roundHalfEven_of_lt {q : ℚ} (h0 : 0 ≤ q) (h1 : q < 1 / 2) :
    Binary32.roundHalfEven q = 0 := by
  have hf : ⌊q⌋ = 0 := Int.floor_eq_zero_iff.2 ⟨h0, by linarith⟩
  unfold Binary32.roundHalfEven
  simp only [hf, Int.cast_zero, sub_zero]
  rw [if_pos h1]

/-- An integer is rounded to itself. -/
theorem Binary32.roundHalfEven_intCast (k : ℤ) : Binary32.roundHalfEven (k : ℚ) = k := by
  simp [Binary32.roundHalfEven]

/-- The spacing of binary32 around a power of two. -/
theorem Binary32.ulp_two_zpow (z : ℤ) :
    Binary32.ulp ((2 : ℚ) ^ z) = 2 ^ (max z (-126) - 23) := by
  unfold Binary32.ulp
  have h : |(2 : ℚ) ^ z| = ((2 : ℕ) : ℚ) ^ z := by
    rw [abs_of_pos (by positivity)]; norm_num
  rw [h, Int.log_zpow (by norm_num)]

/-- The number `2 ^ (-100)` is a value of binary32. -/
theorem Binary32.round_two_zpow_neg_100 :
    Binary32.round ((2 : ℚ) ^ (-100 : ℤ)) = Binary32.finite ((2 : ℚ) ^ (-100 : ℤ)) := by
  unfold Binary32.round
  rw [Binary32.ulp_two_zpow]
  have h1 : (2 : ℚ) ^ (-100 : ℤ) / 2 ^ (max (-100 : ℤ) (-126) - 23) =
      ((2 ^ 23 : ℤ) : ℚ) := by
    norm_num
  simp only [h1, Binary32.roundHalfEven_intCast]
  have h2 : (((2 ^ 23 : ℤ) : ℚ)) * 2 ^ (max (-100 : ℤ) (-126) - 23) = 2 ^ (-100 : ℤ) := by
    norm_num
  rw [h2, if_neg]
  rw [abs_of_pos (by positivity)]
  norm_num

/-- The square of `2 ^ (-100)` lies below half of the least subnormal value and is rounded
to zero. -/
theorem Binary32.round_two_zpow_neg_200 :
    Binary32.round ((2 : ℚ) ^ (-100 : ℤ) * 2 ^ (-100 : ℤ)) = Binary32.finite 0 := by
  have hx : (2 : ℚ) ^ (-100 : ℤ) * 2 ^ (-100 : ℤ) = 2 ^ (-200 : ℤ) := by
    rw [← zpow_add₀ (by norm_num)]; norm_num
  rw [hx]
  unfold Binary32.round
  rw [Binary32.ulp_two_zpow]
  have h1 : (2 : ℚ) ^ (-200 : ℤ) / 2 ^ (max (-200 : ℤ) (-126) - 23) = 2 ^ (-51 : ℤ) := by
    norm_num
  have h2 : Binary32.roundHalfEven ((2 : ℚ) ^ (-51 : ℤ)) = 0 :=
    Binary32.roundHalfEven_of_lt (by positivity) (by norm_num)
  simp only [h1, h2, Int.cast_zero, zero_mul, abs_zero]
  rw [if_neg (by norm_num)]

/-- Zero is a value of binary32. -/
theorem Binary32.round_zero : Binary32.round 0 = Binary32.finite 0 := by
  simp [Binary32.round, Binary32.roundHalfEven]

/-- The square root of zero is zero. -/
theorem Binary32.sqrt_zero : Binary32.sqrt (Binary32.finite 0) = Binary32.finite 0 := by
  simp [Binary32.sqrt]

/-- The squared norm of three coefficients in `float`. -/
theorem Binary32.squaredNorm_three (v : Fin 3 → Binary32) :
    Binary32.squaredNorm v =
      Binary32.add (Binary32.add (Binary32.add (Binary32.finite 0)
        (Binary32.mul (v 0) (v 0))) (Binary32.mul (v 1) (v 1))) (Binary32.mul (v 2) (v 2)) := by
  rw [Binary32.squaredNorm]
  rfl

/-- The albedo that `estimateSurfaceAlbedo` computes in `float` for a row of three
coefficients. -/
theorem Binary32.estimateSurfaceAlbedo_apply {r : ℕ} (S : Matrix (Fin r) (Fin 3) Binary32)
    (i : Fin r) :
    Binary32.estimateSurfaceAlbedo S 0 i =
      Binary32.sqrt (Binary32.add (Binary32.add (Binary32.add (Binary32.finite 0)
        (Binary32.mul (S i 0) (S i 0))) (Binary32.mul (S i 1) (S i 1)))
        (Binary32.mul (S i 2) (S i 2))) := by
  rw [Binary32.estimateSurfaceAlbedo]
  show Binary32.sqrt (Binary32.squaredNorm (fun j => S i j)) = _
  rw [Binary32.squaredNorm_three]

/-! ## The claims -/

/-- Claim C1. For every observation matrix `I` and light matrix `L` (three rows), row `i`
of `estimateSurface(I, L)` is the zero row when the Euclidean norm of row `i` of `I` is
strictly below `eps*255`, and is row `i` of `I` times `pinv(L, 0)` otherwise; `pinv(L, 0)`
is the full-SVD pseudoinverse. The result has the rows of `I` and three columns. -/
theorem estimateSurface_rows (jacobi : SvdSolver ℝ) (eps : ℝ) {r n : ℕ}
    (I : Matrix (Fin r) (Fin n) ℝ) (L : Matrix (Fin 3) (Fin n) ℝ) (i : Fin r) :
    estimateSurface jacobi eps I L i =
        (if Eigen.norm (I i) < eps * 255 then 0
          else Matrix.vecMul (I i) (pinv jacobi L 0)) ∧
      pinv jacobi L 0 = pinvSvdFull jacobi L := by
  refine ⟨?_, rfl⟩
  rw [estimateSurface_apply_row]
  rfl

/-- Claim C2. When the decomposition that Eigen returns for `L` is a singular value
decomposition whose non-zero singular values all exceed `1e-6`, and no row of `I` has a
norm below `eps*255`, then `S = estimateSurface(I, L)` solves the normal equations
`(I - S*L) * L^T = 0` and the Frobenius norm of `I - S*L` is at most that of `I - S'*L`
for every other `S'`. -/
theorem estimateSurface_least_squares (jacobi : SvdSolver ℝ) (eps : ℝ) {r n : ℕ}
    (I : Matrix (Fin r) (Fin n) ℝ) (L : Matrix (Fin 3) (Fin n) ℝ)
    (hsvd : IsSVD L (jacobi 3 n L DecompositionOptions.ComputeFull))
    (hσ : ∀ i, (jacobi 3 n L DecompositionOptions.ComputeFull).singularValues i ≠ 0 →
      (jacobi 3 n L DecompositionOptions.ComputeFull).singularValues i > 1e-6)
    (hI : ∀ i, ¬ Eigen.norm (I i) < eps * 255) :
    (I - estimateSurface jacobi eps I L * L) * Lᵀ = 0 ∧
      ∀ S' : Matrix (Fin r) (Fin 3) ℝ,
        Real.sqrt (∑ i, ∑ j, (I - estimateSurface jacobi eps I L * L) i j ^ 2) ≤
          Real.sqrt (∑ i, ∑ j, (I - S' * L) i j ^ 2) := by
  have hnormal : (I - estimateSurface jacobi eps I L * L) * Lᵀ = 0 := by
    rw [estimateSurface_eq_mul jacobi eps I L hI, pinv_zero_eq, Matrix.sub_mul,
      Matrix.mul_assoc I, Matrix.mul_assoc I,
      pinvSvd_mul_mul_transpose L _ defaultEpsilon hsvd hσ, sub_self]
  exact ⟨hnormal, fun S' => Real.sqrt_le_sqrt (sum_sq_le_of_normal_eq I _ S' L hnormal)⟩

/-- Claim C2 at a concrete input: the identity light matrix with its decomposition by identity
factors, and the single observation row `(1, 0, 0)` in single precision. -/
theorem estimateSurface_least_squares_witness :
    IsSVD (1 : Matrix (Fin 3) (Fin 3) ℝ)
        (identitySolver 3 3 1 DecompositionOptions.ComputeFull) ∧
      ((!![1, 0, 0] : Matrix (Fin 1) (Fin 3) ℝ) -
        estimateSurface identitySolver (2⁻¹ ^ 23) (!![1, 0, 0] : Matrix (Fin 1) (Fin 3) ℝ)
          (1 : Matrix (Fin 3) (Fin 3) ℝ) * (1 : Matrix (Fin 3) (Fin 3) ℝ)) *
        (1 : Matrix (Fin 3) (Fin 3) ℝ)ᵀ = 0 :=
  ⟨identitySolver_isSVD 3 _,
    (estimateSurface_least_squares identitySolver (2⁻¹ ^ 23)
      (!![1, 0, 0] : Matrix (Fin 1) (Fin 3) ℝ) (1 : Matrix (Fin 3) (Fin 3) ℝ)
      (identitySolver_isSVD 3 _)
      (fun _ _ => by simp only [identitySolver]; norm_num) norm_example_row).1⟩

/-- Claim C3. For a light matrix `L` of rank `3` whose (full) decomposition has all its
singular values above `1e-6`, and intensities `I = S0 * L` without a row of norm below
`eps*255`, `estimateSurface(I, L)` is `S0`, the product `S * L` gives back `I`, and
`computeErrorLambertian(I, S, L)` is the zero matrix. -/
theorem estimateSurface_exact (jacobi : SvdSolver ℝ) (eps : ℝ) {r n : ℕ}
    (S0 : Matrix (Fin r) (Fin 3) ℝ) (L : Matrix (Fin 3) (Fin n) ℝ)
    (hsvd : IsSVD L (jacobi 3 n L DecompositionOptions.ComputeFull))
    (hfull : (jacobi 3 n L DecompositionOptions.ComputeFull).IsFull)
    (hrank : L.rank = 3)
    (hσ : ∀ i, (jacobi 3 n L DecompositionOptions.ComputeFull).singularValues i > 1e-6)
    (hI : ∀ i, ¬ Eigen.norm ((S0 * L) i) < eps * 255) :
    estimateSurface jacobi eps (S0 * L) L = S0 ∧
      estimateSurface jacobi eps (S0 * L) L * L = S0 * L ∧
      computeErrorLambertian (S0 * L) (estimateSurface jacobi eps (S0 * L) L) L = 0 := by
  have h3n : 3 ≤ n := hrank ▸ Matrix.rank_le_width L
  have hS : estimateSurface jacobi eps (S0 * L) L = S0 := by
    rw [estimateSurface_eq_mul jacobi eps (S0 * L) L hI, pinv_zero_eq, Matrix.mul_assoc,
      mul_pinvSvd_eq_one L _ defaultEpsilon defaultEpsilon_nonneg hsvd hfull h3n hσ,
      Matrix.mul_one]
  refine ⟨hS, by rw [hS], ?_⟩
  rw [hS]
  simp [computeErrorLambertian]

/-- Claim C3 at a concrete input: the identity light matrix and the surface row `(1, 0, 0)`. -/
theorem estimateSurface_exact_witness :
    (1 : Matrix (Fin 3) (Fin 3) ℝ).rank = 3 ∧
      estimateSurface identitySolver (2⁻¹ ^ 23)
        ((!![1, 0, 0] : Matrix (Fin 1) (Fin 3) ℝ) * (1 : Matrix (Fin 3) (Fin 3) ℝ))
        (1 : Matrix (Fin 3) (Fin 3) ℝ) = !![1, 0, 0] :=
  ⟨by simp [Matrix.rank_one],
    (estimateSurface_exact identitySolver (2⁻¹ ^ 23) (!![1, 0, 0] : Matrix (Fin 1) (Fin 3) ℝ)
      (1 : Matrix (Fin 3) (Fin 3) ℝ)
      (identitySolver_isSVD 3 _) ⟨rfl, rfl⟩ (by simp [Matrix.rank_one])
      (fun _ => by simp only [identitySolver]; norm_num)
      (fun i => by rw [Matrix.mul_one]; exact norm_example_row i)).1⟩

/-- Counterexample to claim C4 as stated, for the program, which runs in `float`: the row
`(2^-100, 0, 0)` consists of values of binary32 and is not the zero row, yet its square
`2^-200` lies below half of the least subnormal value and is rounded to zero, the sum of
the squares is `0`, and `estimateSurfaceAlbedo` returns the albedo `0`. -/
theorem estimateSurfaceAlbedo_binary32_underflow :
    Binary32.round ((2 : ℚ) ^ (-100 : ℤ)) = Binary32.finite ((2 : ℚ) ^ (-100 : ℤ)) ∧
      (!![Binary32.finite ((2 : ℚ) ^ (-100 : ℤ)), Binary32.finite 0, Binary32.finite 0] :
        Matrix (Fin 1) (Fin 3) Binary32) 0 ≠ (fun _ => Binary32.finite 0) ∧
      Binary32.estimateSurfaceAlbedo
        (!![Binary32.finite ((2 : ℚ) ^ (-100 : ℤ)), Binary32.finite 0, Binary32.finite 0] :
          Matrix (Fin 1) (Fin 3) Binary32) 0 0 = Binary32.finite 0 := by
  refine ⟨Binary32.round_two_zpow_neg_100, ?_, ?_⟩
  · intro h
    have h0 := congrFun h 0
    simp at h0
    norm_num at h0
  · have hm : Binary32.mul (Binary32.finite ((2 : ℚ) ^ (-100 : ℤ)))
        (Binary32.finite ((2 : ℚ) ^ (-100 : ℤ))) = Binary32.finite 0 := by
      rw [Binary32.mul]
      exact Binary32.round_two_zpow_neg_200
    have hz : Binary32.mul (Binary32.finite 0) (Binary32.finite 0) = Binary32.finite 0 := by
      rw [Binary32.mul, mul_zero, Binary32.round_zero]
    have ha : Binary32.add (Binary32.finite 0) (Binary32.finite 0) = Binary32.finite 0 := by
      rw [Binary32.add, add_zero, Binary32.round_zero]
    have e0 : (!![Binary32.finite ((2 : ℚ) ^ (-100 : ℤ)), Binary32.finite 0,
        Binary32.finite 0] : Matrix (Fin 1) (Fin 3) Binary32) 0 0 =
        Binary32.finite ((2 : ℚ) ^ (-100 : ℤ)) := rfl
    have e1 : (!![Binary32.finite ((2 : ℚ) ^ (-100 : ℤ)), Binary32.finite 0,
        Binary32.finite 0] : Matrix (Fin 1) (Fin 3) Binary32) 0 1 = Binary32.finite 0 := rfl
    have e2 : (!![Binary32.finite ((2 : ℚ) ^ (-100 : ℤ)), Binary32.finite 0,
        Binary32.finite 0] : Matrix (Fin 1) (Fin 3) Binary32) 0 2 = Binary32.finite 0 := rfl
    rw [Binary32.estimateSurfaceAlbedo_apply, e0, e1, e2, hm, hz, ha, ha, ha,
      Binary32.sqrt_zero]

/-- Claim C4, amended. In exact arithmetic, over the real numbers, the result of
`estimateSurfaceAlbedo` has one entry per row of `S`; entry `i` is the Euclidean norm of
row `i` of `S`, so it is not negative and it is `0` exactly when row `i` of `S` is the zero
row. -/
theorem estimateSurfaceAlbedo_row_norm {r c : ℕ} (S : Matrix (Fin r) (Fin c) ℝ) (i : Fin r) :
    estimateSurfaceAlbedo S 0 i = Real.sqrt (∑ j, S i j ^ 2) ∧
    estimateSurfaceAlbedo S 0 i = ‖(WithLp.equiv 2 (Fin c → ℝ)).symm (S i)‖ ∧
    0 ≤ estimateSurfaceAlbedo S 0 i ∧
    (estimateSurfaceAlbedo S 0 i = 0 ↔ S i = 0) := by
  have h : estimateSurfaceAlbedo S 0 i = Eigen.norm (S i) := rfl
  refine ⟨?_, ?_, ?_, ?_⟩
  · rw [h]; unfold Eigen.norm; congr 1; apply Finset.sum_congr rfl; intro j _; ring
  · rw [h, Eigen.norm_eq_euclidean]
  · rw [h]; exact Eigen.norm_nonneg _
  · rw [h]; exact Eigen.norm_eq_zero_iff _

/-- Counterexample to claim C5 as stated (every `color`): with four colour channels, two
pixels and `R = (0, 1, 1, 1, 1, 1, 1, 1)`, pixel `0` has `R(0) <= 0`, yet the call yields no
matrix at all: pixel `1` sends the channel loop to row `3` of the `3 x 3` scratch matrix
`Ssub`, which does not exist. -/
theorem estimateSurfaceNormal_four_channels :
    coeff (Matrix.of fun (_ : Fin 1) (j : Fin 8) => if j.val = 0 then (0 : ℚ) else 1) 0 =
        some 0 ∧
      estimateSurfaceNormal (0 : Matrix (Fin 8) (Fin 3) ℚ)
        (Matrix.of fun (_ : Fin 1) (j : Fin 8) => if j.val = 0 then (0 : ℚ) else 1) 2 4 =
        none := by
  refine ⟨?_, ?_⟩
  · rw [Eigen.coeff_rowVector _ (by norm_num : 0 < 8)]
    simp
  · refine estimateSurfaceNormal_eq_none _ _ 2 4 (by norm_num) 1 (by norm_num) 1 ?_
      (by norm_num)
    rw [Eigen.coeff_rowVector _ (by norm_num : 1 < 8)]
    simp

/-- Claim C5, amended. For at most three colour channels, an `S` with at least
`color*numberOfPixels` rows and an `R` with at least `numberOfPixels` and at least
`color*numberOfPixels` coefficients, `estimateSurfaceNormal` returns a matrix with
`numberOfPixels` rows and `3` columns whose row `p` is zero for every pixel `p` with
`R(p) <= 0`. -/
theorem estimateSurfaceNormal_skip {K : Type} [LinearOrderedField K] {sr ra rb : ℕ}
    (S : Matrix (Fin sr) (Fin 3) K) (R : Matrix (Fin ra) (Fin rb) K) (P color : ℕ)
    (hc : color ≤ 3) (hS : color * P ≤ sr) (hR : color * P ≤ ra * rb) (hP : P ≤ ra * rb) :
    ∃ N : Matrix (Fin P) (Fin 3) K, estimateSurfaceNormal S R P color = some N ∧
      ∀ (p : Fin P) (x : K), coeff R p.val = some x → x ≤ 0 → N p = 0 := by
  refine ⟨_, estimateSurfaceNormal_eq S R P color hc hS hR hP, ?_⟩
  intro p x hx hle
  simp [hx, not_lt.2 hle]

/-- Claim C5, amended, at a concrete input: two pixels in one channel, the second without
albedo. -/
theorem estimateSurfaceNormal_skip_witness :
    ∃ N : Matrix (Fin 2) (Fin 3) ℚ,
      estimateSurfaceNormal (!![3, 0, 0; 0, 0, 0] : Matrix (Fin 2) (Fin 3) ℚ)
        (!![3, 0] : Matrix (Fin 1) (Fin 2) ℚ) 2 1 = some N ∧
      ∀ (p : Fin 2) (x : ℚ), coeff (!![3, 0] : Matrix (Fin 1) (Fin 2) ℚ) p.val = some x →
        x ≤ 0 → N p = 0 :=
  estimateSurfaceNormal_skip _ _ 2 1 (by norm_num) (by norm_num) (by norm_num) (by norm_num)

/-- Claim C7, evaluated at `color = 1`, one pixel, `S = (3, 0, 0)` and
`R = estimateSurfaceAlbedo(S) = 3`: the pixel has a positive albedo and
`estimateSurfaceNormal` gives it the normal `(1/3, 0, 0)`, of Euclidean norm `1/3` and
not `1`; the relation `S = R N` documented in `DataStructure.hpp` fails as well. -/
theorem estimateSurfaceNormal_single_channel_not_unit :
    ∃ N : Matrix (Fin 1) (Fin 3) ℝ,
      estimateSurfaceNormal (!![3, 0, 0] : Matrix (Fin 1) (Fin 3) ℝ)
        (estimateSurfaceAlbedo (!![3, 0, 0] : Matrix (Fin 1) (Fin 3) ℝ)) 1 1 = some N ∧
      estimateSurfaceAlbedo (!![3, 0, 0] : Matrix (Fin 1) (Fin 3) ℝ) 0 0 = 3 ∧
      N 0 = ![1 / 3, 0, 0] ∧ Eigen.norm (N 0) = 1 / 3 ∧ Eigen.norm (N 0) ≠ 1 ∧
      estimateSurfaceAlbedo (!![3, 0, 0] : Matrix (Fin 1) (Fin 3) ℝ) 0 0 • N 0 ≠
        (!![3, 0, 0] : Matrix (Fin 1) (Fin 3) ℝ) 0 := by
  have hR : estimateSurfaceAlbedo (!![3, 0, 0] : Matrix (Fin 1) (Fin 3) ℝ) 0 0 = 3 := by
    show Eigen.norm _ = 3
    unfold Eigen.norm
    simp [Fin.sum_univ_three]
  obtain ⟨N, hN, hrow⟩ := estimateSurfaceNormal_apply (!![3, 0, 0] : Matrix (Fin 1) (Fin 3) ℝ)
    (estimateSurfaceAlbedo (!![3, 0, 0] : Matrix (Fin 1) (Fin 3) ℝ)) 1 1
    (by norm_num) (by omega) (by omega) le_rfl
  have hN0 : N 0 = ![1 / 3, 0, 0] := by
    rw [hrow 0]
    have : estimateSurfaceAlbedo (!![3, 0, 0] : Matrix (Fin 1) (Fin 3) ℝ) 0 ⟨0, by norm_num⟩
        = 3 := hR
    simp only [Fin.sum_univ_one, Fin.val_zero, zero_mul, zero_add, this]
    rw [if_pos (by norm_num)]
    funext j
    fin_cases j <;> simp
  have hnorm : Eigen.norm (N 0) = 1 / 3 := by
    rw [hN0]
    unfold Eigen.norm
    simp [Fin.sum_univ_three]
  refine ⟨N, hN, hR, hN0, hnorm, ?_, ?_⟩
  · rw [hnorm]; norm_num
  · rw [hR, hN0]
    intro h
    have h0 := congrFun h 0
    norm_num at h0

/-- Claim C8. End to end, for every light matrix, a positive machine epsilon, `color` in
`{1, 2, 3}` and a pixel `p` whose intensity is `0` in every image and every channel: the
rows `c*P + p` of `S = estimateSurface(I, L)` are zero, the matching entries of
`R = estimateSurfaceAlbedo(S)` are `0`, and row `p` of `estimateSurfaceNormal(S, R, P,
color)` is the zero vector. -/
theorem degenerate_pixel_end_to_end (jacobi : SvdSolver ℝ) (eps : ℝ) (heps : 0 < eps)
    {n : ℕ} (P color : ℕ) (h1 : 1 ≤ color) (h3 : color ≤ 3)
    (I : Matrix (Fin (color * P)) (Fin n) ℝ) (L : Matrix (Fin 3) (Fin n) ℝ) (p : Fin P)
    (hzero : ∀ c : Fin color, I ⟨c.val * P + p.val, channel_row_lt c p⟩ = 0) :
    (∀ c : Fin color,
      estimateSurface jacobi eps I L ⟨c.val * P + p.val, channel_row_lt c p⟩ = 0 ∧
        estimateSurfaceAlbedo (estimateSurface jacobi eps I L) 0
          ⟨c.val * P + p.val, channel_row_lt c p⟩ = 0) ∧
      ∃ N : Matrix (Fin P) (Fin 3) ℝ,
        estimateSurfaceNormal (estimateSurface jacobi eps I L)
          (estimateSurfaceAlbedo (estimateSurface jacobi eps I L)) P color = some N ∧
        N p = 0 := by
  have hS : ∀ c : Fin color,
      estimateSurface jacobi eps I L ⟨c.val * P + p.val, channel_row_lt c p⟩ = 0 := by
    intro c
    rw [estimateSurface_apply_row, hzero c, Eigen.norm_zero, if_pos (by positivity)]
  have hR : ∀ c : Fin color, estimateSurfaceAlbedo (estimateSurface jacobi eps I L) 0
      ⟨c.val * P + p.val, channel_row_lt c p⟩ = 0 := by
    intro c
    show Eigen.norm (estimateSurface jacobi eps I L ⟨c.val * P + p.val, _⟩) = 0
    rw [hS c, Eigen.norm_zero]
  refine ⟨fun c => ⟨hS c, hR c⟩, ?_⟩
  obtain ⟨N, hN, hrow⟩ := estimateSurfaceNormal_apply (estimateSurface jacobi eps I L)
    (estimateSurfaceAlbedo (estimateSurface jacobi eps I L)) P color h3 le_rfl le_rfl
    (Nat.le_mul_of_pos_left P h1)
  refine ⟨N, hN, ?_⟩
  have h0 : (⟨p.val, pixel_lt_rows h1 p⟩ : Fin (color * P)) =
      ⟨(⟨0, h1⟩ : Fin color).val * P + p.val, channel_row_lt ⟨0, h1⟩ p⟩ := by
    apply Fin.ext; simp
  have hRp : estimateSurfaceAlbedo (estimateSurface jacobi eps I L) 0
      ⟨p.val, pixel_lt_rows h1 p⟩ = 0 := by
    rw [h0]; exact hR ⟨0, h1⟩
  rw [hrow p, if_neg]
  rw [show (⟨p.val, lt_of_lt_of_le p.isLt (Nat.le_mul_of_pos_left P h1)⟩ : Fin (color * P)) =
    ⟨p.val, pixel_lt_rows h1 p⟩ from rfl, hRp]
  exact lt_irrefl 0

/-- Claim C8 at a concrete input: one dark pixel in one channel under three lights. -/
theorem degenerate_pixel_end_to_end_witness :
    ∃ N : Matrix (Fin 1) (Fin 3) ℝ,
      estimateSurfaceNormal
        (estimateSurface identitySolver (2⁻¹ ^ 23) (0 : Matrix (Fin (1 * 1)) (Fin 3) ℝ)
          (1 : Matrix (Fin 3) (Fin 3) ℝ))
        (estimateSurfaceAlbedo
          (estimateSurface identitySolver (2⁻¹ ^ 23) (0 : Matrix (Fin (1 * 1)) (Fin 3) ℝ)
          (1 : Matrix (Fin 3) (Fin 3) ℝ)))
        1 1 = some N ∧ N 0 = 0 :=
  (degenerate_pixel_end_to_end identitySolver (2⁻¹ ^ 23) (by positivity) 1 1 le_rfl
    (by norm_num) (0 : Matrix (Fin (1 * 1)) (Fin 3) ℝ) (1 : Matrix (Fin 3) (Fin 3) ℝ) 0
    (fun _ => rfl)).2

/-- Claim C9. The matrix `computeErrorLambertian(I, S, L)` is `I - S*L`, entry by entry
and without normalisation; it has the shape of `I`. -/
theorem computeErrorLambertian_eq {K : Type} [Ring K] {r n : ℕ}
    (I : Matrix (Fin r) (Fin n) K) (S : Matrix (Fin r) (Fin 3) K)
    (L : Matrix (Fin 3) (Fin n) K) :
    computeErrorLambertian I S L = I - S * L ∧
    ∀ i j, computeErrorLambertian I S L i j = I i j - ∑ k, S i k * L k j := by
  refine ⟨rfl, fun i j => ?_⟩
  simp [computeErrorLambertian, Matrix.mul_apply]

/-- Claim C10. For a matrix `A` with at least as many rows as columns and of full column
rank (for a square matrix: an invertible one), `pinvMoorePenrose(A) * A` is the identity,
hence `A * pinvMoorePenrose(A) * A = A`. -/
theorem pinvMoorePenrose_mul_self {K : Type} [LinearOrderedField K] {m n : ℕ}
    (A : Matrix (Fin m) (Fin n) K) (hmn : n ≤ m) (hrank : A.rank = n) :
    pinvMoorePenrose A * A = 1 ∧ A * pinvMoorePenrose A * A = A := by
  have hleft : pinvMoorePenrose A * A = 1 := by
    by_cases h : m = n
    · subst h
      have hA : pinvMoorePenrose A = Eigen.inverse A := by
        unfold pinvMoorePenrose
        rw [dif_pos rfl]
        rfl
      rw [hA, Eigen.inverse_mul_self A (isUnit_det_of_rank_eq A hrank)]
    · have hA : pinvMoorePenrose A = Eigen.inverse (Aᵀ * A) * Aᵀ := by
        unfold pinvMoorePenrose
        rw [dif_neg h]
        simp
      have hgram : (Aᵀ * A).rank = n := by rw [Matrix.rank_transpose_mul_self, hrank]
      rw [hA, Matrix.mul_assoc, Eigen.inverse_mul_self _ (isUnit_det_of_rank_eq _ hgram)]
  refine ⟨hleft, ?_⟩
  rw [Matrix.mul_assoc, hleft, Matrix.mul_one]

/-- Claim C10 at a concrete input: a `3 x 2` matrix of rank `2`. -/
theorem pinvMoorePenrose_mul_self_witness :
    pinvMoorePenrose (!![1, 0; 0, 1; 0, 0] : Matrix (Fin 3) (Fin 2) ℚ) *
        (!![1, 0; 0, 1; 0, 0] : Matrix (Fin 3) (Fin 2) ℚ) = 1 ∧
      (!![1, 0; 0, 1; 0, 0] : Matrix (Fin 3) (Fin 2) ℚ) *
        pinvMoorePenrose (!![1, 0; 0, 1; 0, 0] : Matrix (Fin 3) (Fin 2) ℚ) *
        (!![1, 0; 0, 1; 0, 0] : Matrix (Fin 3) (Fin 2) ℚ) = !![1, 0; 0, 1; 0, 0] :=
  pinvMoorePenrose_mul_self _ (by norm_num) (by
    apply le_antisymm (Matrix.rank_le_width _)
    have hT : (!![1, 0; 0, 1; 0, 0] : Matrix (Fin 3) (Fin 2) ℚ)ᵀ = !![1, 0, 0; 0, 1, 0] := by
      ext i j
      fin_cases i <;> fin_cases j <;> rfl
    have h1 : ((!![1, 0; 0, 1; 0, 0] : Matrix (Fin 3) (Fin 2) ℚ)ᵀ *
        (!![1, 0; 0, 1; 0, 0] : Matrix (Fin 3) (Fin 2) ℚ)) = 1 := by
      rw [hT]
      ext i j
      fin_cases i <;> fin_cases j <;> simp [Matrix.mul_apply, Fin.sum_univ_three]
    have h2 := Matrix.rank_transpose_mul_self (!![1, 0; 0, 1; 0, 0] : Matrix (Fin 3) (Fin 2) ℚ)
    rw [h1, Matrix.rank_one] at h2
    rw [← h2]
    simp)

/-! ## Auxiliary lemmas for the pseudoinverse, the assembly and the mappers -/

/-- A loop over `0, ..., n - 1` whose every iteration succeeds and carries an invariant
from `k` to `k + 1` succeeds and establishes the invariant at `n`. -/
theorem foldlM_range_invariant {σ : Type} (f : σ → ℕ → Option σ)
    (Inv : ℕ → σ → Prop) (n : ℕ) (s0 : σ) (h0 : Inv 0 s0)
    (hstep : ∀ k, k < n → ∀ s, Inv k s → ∃ s', f s k = some s' ∧ Inv (k + 1) s') :
    ∃ s, (List.range n).foldlM f s0 = some s ∧ Inv n s := by
  induction n with
  | zero => exact ⟨s0, by simp, h0⟩
  | succ n ih =>
    obtain ⟨s, hs, hinv⟩ := ih (fun k hk => hstep k (by omega))
    obtain ⟨s', hs', hinv'⟩ := hstep n (by omega) s hinv
    refine ⟨s', ?_, hinv'⟩
    rw [List.range_succ, List.foldlM_append, hs]
    simp [hs']

/-- A checked write of the value that a position is meant to hold keeps every position
written so far at its value. -/
theorem setCoeffAt_target {K : Type} {a b : ℕ} (M : Matrix (Fin a) (Fin b) K)
    (T : ℕ → ℕ → K) (W : ℕ → ℕ → Prop) (i0 j0 : ℕ) (hi0 : i0 < a) (hj0 : j0 < b)
    (hM : ∀ i j (hi : i < a) (hj : j < b), W i j → M ⟨i, hi⟩ ⟨j, hj⟩ = T i j) :
    ∃ M', setCoeffAt M i0 j0 (T i0 j0) = some M' ∧
      ∀ i j (hi : i < a) (hj : j < b), (W i j ∨ (i = i0 ∧ j = j0)) →
        M' ⟨i, hi⟩ ⟨j, hj⟩ = T i j := by
  refine ⟨setCoeff M i0 j0 (T i0 j0), by simp [setCoeffAt, hi0, hj0], ?_⟩
  intro i j hi hj h
  by_cases hij : i = i0 ∧ j = j0
  · simp [setCoeff, hij]
  · rcases h with h | h
    · simp only [setCoeff]
      rw [if_neg hij]
      exact hM i j hi hj h
    · exact absurd h hij

/-- When every non-zero singular value is above the tolerance, the truncated inverse
`Sinv` of `getInverseSigma` satisfies `Sigma * Sinv * Sigma = Sigma`. -/
theorem sigma_mul_getInverseSigma_mul_sigma {K : Type} [LinearOrderedField K] {m n : ℕ}
    (svd : JacobiSVD K m n) (ε : K)
    (hσ : ∀ i, svd.singularValues i ≠ 0 → svd.singularValues i > ε) :
    svd.sigma * getInverseSigma svd ε * svd.sigma = svd.sigma := by
  rw [getInverseSigma_apply, sigma_eq_rectDiag,
    @rectDiag_mul K _ _ _ _ (fun t => svd.sv t)
      (fun t => if t < min m n ∧ svd.sv t > ε then 1 / svd.sv t else 0),
    @rectDiag_mul K _ _ _ _ (fun t => if t < svd.colsV then
      svd.sv t * (if t < min m n ∧ svd.sv t > ε then 1 / svd.sv t else 0) else 0)
      (fun t => svd.sv t)]
  refine rectDiag_congr
    (fun t => if t < svd.colsU then (if t < svd.colsV then
      svd.sv t * (if t < min m n ∧ svd.sv t > ε then 1 / svd.sv t else 0) else 0) * svd.sv t
      else 0) (fun t => svd.sv t) ?_
  intro t h1 h2
  show (if t < svd.colsU then (if t < svd.colsV then
      svd.sv t * (if t < min m n ∧ svd.sv t > ε then 1 / svd.sv t else 0) else 0) * svd.sv t
      else 0) = svd.sv t
  rw [if_pos h1, if_pos h2]
  by_cases hd : t < min m n
  · by_cases hpos : svd.sv t > ε
    · rw [if_pos ⟨hd, hpos⟩]
      by_cases h0 : svd.sv t = 0
      · simp [h0]
      · field_simp
    · have h0 : svd.sv t = 0 := by
        by_contra hne
        have := hσ ⟨t, hd⟩ (by rwa [← JacobiSVD.sv_val svd ⟨t, hd⟩])
        rw [← JacobiSVD.sv_val svd ⟨t, hd⟩] at this
        exact hpos this
      simp [h0]
  · simp [hd, JacobiSVD.sv_of_not_lt svd hd]

/-- The pseudoinverse assembled from a singular value decomposition satisfies
`A * A+ * A = A`. -/
theorem mul_pinvSvd_mul {K : Type} [LinearOrderedField K] {m n : ℕ}
    (A : Matrix (Fin m) (Fin n) K) (svd : JacobiSVD K m n) (ε : K) (hsvd : IsSVD A svd)
    (hσ : ∀ i, svd.singularValues i ≠ 0 → svd.singularValues i > ε) :
    A * (svd.matrixV * getInverseSigma svd ε * svd.matrixUᵀ) * A = A := by
  have hA := hsvd.decomp
  calc A * (svd.matrixV * getInverseSigma svd ε * svd.matrixUᵀ) * A
      = svd.matrixU * svd.sigma * svd.matrixVᵀ *
          (svd.matrixV * getInverseSigma svd ε * svd.matrixUᵀ) *
          (svd.matrixU * svd.sigma * svd.matrixVᵀ) := by rw [← hA]
    _ = svd.matrixU * (svd.sigma * (svd.matrixVᵀ * svd.matrixV) * getInverseSigma svd ε *
          (svd.matrixUᵀ * svd.matrixU) * svd.sigma) * svd.matrixVᵀ := by
        simp only [Matrix.mul_assoc]
    _ = svd.matrixU * (svd.sigma * getInverseSigma svd ε * svd.sigma) * svd.matrixVᵀ := by
        rw [hsvd.orthoU, hsvd.orthoV, Matrix.mul_one, Matrix.mul_one]
    _ = A := by rw [sigma_mul_getInverseSigma_mul_sigma svd ε hσ, ← hA]

/-- The list of the divisors of `getInverseSigma` only holds values above the
tolerance. -/
theorem getInverseSigmaDivisors_foldl {K : Type} [LinearOrderedField K] {d : ℕ}
    (σ : Fin d → K) (ε : K) (l : List (Fin d)) (acc : List K)
    (hacc : ∀ x ∈ acc, x > ε) :
    ∀ x ∈ l.foldl (fun divisors i => if σ i > ε then divisors ++ [σ i] else divisors) acc,
      x > ε := by
  induction l generalizing acc with
  | nil => simpa using hacc
  | cons k l ih =>
    rw [List.foldl_cons]
    apply ih
    by_cases hk : σ k > ε
    · rw [if_pos hk]
      intro x hx
      rcases List.mem_append.1 hx with h | h
      · exact hacc x h
      · rw [List.mem_singleton.1 h]; exact hk
    · rw [if_neg hk]; exact hacc

/-- The Gram matrix `A^T * A` of a matrix with fewer rows than columns is singular. -/
theorem det_transpose_mul_self_of_wide {K : Type} [Field K] {m n : ℕ}
    (A : Matrix (Fin m) (Fin n) K) (hmn : m < n) : (Aᵀ * A).det = 0 := by
  by_contra hdet
  have hunit : IsUnit (Aᵀ * A) :=
    (Matrix.isUnit_iff_isUnit_det _).2 (isUnit_iff_ne_zero.2 hdet)
  have h1 : (Aᵀ * A).rank = n := by
    simpa using Matrix.rank_of_isUnit (Aᵀ * A) hunit
  have h2 : (Aᵀ * A).rank ≤ A.rank := Matrix.rank_mul_le_right Aᵀ A
  have h3 : A.rank ≤ m := Matrix.rank_le_height A
  omega

/-- Inside the image, `ImageSingle::operator()(x, y, 0)` reads channel `0`. -/
theorem ImageSingle.value_zero {α : Type} (img : CImg α) (x y : ℕ) (hx : x < img.width)
    (hy : y < img.height) : ImageSingle.value img x y 0 = some (img.data x y 0) := by
  have hs : 0 < img.spectrum := by
    rcases img.wellFormed with h | h
    · omega
    · exact h.2.2
  have hmin : min (0 : ℤ) ((img.spectrum : ℤ) - 1) = 0 := by
    apply min_eq_left
    omega
  simp [ImageSingle.value, hmin, CImg.get, hx, hy, hs]

/-- The scan of `loadAvailablePixels` moves from pixel `(x, y)` to the next pixel of the
row. -/
theorem scanned_step (mask : CImg ℕ) (x y : ℕ) (hx : x < mask.width) (l : List ℕ)
    (h : scanned mask x y l) :
    scanned mask (x + 1) y
      (if mask.data x y 0 = 255 then l ++ [y * mask.width + x] else l) := by
  obtain ⟨hs, hb, hm⟩ := h
  by_cases hv : mask.data x y 0 = 255
  · rw [if_pos hv]
    refine ⟨?_, ?_, ?_⟩
    · rw [List.Sorted, List.pairwise_append]
      refine ⟨hs, List.pairwise_singleton _ _, ?_⟩
      intro a ha b hb'
      rw [List.mem_singleton.1 hb']
      exact hb a ha
    · intro e he
      rcases List.mem_append.1 he with h1 | h1
      · have := hb e h1; omega
      · rw [List.mem_singleton.1 h1]; omega
    · intro e
      rw [List.mem_append, hm e, List.mem_singleton]
      constructor
      · rintro (⟨x1, y1, h1, h2, h3, h4⟩ | h1)
        · exact ⟨x1, y1, h1, by omega, h3, h4⟩
        · exact ⟨x, y, hx, Or.inr ⟨rfl, by omega⟩, h1, hv⟩
      · rintro ⟨x1, y1, h1, h2, h3, h4⟩
        by_cases hxy : y1 = y ∧ x1 = x
        · right; rw [h3, hxy.1, hxy.2]
        · left; exact ⟨x1, y1, h1, by omega, h3, h4⟩
  · rw [if_neg hv]
    refine ⟨hs, fun e he => by have := hb e he; omega, ?_⟩
    intro e
    rw [hm e]
    constructor
    · rintro ⟨x1, y1, h1, h2, h3, h4⟩
      exact ⟨x1, y1, h1, by omega, h3, h4⟩
    · rintro ⟨x1, y1, h1, h2, h3, h4⟩
      by_cases hxy : y1 = y ∧ x1 = x
      · rw [hxy.1, hxy.2] at h4; exact absurd h4 hv
      · exact ⟨x1, y1, h1, by omega, h3, h4⟩

/-- The scan of `loadAvailablePixels` moves from the end of row `y` to the start of the
next row. -/
theorem scanned_next_row (mask : CImg ℕ) (y : ℕ) (l : List ℕ)
    (h : scanned mask mask.width y l) : scanned mask 0 (y + 1) l := by
  obtain ⟨hs, hb, hm⟩ := h
  refine ⟨hs, fun e he => ?_, fun e => ?_⟩
  · have := hb e he
    calc e < y * mask.width + mask.width := this
      _ = (y + 1) * mask.width + 0 := by ring
  · rw [hm e]
    constructor
    · rintro ⟨x1, y1, h1, h2, h3, h4⟩
      exact ⟨x1, y1, h1, by omega, h3, h4⟩
    · rintro ⟨x1, y1, h1, h2, h3, h4⟩
      exact ⟨x1, y1, h1, by omega, h3, h4⟩

/-- A write inside the image succeeds and changes the one value it names. -/
theorem CImg.set_of_lt {α : Type} (img : CImg α) (x y c : ℕ) (v : α) (hx : x < img.width)
    (hy : y < img.height) (hc : c < img.spectrum) :
    ∃ img', img.set x y c v = some img' ∧ img'.width = img.width ∧
      img'.height = img.height ∧ img'.spectrum = img.spectrum ∧
      ∀ x1 y1 c1, img'.data x1 y1 c1 =
        if x1 = x ∧ y1 = y ∧ c1 = c then v else img.data x1 y1 c1 := by
  refine ⟨⟨img.width, img.height, img.spectrum,
    fun x1 y1 c1 => if x1 = x ∧ y1 = y ∧ c1 = c then v else img.data x1 y1 c1,
    img.wellFormed⟩, ?_, rfl, rfl, rfl, fun _ _ _ => rfl⟩
  simp only [CImg.set, hx, hy, hc, and_self, if_true]

/-- The dimensions and the content of the image built by the constructor. -/
theorem CImg.filled_of_pos {α : Type} (w h s : ℕ) (v : α) (hw : 0 < w) (hh : 0 < h)
    (hs : 0 < s) :
    (CImg.filled w h s v).width = w ∧ (CImg.filled w h s v).height = h ∧
      (CImg.filled w h s v).spectrum = s ∧
      ∀ x y c, (CImg.filled w h s v).data x y c = v := by
  simp [CImg.filled, hw, hh, hs]

/-- The loop over the channels of the visualisation mappers: the channels below `C` of
pixel `(x, y)` receive their values, everything else is kept. -/
theorem channels_foldlM {K : Type} (img : CImg K) (x y C : ℕ) (read : ℕ → Option K)
    (g : K → K) (val : ℕ → K) (hx : x < img.width) (hy : y < img.height)
    (hC : C ≤ img.spectrum) (hread : ∀ c, c < C → read c = some (val c)) :
    ∃ img', (List.range C).foldlM
        (fun img c => do
          let v ← read c
          img.set x y c (g v)) img = some img' ∧
      img'.width = img.width ∧ img'.height = img.height ∧ img'.spectrum = img.spectrum ∧
      ∀ x1 y1 c1, img'.data x1 y1 c1 =
        if x1 = x ∧ y1 = y ∧ c1 < C then g (val c1) else img.data x1 y1 c1 := by
  apply foldlM_range_invariant _
    (fun k (img' : CImg K) =>
      img'.width = img.width ∧ img'.height = img.height ∧ img'.spectrum = img.spectrum ∧
      ∀ x1 y1 c1, img'.data x1 y1 c1 =
        if x1 = x ∧ y1 = y ∧ c1 < k then g (val c1) else img.data x1 y1 c1)
  · refine ⟨rfl, rfl, rfl, fun x1 y1 c1 => ?_⟩
    simp
  · intro k hk img1 ⟨h1, h2, h3, h4⟩
    obtain ⟨img2, hset, g1, g2, g3, g4⟩ := CImg.set_of_lt img1 x y k (g (val k))
      (by rw [h1]; exact hx) (by rw [h2]; exact hy) (by rw [h3]; omega)
    refine ⟨img2, ?_, g1.trans h1, g2.trans h2, g3.trans h3, fun x1 y1 c1 => ?_⟩
    · simp only [hread k hk, Option.some_bind, Option.bind_eq_bind, hset]
    · rw [g4, h4]
      by_cases hxy : x1 = x ∧ y1 = y
      · by_cases hc : c1 = k
        · simp [hxy, hc]
        · have : c1 < k + 1 ↔ c1 < k := by omega
          simp [hxy, hc, this]
      · have h5 : ¬ (x1 = x ∧ y1 = y ∧ c1 = k) := fun h => hxy ⟨h.1, h.2.1⟩
        have h6 : ¬ (x1 = x ∧ y1 = y ∧ c1 < k + 1) := fun h => hxy ⟨h.1, h.2.1⟩
        have h7 : ¬ (x1 = x ∧ y1 = y ∧ c1 < k) := fun h => hxy ⟨h.1, h.2.1⟩
        rw [if_neg h5, if_neg h6, if_neg h7]

/-- Two indices with the same column and the same row are equal. -/
theorem index_eq_of_location_eq (width a b : ℕ) (h1 : a % width = b % width)
    (h2 : a / width = b / width) : a = b := by
  rw [← Nat.div_add_mod a width, ← Nat.div_add_mod b width, h1, h2]

/-- The loop over the pixels of the visualisation mappers: every listed pixel receives
its values in the channels below `C`, every other pixel keeps the value `0`. -/
theorem scatter_foldlM {K : Type} [Zero K] (indexOfPixels : List ℕ) (width height C : ℕ)
    (read : ℕ → ℕ → Option K) (g : K → K) (val : ℕ → ℕ → K)
    (hw : 0 < width) (hh : 0 < height) (hC : 0 < C)
    (hrange : ∀ idx ∈ indexOfPixels, idx < width * height)
    (hnodup : indexOfPixels.Nodup)
    (hread : ∀ p c, p < indexOfPixels.length → c < C → read p c = some (val p c)) :
    ∃ img : CImg K, (List.range indexOfPixels.length).foldlM
        (fun img p => do
          let index ← indexOfPixels[p]?
          let x ← checkedMod index width
          let y ← checkedDiv index width
          (List.range C).foldlM
            (fun img c => do
              let v ← read p c
              img.set x y c (g v))
            img)
        (CImg.filled width height C (0 : K)) = some img ∧
      img.width = width ∧ img.height = height ∧ img.spectrum = C ∧
      (∀ (p : Fin indexOfPixels.length) (c : ℕ), c < C →
        img.data (indexOfPixels.get p % width) (indexOfPixels.get p / width) c =
          g (val p.val c)) ∧
      (∀ x y c, (∀ p : Fin indexOfPixels.length,
          ¬ (x = indexOfPixels.get p % width ∧ y = indexOfPixels.get p / width)) →
        img.data x y c = 0) := by
  obtain ⟨f1, f2, f3, f4⟩ := CImg.filled_of_pos width height C (0 : K) hw hh hC
  have hloop := foldlM_range_invariant
    (fun (img : CImg K) p => do
          let index ← indexOfPixels[p]?
          let x ← checkedMod index width
          let y ← checkedDiv index width
          (List.range C).foldlM
            (fun img c => do
              let v ← read p c
              img.set x y c (g v))
            img)
    (fun k (img : CImg K) =>
      img.width = width ∧ img.height = height ∧ img.spectrum = C ∧
      (∀ (p : Fin indexOfPixels.length) (c : ℕ), p.val < k → c < C →
        img.data (indexOfPixels.get p % width) (indexOfPixels.get p / width) c =
          g (val p.val c)) ∧
      (∀ x y c, (∀ p : Fin indexOfPixels.length, p.val < k →
          ¬ (x = indexOfPixels.get p % width ∧ y = indexOfPixels.get p / width)) →
        img.data x y c = 0))
    indexOfPixels.length (CImg.filled width height C (0 : K))
    ⟨f1, f2, f3, fun p c hp _ => absurd hp (Nat.not_lt_zero _), fun x y c _ => f4 x y c⟩
    (by
      intro k hk img ⟨h1, h2, h3, h4, h5⟩
      have hget : indexOfPixels[k]? = some (indexOfPixels.get ⟨k, hk⟩) := by
        simp [List.getElem?_eq_getElem hk]
      have hidx : indexOfPixels.get ⟨k, hk⟩ < width * height :=
        hrange _ (List.get_mem _ _ _)
      have hx : indexOfPixels.get ⟨k, hk⟩ % width < img.width := by
        rw [h1]; exact Nat.mod_lt _ hw
      have hy : indexOfPixels.get ⟨k, hk⟩ / width < img.height := by
        rw [h2]; exact Nat.div_lt_of_lt_mul hidx
      obtain ⟨img', hfold, g1, g2, g3, g4⟩ := channels_foldlM img
        (indexOfPixels.get ⟨k, hk⟩ % width) (indexOfPixels.get ⟨k, hk⟩ / width) C (read k) g
        (val k) hx hy (by rw [h3]) (fun c hc => hread k c hk hc)
      refine ⟨img', ?_, g1.trans h1, g2.trans h2, g3.trans h3, ?_, ?_⟩
      · simp only [hget, Option.some_bind, Option.bind_eq_bind, checkedMod, checkedDiv,
          Nat.pos_iff_ne_zero.1 hw, if_false]
        exact hfold
      · intro p c hp hc
        rw [g4]
        by_cases hpk : p.val = k
        · have : p = ⟨k, hk⟩ := Fin.ext hpk
          subst this
          simp [hc]
        · have hne : ¬ (indexOfPixels.get p % width = indexOfPixels.get ⟨k, hk⟩ % width ∧
              indexOfPixels.get p / width = indexOfPixels.get ⟨k, hk⟩ / width ∧ c < C) := by
            rintro ⟨e1, e2, _⟩
            have := index_eq_of_location_eq width _ _ e1 e2
            have := (List.Nodup.get_inj_iff hnodup).1 this
            exact hpk (congrArg Fin.val this)
          rw [if_neg hne]
          exact h4 p c (by omega) hc
      · intro x y c hxy
        rw [g4]
        have hne : ¬ (x = indexOfPixels.get ⟨k, hk⟩ % width ∧
            y = indexOfPixels.get ⟨k, hk⟩ / width ∧ c < C) := by
          rintro ⟨e1, e2, _⟩
          exact hxy ⟨k, hk⟩ (by simp) ⟨e1, e2⟩
        rw [if_neg hne]
        exact h5 x y c (fun p hp => hxy p (by omega)))
  obtain ⟨img, himg, h1, h2, h3, h4, h5⟩ := hloop
  exact ⟨img, himg, h1, h2, h3, fun p c hc => h4 p c p.isLt hc,
    fun x y c hxy => h5 x y c (fun p _ => hxy p)⟩

/-- A read `M(i, j)` inside the matrix succeeds. -/
theorem Eigen.coeffAt_of_lt {K : Type} {a b : ℕ} (M : Matrix (Fin a) (Fin b) K) {i j : ℕ}
    (hi : i < a) (hj : j < b) : coeffAt M i j = some (M ⟨i, hi⟩ ⟨j, hj⟩) := by
  simp [coeffAt, hi, hj]

/-- A `mapM` all of whose calls succeed. -/
theorem mapM_eq_some_map {α β : Type} (f : α → Option β) (g : α → β) (l : List α)
    (h : ∀ a ∈ l, f a = some (g a)) : l.mapM f = some (l.map g) := by
  induction l with
  | nil => rfl
  | cons a l ih =>
    rw [List.mapM_cons, h a (List.mem_cons_self _ _),
      ih (fun b hb => h b (List.mem_cons_of_mem _ hb))]
    rfl

/-- Inside the image, `ImageSingle::operator()(x, y)` is the list of the channel values. -/
theorem ImageSingle.pixelValue_of_lt {α : Type} (img : CImg α) (x y : ℕ) (hx : x < img.width)
    (hy : y < img.height) :
    ImageSingle.pixelValue img x y =
      some ((List.range img.spectrum).map (fun c => img.data x y c)) := by
  unfold ImageSingle.pixelValue
  apply mapM_eq_some_map
  intro c hc
  simp [CImg.get, hx, hy, List.mem_range.1 hc]

/-- Row `c*numberOfPixels + p` lies among the `numberOfPixels*color` rows of `I`. -/
theorem observation_row_lt {color P : ℕ} (c : Fin color) (p : Fin P) :
    c.val * P + p.val < P * color := by
  rw [Nat.mul_comm P color]; exact channel_row_lt c p

/-! ## The claims, continued -/

/-- Claim C11, evaluated against the source. For a wide matrix `A` the function takes the
branch `m < n`, whose expression `(AT * A).colPivHouseholderQr().inverse() * AT` is that
of the branch `m > n`: the matrix handed to the decomposition is the `n x n` matrix
`A^T * A`, which is singular for every wide `A`, and the `m x m` matrix `A * A^T` of case 1
of the doc comment is never formed. For `A = (1 1)`, where `A^T * A` has all entries `1`,
case 1 gives `A^T * (A * A^T)^{-1} = (1/2, 1/2)^T`, a right inverse of `A`; the solve of
Eigen on a singular matrix leaves the row of the dropped pivot at zero, and no matrix `X`
with a zero row gives `X * A^T` this value. -/
theorem pinvMoorePenrose_wide_not_case_one :
    (∀ {K : Type} [Field K] {m n : ℕ} (A : Matrix (Fin m) (Fin n) K), m < n →
      pinvMoorePenrose A = Eigen.inverse (Aᵀ * A) * Aᵀ ∧ (Aᵀ * A).det = 0) ∧
    (!![1, 1] : Matrix (Fin 1) (Fin 2) ℚ)ᵀ * (!![1, 1] : Matrix (Fin 1) (Fin 2) ℚ) =
      !![1, 1; 1, 1] ∧
    (!![1, 1] : Matrix (Fin 1) (Fin 2) ℚ)ᵀ *
        Eigen.inverse ((!![1, 1] : Matrix (Fin 1) (Fin 2) ℚ) *
          (!![1, 1] : Matrix (Fin 1) (Fin 2) ℚ)ᵀ) = !![1 / 2; 1 / 2] ∧
    (!![1, 1] : Matrix (Fin 1) (Fin 2) ℚ) * ((!![1, 1] : Matrix (Fin 1) (Fin 2) ℚ)ᵀ *
        Eigen.inverse ((!![1, 1] : Matrix (Fin 1) (Fin 2) ℚ) *
          (!![1, 1] : Matrix (Fin 1) (Fin 2) ℚ)ᵀ)) = 1 ∧
    ∀ X : Matrix (Fin 2) (Fin 2) ℚ, (∃ i, X i = 0) →
      X * (!![1, 1] : Matrix (Fin 1) (Fin 2) ℚ)ᵀ ≠
        (!![1, 1] : Matrix (Fin 1) (Fin 2) ℚ)ᵀ *
          Eigen.inverse ((!![1, 1] : Matrix (Fin 1) (Fin 2) ℚ) *
            (!![1, 1] : Matrix (Fin 1) (Fin 2) ℚ)ᵀ) := by
  have hT : (!![1, 1] : Matrix (Fin 1) (Fin 2) ℚ)ᵀ =
      (!![1; 1] : Matrix (Fin 2) (Fin 1) ℚ) := by
    ext i j; fin_cases i <;> fin_cases j <;> rfl
  have hgram : (!![1, 1] : Matrix (Fin 1) (Fin 2) ℚ) *
      (!![1; 1] : Matrix (Fin 2) (Fin 1) ℚ) = (!![2] : Matrix (Fin 1) (Fin 1) ℚ) := by
    ext i j
    fin_cases i; fin_cases j
    simp [Matrix.mul_apply, Fin.sum_univ_two]
    norm_num
  have hinv : Eigen.inverse (!![2] : Matrix (Fin 1) (Fin 1) ℚ) =
      (!![1 / 2] : Matrix (Fin 1) (Fin 1) ℚ) := by
    ext i j
    fin_cases i; fin_cases j
    simp [Eigen.inverse]
  have hcase : (!![1; 1] : Matrix (Fin 2) (Fin 1) ℚ) *
      (!![1 / 2] : Matrix (Fin 1) (Fin 1) ℚ) =
      (!![1 / 2; 1 / 2] : Matrix (Fin 2) (Fin 1) ℚ) := by
    ext i j
    fin_cases i <;> fin_cases j <;> simp [Matrix.mul_apply]
  refine ⟨?_, ?_, ?_, ?_, ?_⟩
  · intro K _ m n A hmn
    refine ⟨?_, det_transpose_mul_self_of_wide A hmn⟩
    unfold pinvMoorePenrose
    rw [dif_neg (by omega)]
    simp
  · rw [hT]
    ext i j
    fin_cases i <;> fin_cases j <;> simp [Matrix.mul_apply]
  · rw [hT, hgram, hinv, hcase]
  · rw [hT, hgram, hinv, hcase]
    ext i j
    fin_cases i; fin_cases j
    simp [Matrix.mul_apply, Fin.sum_univ_two]
    norm_num
  · rintro X ⟨i, hi⟩ h
    rw [hT, hgram, hinv, hcase] at h
    have h1 := congrFun (congrFun h i) 0
    rw [Matrix.mul_apply] at h1
    simp only [hi, Pi.zero_apply, zero_mul, Finset.sum_const_zero] at h1
    fin_cases i <;> simp at h1

/-- Claim C12. When the thin and the full decomposition that Eigen returns for `A` are
singular value decompositions of `A` whose non-zero singular values all exceed `1e-6`,
the matrices `V * getInverseSigma * U^T` assembled by `pinvSvdThin` and by `pinvSvdFull`
satisfy `A * A+ * A = A`, whatever the rank of `A` is. -/
theorem pinvSvd_round_trip {K : Type} [LinearOrderedField K] (jacobi : SvdSolver K)
    {m n : ℕ} (A : Matrix (Fin m) (Fin n) K)
    (hthin : IsSVD A (jacobi m n A DecompositionOptions.ComputeThin))
    (hfull : IsSVD A (jacobi m n A DecompositionOptions.ComputeFull))
    (hσthin : ∀ i, (jacobi m n A DecompositionOptions.ComputeThin).singularValues i ≠ 0 →
      (jacobi m n A DecompositionOptions.ComputeThin).singularValues i > 1e-6)
    (hσfull : ∀ i, (jacobi m n A DecompositionOptions.ComputeFull).singularValues i ≠ 0 →
      (jacobi m n A DecompositionOptions.ComputeFull).singularValues i > 1e-6) :
    A * pinvSvdThin jacobi A * A = A ∧ A * pinvSvdFull jacobi A * A = A :=
  ⟨mul_pinvSvd_mul A _ defaultEpsilon hthin hσthin,
    mul_pinvSvd_mul A _ defaultEpsilon hfull hσfull⟩

/-- Claim C12 at a concrete input: the `3 x 3` identity matrix with its decomposition by
identity factors. -/
theorem pinvSvd_round_trip_witness :
    (1 : Matrix (Fin 3) (Fin 3) ℝ) *
        pinvSvdThin identitySolver (1 : Matrix (Fin 3) (Fin 3) ℝ) *
        (1 : Matrix (Fin 3) (Fin 3) ℝ) = 1 ∧
      (1 : Matrix (Fin 3) (Fin 3) ℝ) *
        pinvSvdFull identitySolver (1 : Matrix (Fin 3) (Fin 3) ℝ) *
        (1 : Matrix (Fin 3) (Fin 3) ℝ) = 1 :=
  pinvSvd_round_trip identitySolver (1 : Matrix (Fin 3) (Fin 3) ℝ)
    (identitySolver_isSVD 3 _) (identitySolver_isSVD 3 _)
    (fun _ _ => by simp only [identitySolver]; norm_num)
    (fun _ _ => by simp only [identitySolver]; norm_num)

/-- Claim C13. The function `pinv(A, idx)` is `pinvMoorePenrose(A)` for `idx = 1`,
`pinvSvdThin(A)` for `idx = 2` and `pinvSvdFull(A)` for every other integer `idx`; it
returns a matrix for every `idx`. -/
theorem pinv_dispatch {K : Type} [LinearOrderedField K] (jacobi : SvdSolver K) {m n : ℕ}
    (A : Matrix (Fin m) (Fin n) K) (idx : ℤ) :
    pinv jacobi A idx =
      if idx = 1 then pinvMoorePenrose A
      else if idx = 2 then pinvSvdThin jacobi A
      else pinvSvdFull jacobi A := by
  unfold pinv
  split
  · simp
  · simp
  · rename_i h1 h2
    have h1' : ¬ idx = 1 := fun h => h1 h
    have h2' : ¬ idx = 2 := fun h => h2 h
    simp [h1', h2']

/-- Claim C14. The matrix returned by `getInverseSigma` has `cols(V)` rows and `cols(U)`
columns; its entries off the diagonal are `0`; its diagonal entry `k` is `1 / sigma_k`
when `sigma_k > 1e-6` and `0` otherwise, in particular `0` when `sigma_k` is exactly
`1e-6`; and every divisor of a reciprocal that the loop takes is above `1e-6`, hence not
zero. -/
theorem getInverseSigma_entries {K : Type} [LinearOrderedField K] {m n : ℕ}
    (svd : JacobiSVD K m n) :
    (∀ (j : Fin svd.colsV) (i : Fin svd.colsU), j.val ≠ i.val →
      getInverseSigma svd defaultEpsilon j i = 0) ∧
    (∀ (j : Fin svd.colsV) (i : Fin svd.colsU) (k : Fin (min m n)),
      j.val = k.val → i.val = k.val →
      getInverseSigma svd defaultEpsilon j i =
        if svd.singularValues k > 1e-6 then 1 / svd.singularValues k else 0) ∧
    (∀ (j : Fin svd.colsV) (i : Fin svd.colsU), min m n ≤ j.val →
      getInverseSigma svd defaultEpsilon j i = 0) ∧
    (∀ (j : Fin svd.colsV) (i : Fin svd.colsU) (k : Fin (min m n)),
      j.val = k.val → i.val = k.val → svd.singularValues k = 1e-6 →
      getInverseSigma svd defaultEpsilon j i = 0) ∧
    (∀ x ∈ getInverseSigmaDivisors svd defaultEpsilon, x > 1e-6 ∧ x ≠ 0) := by
  have hdiag : ∀ (j : Fin svd.colsV) (i : Fin svd.colsU) (k : Fin (min m n)),
      j.val = k.val → i.val = k.val →
      getInverseSigma svd defaultEpsilon j i =
        if svd.singularValues k > 1e-6 then 1 / svd.singularValues k else 0 := by
    intro j i k hj hi
    rw [getInverseSigma_apply]
    simp only [Matrix.of_apply]
    rw [if_pos (hj.trans hi.symm), hj, JacobiSVD.sv_val]
    simp only [k.isLt, true_and]
    rfl
  refine ⟨?_, hdiag, ?_, ?_, ?_⟩
  · intro j i hji
    rw [getInverseSigma_apply]
    simp [hji]
  · intro j i hj
    rw [getInverseSigma_apply]
    simp only [Matrix.of_apply]
    have : ¬ j.val < min m n := not_lt.2 hj
    simp [this]
  · intro j i k hj hi hk
    rw [hdiag j i k hj hi, hk]
    simp
  · intro x hx
    have hgt : x > (1e-6 : K) :=
      getInverseSigmaDivisors_foldl svd.singularValues defaultEpsilon _ []
        (by simp) x hx
    refine ⟨hgt, ?_⟩
    have : (0 : K) < 1e-6 := by norm_num
    exact ne_of_gt (lt_trans this hgt)

/-- Claim C15. Started on an empty list, `loadAvailablePixels` reports the width and the
height of the mask and returns exactly the indices `y*width + x` of the pixels of value
`255`, in the order of the row-major scan: the list is the increasing enumeration of
these indices, it is strictly increasing, free of duplicates, and every index is below
`width*height`. -/
theorem loadAvailablePixels_indices (mask : CImg ℕ) :
    ∃ indexOfPixels : List ℕ,
      loadAvailablePixels mask [] = some (mask.width, mask.height, indexOfPixels) ∧
      (∀ idx, idx ∈ indexOfPixels ↔
        ∃ x y, x < mask.width ∧ y < mask.height ∧ idx = y * mask.width + x ∧
          mask.data x y 0 = 255) ∧
      indexOfPixels = (List.range (mask.width * mask.height)).filter
        (fun idx => mask.data (idx % mask.width) (idx / mask.width) 0 = 255) ∧
      indexOfPixels.Sorted (· < ·) ∧ indexOfPixels.Nodup ∧
      ∀ idx ∈ indexOfPixels, idx < mask.width * mask.height := by
  have hloop : ∃ l, (List.range mask.height).foldlM
      (fun indexOfPixels y =>
        (List.range mask.width).foldlM
          (fun indexOfPixels x => do
            let v ← ImageSingle.value mask x y 0
            if v = 255 then pure (indexOfPixels ++ [y * mask.width + x])
            else pure indexOfPixels)
          indexOfPixels) [] = some l ∧ scanned mask 0 mask.height l := by
    apply foldlM_range_invariant _ (fun y l => scanned mask 0 y l)
    · refine ⟨List.sorted_nil, by simp, fun e => ?_⟩
      constructor
      · intro h; exact absurd h (List.not_mem_nil e)
      · rintro ⟨x1, y1, h1, h2, h3, h4⟩
        omega
    · intro y hy l hl
      obtain ⟨l', hl', hinv⟩ := foldlM_range_invariant
        (fun indexOfPixels x => do
            let v ← ImageSingle.value mask x y 0
            if v = 255 then pure (indexOfPixels ++ [y * mask.width + x])
            else pure indexOfPixels)
        (fun x l => scanned mask x y l) mask.width l hl
        (by
          intro x hx l1 hl1
          refine ⟨_, ?_, scanned_step mask x y hx l1 hl1⟩
          simp only [ImageSingle.value_zero mask x y hx hy, Option.some_bind,
            Option.bind_eq_bind]
          by_cases hv : mask.data x y 0 = 255
          · simp [hv]
          · simp [hv])
      exact ⟨l', hl', scanned_next_row mask y l' hinv⟩
  obtain ⟨l, hl, hs, hb, hm⟩ := hloop
  have hmem : ∀ idx, idx ∈ l ↔
      ∃ x y, x < mask.width ∧ y < mask.height ∧ idx = y * mask.width + x ∧
        mask.data x y 0 = 255 := by
    intro idx
    rw [hm idx]
    constructor
    · rintro ⟨x1, y1, h1, h2, h3, h4⟩
      exact ⟨x1, y1, h1, by omega, h3, h4⟩
    · rintro ⟨x1, y1, h1, h2, h3, h4⟩
      exact ⟨x1, y1, h1, by omega, h3, h4⟩
  have hbound : ∀ idx ∈ l, idx < mask.width * mask.height := by
    intro idx hidx
    have := hb idx hidx
    rw [Nat.mul_comm]; omega
  have hnodup : l.Nodup := hs.nodup
  refine ⟨l, ?_, hmem, ?_, hs, hnodup, hbound⟩
  · unfold loadAvailablePixels
    simp only []
    rw [hl]
    rfl
  · apply List.eq_of_perm_of_sorted _ hs
      ((List.sorted_lt_range _).filter _)
    apply (List.perm_ext_iff_of_nodup hnodup ((List.nodup_range _).filter _)).2
    intro idx
    rw [hmem idx, List.mem_filter, List.mem_range]
    constructor
    · rintro ⟨x, y, hx, hy, rfl, hv⟩
      refine ⟨?_, ?_⟩
      · calc y * mask.width + x < y * mask.width + mask.width := by omega
          _ = mask.width * (y + 1) := by ring
          _ ≤ mask.width * mask.height := Nat.mul_le_mul_left _ hy
      · have h1 : (y * mask.width + x) % mask.width = x := by
          rw [Nat.mul_comm, Nat.mul_add_mod, Nat.mod_eq_of_lt hx]
        have h2 : (y * mask.width + x) / mask.width = y := by
          rw [Nat.mul_comm, Nat.mul_add_div (by omega), Nat.div_eq_of_lt hx, Nat.add_zero]
        simp [h1, h2, hv]
    · rintro ⟨hlt, hv⟩
      have hw : 0 < mask.width := by
        rcases Nat.eq_zero_or_pos mask.width with h | h
        · rw [h] at hlt; simp at hlt
        · exact h
      refine ⟨idx % mask.width, idx / mask.width, Nat.mod_lt _ hw, ?_, ?_, by simpa using hv⟩
      · exact Nat.div_lt_of_lt_mul hlt
      · exact (Nat.div_add_mod' idx mask.width).symm

/-- Counterexample to claim C16 as stated: a `1 x 1` image has the width `1` of the mask
and one channel, yet for the index list `[1]` the function asks it for pixel `(0, 1)`,
which the image does not have, and no matrix is returned. -/
theorem buildObservationMatrix_outside :
    (CImg.filled 1 1 1 (7 : ℚ)).width = 1 ∧ 1 ≤ (CImg.filled 1 1 1 (7 : ℚ)).spectrum ∧
      buildObservationMatrix (fun _ => CImg.filled 1 1 1 (7 : ℚ)) [1]
        [(⟨"a.png", "0 0 1", 1⟩ : ObservationSingle ℚ)] 1 1 = none := by
  refine ⟨rfl, le_refl 1, rfl⟩

/-- Claim C16, amended. When every loaded image has the width of the mask and at least
`color` channels, and every listed index is below `width` times the height of the image,
`buildObservationMatrix` returns a matrix with `color*P` rows and `N` columns whose entry
at row `c*P + p`, column `f` is channel `c` of image `f` at pixel
`(indexOfPixels[p] % width, indexOfPixels[p] / width)`. -/
theorem buildObservationMatrix_entries {K : Type} [Zero K] (load : String → CImg K)
    (indexOfPixels : List ℕ) (obsSingle : List (ObservationSingle K)) (color width : ℕ)
    (hwidth : ∀ obs ∈ obsSingle, (load obs.strImage).width = width)
    (hcolor : ∀ obs ∈ obsSingle, color ≤ (load obs.strImage).spectrum)
    (hrange : ∀ obs ∈ obsSingle, ∀ idx ∈ indexOfPixels,
      idx < width * (load obs.strImage).height) :
    ∃ I : Matrix (Fin (indexOfPixels.length * color)) (Fin obsSingle.length) K,
      buildObservationMatrix load indexOfPixels obsSingle color width = some I ∧
      ∀ (c : Fin color) (p : Fin indexOfPixels.length) (f : Fin obsSingle.length),
        I ⟨c.val * indexOfPixels.length + p.val, observation_row_lt c p⟩ f =
          (load (obsSingle.get f).strImage).data
            (indexOfPixels.get p % width) (indexOfPixels.get p / width) c.val := by
  -- the value that position `(r, f)` is meant to hold
  let T : ℕ → ℕ → K := fun r f =>
    match obsSingle[f]? with
    | some obs => (load obs.strImage).data
        (indexOfPixels.getD (r % indexOfPixels.length) 0 % width)
        (indexOfPixels.getD (r % indexOfPixels.length) 0 / width) (r / indexOfPixels.length)
    | none => 0
  have hmain : ∃ I : Matrix (Fin (indexOfPixels.length * color)) (Fin obsSingle.length) K,
      buildObservationMatrix load indexOfPixels obsSingle color width = some I ∧
      ∀ r f (hr : r < indexOfPixels.length * color) (hf : f < obsSingle.length),
        f < obsSingle.length → I ⟨r, hr⟩ ⟨f, hf⟩ = T r f := by
    unfold buildObservationMatrix
    apply foldlM_range_invariant _
      (fun k (I : Matrix (Fin (indexOfPixels.length * color)) (Fin obsSingle.length) K) =>
        ∀ r f (hr : r < indexOfPixels.length * color) (hf : f < obsSingle.length),
          f < k → I ⟨r, hr⟩ ⟨f, hf⟩ = T r f)
    · intro r f hr hf hk
      exact absurd hk (Nat.not_lt_zero f)
    · intro k hk I hI
      have hget : obsSingle[k]? = some (obsSingle.get ⟨k, hk⟩) := by
        simp [List.getElem?_eq_getElem hk]
      have hmem : obsSingle.get ⟨k, hk⟩ ∈ obsSingle := List.get_mem _ _ _
      simp only [hget, Option.some_bind, Option.bind_eq_bind]
      have hmid := foldlM_range_invariant
        (fun (I : Matrix (Fin (indexOfPixels.length * color)) (Fin obsSingle.length) K) p =>
          indexOfPixels[p]?.bind fun index =>
            (checkedMod index width).bind fun x =>
              (checkedDiv index width).bind fun y =>
                (ImageSingle.pixelValue (load (obsSingle.get ⟨k, hk⟩).strImage) x y).bind
                  fun pixelValue =>
                    (List.range color).foldlM
                      (fun I c => pixelValue[c]?.bind fun v =>
                        setCoeffAt I (c * indexOfPixels.length + p) k v) I)
        (fun j (I : Matrix (Fin (indexOfPixels.length * color)) (Fin obsSingle.length) K) =>
          ∀ r f (hr : r < indexOfPixels.length * color) (hf : f < obsSingle.length),
            (f < k ∨ (f = k ∧ r % indexOfPixels.length < j)) →
              I ⟨r, hr⟩ ⟨f, hf⟩ = T r f)
        indexOfPixels.length I
        (by
          intro r f hr hf h
          rcases h with h | h
          · exact hI r f hr hf h
          · exact absurd h.2 (Nat.not_lt_zero _))
        (by
          intro j hj I1 hI1
          have hgetp : indexOfPixels[j]? = some (indexOfPixels.get ⟨j, hj⟩) := by
            simp [List.getElem?_eq_getElem hj]
          have hidx := hrange _ hmem _ (List.get_mem indexOfPixels j hj)
          have hw : 0 < width := by
            rcases Nat.eq_zero_or_pos width with h | h
            · rw [h] at hidx; simp at hidx
            · exact h
          have hx : indexOfPixels.get ⟨j, hj⟩ % width <
              (load (obsSingle.get ⟨k, hk⟩).strImage).width := by
            rw [hwidth _ hmem]; exact Nat.mod_lt _ hw
          have hy : indexOfPixels.get ⟨j, hj⟩ / width <
              (load (obsSingle.get ⟨k, hk⟩).strImage).height :=
            Nat.div_lt_of_lt_mul hidx
          simp only [hgetp, Option.some_bind, checkedMod, checkedDiv,
            Nat.pos_iff_ne_zero.1 hw, if_false,
            ImageSingle.pixelValue_of_lt _ _ _ hx hy]
          have hinner := foldlM_range_invariant
            (fun (I : Matrix (Fin (indexOfPixels.length * color)) (Fin obsSingle.length) K)
                c =>
              ((List.range (load (obsSingle.get ⟨k, hk⟩).strImage).spectrum).map
                (fun c => (load (obsSingle.get ⟨k, hk⟩).strImage).data
                  (indexOfPixels.get ⟨j, hj⟩ % width)
                  (indexOfPixels.get ⟨j, hj⟩ / width) c))[c]?.bind fun v =>
                setCoeffAt I (c * indexOfPixels.length + j) k v)
            (fun i
                (I : Matrix (Fin (indexOfPixels.length * color)) (Fin obsSingle.length) K) =>
              ∀ r f (hr : r < indexOfPixels.length * color) (hf : f < obsSingle.length),
                ((f < k ∨ (f = k ∧ r % indexOfPixels.length < j)) ∨
                  (f = k ∧ r % indexOfPixels.length = j ∧ r / indexOfPixels.length < i)) →
                I ⟨r, hr⟩ ⟨f, hf⟩ = T r f)
            color I1
            (by
              intro r f hr hf h
              rcases h with h | h
              · exact hI1 r f hr hf h
              · exact absurd h.2.2 (Nat.not_lt_zero _))
            (by
              intro i hi I2 hI2
              have hspec : i < (load (obsSingle.get ⟨k, hk⟩).strImage).spectrum :=
                lt_of_lt_of_le hi (hcolor _ hmem)
              have hmod : (i * indexOfPixels.length + j) % indexOfPixels.length = j := by
                rw [Nat.mul_comm, Nat.mul_add_mod, Nat.mod_eq_of_lt hj]
              have hdiv : (i * indexOfPixels.length + j) / indexOfPixels.length = i := by
                rw [Nat.mul_comm, Nat.mul_add_div (by omega), Nat.div_eq_of_lt hj,
                  Nat.add_zero]
              have hval : (load (obsSingle.get ⟨k, hk⟩).strImage).data
                  (indexOfPixels.get ⟨j, hj⟩ % width)
                  (indexOfPixels.get ⟨j, hj⟩ / width) i =
                  T (i * indexOfPixels.length + j) k := by
                simp only [T, hget, hmod, hdiv]
                rw [List.getD_eq_getElem _ _ hj]
                rfl
              have hrow : i * indexOfPixels.length + j < indexOfPixels.length * color :=
                observation_row_lt ⟨i, hi⟩ ⟨j, hj⟩
              obtain ⟨M', hM', hgood⟩ := setCoeffAt_target I2 T
                (fun r f => (f < k ∨ (f = k ∧ r % indexOfPixels.length < j)) ∨
                  (f = k ∧ r % indexOfPixels.length = j ∧ r / indexOfPixels.length < i))
                (i * indexOfPixels.length + j) k hrow hk
                (fun r f hr hf h => hI2 r f hr hf h)
              refine ⟨M', ?_, ?_⟩
              · simp only [List.getElem?_map, List.getElem?_range hspec, Option.map_some',
                  Option.some_bind, hval]
                exact hM'
              · intro r f hr hf h
                apply hgood r f hr hf
                rcases h with h | ⟨h1, h2, h3⟩
                · exact Or.inl (Or.inl h)
                · by_cases hri : r / indexOfPixels.length = i
                  · right
                    refine ⟨?_, h1⟩
                    rw [← Nat.div_add_mod' r indexOfPixels.length, hri, h2]
                  · exact Or.inl (Or.inr ⟨h1, h2, by omega⟩))
          obtain ⟨I3, hI3, hgood⟩ := hinner
          refine ⟨I3, hI3, ?_⟩
          intro r f hr hf h
          apply hgood r f hr hf
          rcases h with h | ⟨h1, h2⟩
          · exact Or.inl (Or.inl h)
          · by_cases hrj : r % indexOfPixels.length = j
            · right
              refine ⟨h1, hrj, ?_⟩
              apply Nat.div_lt_of_lt_mul
              exact hr
            · exact Or.inl (Or.inr ⟨h1, by omega⟩))
      obtain ⟨I4, hI4, hgood⟩ := hmid
      refine ⟨I4, hI4, ?_⟩
      intro r f hr hf h
      apply hgood r f hr hf
      by_cases hfk : f = k
      · right
        refine ⟨hfk, Nat.mod_lt _ ?_⟩
        rcases Nat.eq_zero_or_pos indexOfPixels.length with h0 | h0
        · rw [h0] at hr; simp at hr
        · exact h0
      · exact Or.inl (by omega)
  obtain ⟨I, hI, hgood⟩ := hmain
  refine ⟨I, hI, ?_⟩
  intro c p f
  rw [hgood _ f.val (observation_row_lt c p) f.isLt f.isLt]
  have hget : obsSingle[f.val]? = some (obsSingle.get f) := by
    simp [List.getElem?_eq_getElem f.isLt]
  have hmod : (c.val * indexOfPixels.length + p.val) % indexOfPixels.length = p.val := by
    rw [Nat.mul_comm, Nat.mul_add_mod, Nat.mod_eq_of_lt p.isLt]
  have hdiv : (c.val * indexOfPixels.length + p.val) / indexOfPixels.length = c.val := by
    rw [Nat.mul_comm, Nat.mul_add_div (by have := p.isLt; omega), Nat.div_eq_of_lt p.isLt,
      Nat.add_zero]
  simp only [T, hget, hmod, hdiv]
  rw [List.getD_eq_getElem _ _ p.isLt]
  rfl

/-- Claim C16, amended, at a concrete input: one `2 x 2` image of constant value `7` and
the index list `[3]`. -/
theorem buildObservationMatrix_entries_witness :
    ∃ I : Matrix (Fin ([3].length * 1))
        (Fin [(⟨"a.png", "0 0 1", 1⟩ : ObservationSingle ℚ)].length) ℚ,
      buildObservationMatrix (fun _ => CImg.filled 2 2 1 (7 : ℚ)) [3]
        [(⟨"a.png", "0 0 1", 1⟩ : ObservationSingle ℚ)] 1 2 = some I ∧
      I ⟨0, by decide⟩ ⟨0, by decide⟩ = 7 := by
  obtain ⟨I, hI, hval⟩ := buildObservationMatrix_entries (fun _ => CImg.filled 2 2 1 (7 : ℚ))
    [3] [(⟨"a.png", "0 0 1", 1⟩ : ObservationSingle ℚ)] 1 2
    (fun _ _ => rfl) (fun _ _ => le_refl 1)
    (fun _ _ idx hidx => by rw [List.mem_singleton.1 hidx]; simp [CImg.filled])
  refine ⟨I, hI, ?_⟩
  have := hval ⟨0, by decide⟩ ⟨0, by decide⟩ ⟨0, by decide⟩
  simpa [CImg.filled] using this

/-- Claim C17. When every direction string parses to three components,
`buildLightSourceMatrix` returns a matrix with `3` rows and `N` columns with
`L(d, f) = lightIntensity_f * direction_f[d]`; the direction is not renormalised, so the
norm of column `f` is `|lightIntensity_f|` times the norm of `direction_f`. -/
theorem buildLightSourceMatrix_columns (str2vector : String → List ℝ)
    (obsSingle : List (ObservationSingle ℝ)) (direction : Fin obsSingle.length → Fin 3 → ℝ)
    (hparse : ∀ f : Fin obsSingle.length,
      str2vector (obsSingle.get f).lightDirection =
        [direction f 0, direction f 1, direction f 2]) :
    ∃ L : Matrix (Fin 3) (Fin obsSingle.length) ℝ,
      buildLightSourceMatrix str2vector obsSingle = some L ∧
      (∀ (d : Fin 3) (f : Fin obsSingle.length),
        L d f = (obsSingle.get f).lightIntensity * direction f d) ∧
      (∀ f : Fin obsSingle.length,
        Eigen.norm (fun d => L d f) =
          |(obsSingle.get f).lightIntensity| * Eigen.norm (direction f)) := by
  -- the value that position `(d, f)` is meant to hold
  let T : ℕ → ℕ → ℝ := fun d f =>
    if h : f < obsSingle.length ∧ d < 3 then
      (obsSingle.get ⟨f, h.1⟩).lightIntensity * direction ⟨f, h.1⟩ ⟨d, h.2⟩
    else 0
  have hT : ∀ (d : Fin 3) (f : Fin obsSingle.length),
      T d.val f.val = (obsSingle.get f).lightIntensity * direction f d := by
    intro d f
    simp only [T]
    rw [dif_pos ⟨f.isLt, d.isLt⟩]
  have hmain : ∃ L : Matrix (Fin 3) (Fin obsSingle.length) ℝ,
      buildLightSourceMatrix str2vector obsSingle = some L ∧
      ∀ d f (hd : d < 3) (hf : f < obsSingle.length), f < obsSingle.length →
        L ⟨d, hd⟩ ⟨f, hf⟩ = T d f := by
    unfold buildLightSourceMatrix
    apply foldlM_range_invariant _
      (fun k (L : Matrix (Fin 3) (Fin obsSingle.length) ℝ) =>
        ∀ d f (hd : d < 3) (hf : f < obsSingle.length), f < k →
          L ⟨d, hd⟩ ⟨f, hf⟩ = T d f)
    · intro d f hd hf hk
      exact absurd hk (Nat.not_lt_zero f)
    · intro k hk L hL
      have hget : obsSingle[k]? = some (obsSingle.get ⟨k, hk⟩) := by
        simp [List.getElem?_eq_getElem hk]
      simp only [hget, Option.some_bind, Option.bind_eq_bind]
      have hvec := hparse ⟨k, hk⟩
      have hinner := foldlM_range_invariant
        (fun (L : Matrix (Fin 3) (Fin obsSingle.length) ℝ) d =>
          (str2vector (obsSingle.get ⟨k, hk⟩).lightDirection)[d]?.bind fun v =>
            setCoeffAt L d k ((obsSingle.get ⟨k, hk⟩).lightIntensity * v))
        (fun j (L : Matrix (Fin 3) (Fin obsSingle.length) ℝ) =>
          ∀ d f (hd : d < 3) (hf : f < obsSingle.length), (f < k ∨ (f = k ∧ d < j)) →
            L ⟨d, hd⟩ ⟨f, hf⟩ = T d f) 3 L
        (by
          intro d f hd hf h
          rcases h with h | h
          · exact hL d f hd hf h
          · exact absurd h.2 (Nat.not_lt_zero d))
        (by
          intro j hj L' hL'
          have hv : (str2vector (obsSingle.get ⟨k, hk⟩).lightDirection)[j]? =
              some (direction ⟨k, hk⟩ ⟨j, hj⟩) := by
            rw [hvec]
            interval_cases j <;> rfl
          have hval :
              (obsSingle.get ⟨k, hk⟩).lightIntensity * direction ⟨k, hk⟩ ⟨j, hj⟩ =
                T j k := by
            simp only [T]
            rw [dif_pos ⟨hk, hj⟩]
          simp only [hv, Option.some_bind, hval]
          obtain ⟨M', hM', hgood⟩ := setCoeffAt_target L' T
            (fun d f => f < k ∨ (f = k ∧ d < j)) j k hj hk
            (fun d f hd hf h => hL' d f hd hf h)
          refine ⟨M', hM', ?_⟩
          intro d f hd hf h
          apply hgood d f hd hf
          rcases h with h | ⟨h1, h2⟩
          · exact Or.inl (Or.inl h)
          · by_cases hdj : d = j
            · exact Or.inr ⟨hdj, h1⟩
            · exact Or.inl (Or.inr ⟨h1, by omega⟩))
      obtain ⟨L', hL', hgood⟩ := hinner
      refine ⟨L', hL', ?_⟩
      intro d f hd hf h
      apply hgood d f hd hf
      by_cases hfk : f = k
      · exact Or.inr ⟨hfk, hd⟩
      · exact Or.inl (by omega)
  obtain ⟨L, hL, hgood⟩ := hmain
  have hentry : ∀ (d : Fin 3) (f : Fin obsSingle.length),
      L d f = (obsSingle.get f).lightIntensity * direction f d := by
    intro d f
    rw [← hT d f]
    exact hgood d.val f.val d.isLt f.isLt f.isLt
  refine ⟨L, hL, hentry, fun f => ?_⟩
  rw [← Eigen.norm_smul]
  congr 1
  funext d
  exact hentry d f

/-- Claim C17 at a concrete input: one observation of direction `(0, 0, 1)` and
intensity `2`. -/
theorem buildLightSourceMatrix_columns_witness :
    ∃ L : Matrix (Fin 3) (Fin [(⟨"a.png", "0 0 1", 2⟩ : ObservationSingle ℝ)].length) ℝ,
      buildLightSourceMatrix (fun _ => [0, 0, 1])
        [(⟨"a.png", "0 0 1", 2⟩ : ObservationSingle ℝ)] = some L ∧
      L 2 ⟨0, by decide⟩ = 2 := by
  obtain ⟨L, hL, hval, _⟩ := buildLightSourceMatrix_columns (fun _ => [0, 0, 1])
    [(⟨"a.png", "0 0 1", 2⟩ : ObservationSingle ℝ)] (fun _ => ![0, 0, 1]) (fun _ => by simp)
  refine ⟨L, hL, ?_⟩
  rw [hval 2 ⟨0, by decide⟩]
  simp

/-- Claim C18. For `width > 0`, the location `(idx % width, idx / width)` of
`computePixelLocation` maps back to `idx` under `computeIndex` and under
`ImageSingle::_index`: `y*width + x = idx`; the same quotient and remainder are the ones
the assembly and the mappers compute. -/
theorem computeIndex_computePixelLocation (width idx : ℕ) (hwidth : 0 < width) :
    computeIndex width (computePixelLocation width idx) = idx ∧
      ImageSingle._index width (computePixelLocation width idx).x
        (computePixelLocation width idx).y = idx ∧
      (checkedMod idx width = some (idx % width) ∧ checkedDiv idx width = some (idx / width)) ∧
      idx / width * width + idx % width = idx := by
  have h : idx / width * width + idx % width = idx := Nat.div_add_mod' idx width
  refine ⟨h, h, ⟨?_, ?_⟩, h⟩
  · simp [checkedMod, Nat.pos_iff_ne_zero.1 hwidth]
  · simp [checkedDiv, Nat.pos_iff_ne_zero.1 hwidth]

/-- Claim C18 at a concrete input: index `11` in an image of width `4`. -/
theorem computeIndex_computePixelLocation_witness :
    computeIndex 4 (computePixelLocation 4 11) = 11 :=
  (computeIndex_computePixelLocation 4 11 (by decide)).1

/-- Counterexample to claim C19 as stated: the index list `[1]` is free of duplicates,
but in a `1 x 1` image it names pixel `(0, 1)`, which the image does not have; the write
has no defined result and no image is returned. -/
theorem saveSurfaceNormalToImage_outside :
    saveSurfaceNormalToImage (0 : Matrix (Fin 1) (Fin 3) ℚ) [1] 1 1 = none := by
  rfl

/-- Claim C19, amended. For `width, height > 0` and a duplicate-free index list all of
whose indices are below `width*height`, `saveSurfaceNormalToImage` returns an image of
that width and height with `3` channels, in which pixel
`(indexOfPixels[p] % width, indexOfPixels[p] / width)` has channel `c` equal to
`255*(N(p,c) + 1)/2`, a value in `[0, 255]` when `N(p,c)` is in `[-1, 1]`, and every
pixel that the list does not name is `0` in all channels. -/
theorem saveSurfaceNormalToImage_pixels {K : Type} [LinearOrderedField K]
    (indexOfPixels : List ℕ) (N : Matrix (Fin indexOfPixels.length) (Fin 3) K)
    (width height : ℕ) (hw : 0 < width) (hh : 0 < height) (hnodup : indexOfPixels.Nodup)
    (hrange : ∀ idx ∈ indexOfPixels, idx < width * height) :
    ∃ img : CImg K, saveSurfaceNormalToImage N indexOfPixels width height = some img ∧
      img.width = width ∧ img.height = height ∧ img.spectrum = 3 ∧
      (∀ (p : Fin indexOfPixels.length) (c : Fin 3),
        img.data (indexOfPixels.get p % width) (indexOfPixels.get p / width) c.val =
          255 * (N p c + 1) / 2) ∧
      (∀ (p : Fin indexOfPixels.length) (c : Fin 3), -1 ≤ N p c → N p c ≤ 1 →
        0 ≤ img.data (indexOfPixels.get p % width) (indexOfPixels.get p / width) c.val ∧
          img.data (indexOfPixels.get p % width) (indexOfPixels.get p / width) c.val ≤ 255) ∧
      (∀ x y c, (∀ p : Fin indexOfPixels.length,
          ¬ (x = indexOfPixels.get p % width ∧ y = indexOfPixels.get p / width)) →
        img.data x y c = 0) := by
  obtain ⟨img, himg, h1, h2, h3, h4, h5⟩ := scatter_foldlM indexOfPixels width height 3
    (fun p c => coeffAt N p c) (fun v => 255 * (v + 1) / 2)
    (fun p c => if h : p < indexOfPixels.length ∧ c < 3 then N ⟨p, h.1⟩ ⟨c, h.2⟩ else 0)
    hw hh (by norm_num) hrange hnodup
    (by
      intro p c hp hc
      simp only [Eigen.coeffAt_of_lt N hp hc]
      rw [dif_pos ⟨hp, hc⟩])
  have hval : ∀ (p : Fin indexOfPixels.length) (c : Fin 3),
      img.data (indexOfPixels.get p % width) (indexOfPixels.get p / width) c.val =
        255 * (N p c + 1) / 2 := by
    intro p c
    rw [h4 p c.val c.isLt, dif_pos ⟨p.isLt, c.isLt⟩]
  refine ⟨img, himg, h1, h2, h3, hval, ?_, h5⟩
  intro p c hlo hhi
  rw [hval p c]
  constructor
  · have : 0 ≤ N p c + 1 := by linarith
    positivity
  · rw [div_le_iff₀ (by norm_num : (0 : K) < 2)]
    nlinarith

/-- Claim C19, amended, at a concrete input: one pixel of index `3` in a `2 x 2`
image. -/
theorem saveSurfaceNormalToImage_pixels_witness :
    ∃ img : CImg ℚ,
      saveSurfaceNormalToImage (!![1, 0, -1] : Matrix (Fin [3].length) (Fin 3) ℚ) [3] 2 2 =
        some img ∧ img.data 1 1 0 = 255 ∧ img.data 0 0 0 = 0 := by
  obtain ⟨img, himg, _, _, _, hval, _, hzero⟩ := saveSurfaceNormalToImage_pixels [3]
    (!![1, 0, -1] : Matrix (Fin [3].length) (Fin 3) ℚ) 2 2 (by norm_num) (by norm_num)
    (by simp) (by simp)
  refine ⟨img, himg, ?_, ?_⟩
  · have := hval ⟨0, by simp⟩ 0
    simp at this
    rw [this]; norm_num
  · apply hzero
    intro p
    have hp : p = ⟨0, by simp⟩ := Fin.ext (Nat.lt_one_iff.1 p.isLt)
    subst hp
    simp

/-- Counterexample to claim C20 as stated: in a `1 x 1` image the index list `[1]` names
pixel `(0, 1)`, which the image does not have, and no image is returned; and with
`color = 0` the constructor of CImg yields the empty image, of width and height `0`. -/
theorem saveReprojectionError_outside :
    saveReprojectionError (0 : Matrix (Fin 1) (Fin 1) ℚ) [1] 1 1 1 = none ∧
      (saveReprojectionError (0 : Matrix (Fin 0) (Fin 1) ℚ) [0] 1 1 0).map
        (fun img => (img.width, img.height, img.spectrum)) = some (0, 0, 0) := by
  constructor <;> rfl

/-- Claim C20, amended. For `color >= 1`, an `Idiff` with at least `color` columns,
`width, height > 0` and a duplicate-free index list all of whose indices are below
`width*height`, `saveReprojectionError` returns an image of that width and height with
`color` channels, in which pixel `(indexOfPixels[p] % width, indexOfPixels[p] / width)`
has channel `c` equal to `|Idiff(c*P + p, c)|` (the column index is the channel index),
and every pixel that the list does not name is `0`. -/
theorem saveReprojectionError_pixels {K : Type} [LinearOrderedField K]
    (indexOfPixels : List ℕ) (color ic : ℕ)
    (Idiff : Matrix (Fin (color * indexOfPixels.length)) (Fin ic) K)
    (width height : ℕ) (hcolor : 0 < color) (hcols : color ≤ ic)
    (hw : 0 < width) (hh : 0 < height) (hnodup : indexOfPixels.Nodup)
    (hrange : ∀ idx ∈ indexOfPixels, idx < width * height) :
    ∃ img : CImg K,
      saveReprojectionError Idiff indexOfPixels width height color = some img ∧
      img.width = width ∧ img.height = height ∧ img.spectrum = color ∧
      (∀ (p : Fin indexOfPixels.length) (c : Fin color),
        img.data (indexOfPixels.get p % width) (indexOfPixels.get p / width) c.val =
          |Idiff ⟨c.val * indexOfPixels.length + p.val, channel_row_lt c p⟩
            ⟨c.val, lt_of_lt_of_le c.isLt hcols⟩|) ∧
      (∀ x y c, (∀ p : Fin indexOfPixels.length,
          ¬ (x = indexOfPixels.get p % width ∧ y = indexOfPixels.get p / width)) →
        img.data x y c = 0) := by
  obtain ⟨img, himg, h1, h2, h3, h4, h5⟩ := scatter_foldlM indexOfPixels width height color
    (fun p c => coeffAt Idiff (c * indexOfPixels.length + p) c) (fun v => |v|)
    (fun p c => if h : p < indexOfPixels.length ∧ c < color then
      Idiff ⟨c * indexOfPixels.length + p, channel_row_lt ⟨c, h.2⟩ ⟨p, h.1⟩⟩
        ⟨c, lt_of_lt_of_le h.2 hcols⟩ else 0)
    hw hh hcolor hrange hnodup
    (by
      intro p c hp hc
      simp only [Eigen.coeffAt_of_lt Idiff (channel_row_lt ⟨c, hc⟩ ⟨p, hp⟩)
        (lt_of_lt_of_le hc hcols)]
      rw [dif_pos ⟨hp, hc⟩])
  refine ⟨img, himg, h1, h2, h3, ?_, h5⟩
  intro p c
  rw [h4 p c.val c.isLt, dif_pos ⟨p.isLt, c.isLt⟩]

/-- Claim C20, amended, at a concrete input: one pixel, one channel and the residual
`-2`. -/
theorem saveReprojectionError_pixels_witness :
    ∃ img : CImg ℚ,
      saveReprojectionError (!![-2] : Matrix (Fin (1 * [0].length)) (Fin 1) ℚ) [0] 1 1 1 =
        some img ∧ img.data 0 0 0 = 2 := by
  obtain ⟨img, himg, _, _, _, hval, _⟩ := saveReprojectionError_pixels [0] 1 1
    (!![-2] : Matrix (Fin (1 * [0].length)) (Fin 1) ℚ) 1 1 (by norm_num) (le_refl 1)
    (by norm_num) (by norm_num) (by simp) (by simp)
  refine ⟨img, himg, ?_⟩
  have := hval ⟨0, by decide⟩ ⟨0, by decide⟩
  simp at this
  rw [this]

/-! ## Auxiliary lemmas for the containers, the bounds and the strings -/

/-- The observations stored after a sequence of calls of `ObservationAll::addObservation`. -/
theorem ObservationAll.addObservation_foldl {K : Type} (observations : List (ObservationSingle K))
    (obsAll : ObservationAll K) :
    (observations.foldl ObservationAll.addObservation obsAll).observation =
      obsAll.observation ++ observations := by
  induction observations generalizing obsAll with
  | nil => simp
  | cons obs l ih =>
    rw [List.foldl_cons, ih]
    simp [ObservationAll.addObservation, ObservationAll.observation]

/-- The observations stored after a sequence of calls of `CpsConfig::addObservation`. -/
theorem CpsConfig.addObservation_stored {K : Type} (observations : List (ObservationSingle K))
    (config : CpsConfig K) :
    (observations.foldl CpsConfig.addObservation config).obsAll.observation =
      config.obsAll.observation ++ observations := by
  induction observations generalizing config with
  | nil => simp
  | cons obs l ih =>
    rw [List.foldl_cons, ih]
    simp [CpsConfig.addObservation, CpsConfig.obsAll, ObservationAll.addObservation,
      ObservationAll.observation]

/-- After `indexOfPixels(list)`, `indexOfPixel(n)` reads position `min(n, P)` of the list. -/
theorem indexOfPixel_setIndexOfPixels (cps : CalibratedPhotometricStereo) (list : List ℕ)
    (n : ℕ) :
    (cps.setIndexOfPixels list).indexOfPixel n = list[min n list.length]? := by
  simp only [CalibratedPhotometricStereo.indexOfPixel,
    CalibratedPhotometricStereo.setIndexOfPixels]
  have h : min (n : ℤ) (list.length : ℤ) = ((min n list.length : ℕ) : ℤ) := by
    simp
  rw [h, if_pos (Int.natCast_nonneg _), Int.toNat_natCast]

/-- The scan of `loadAvailablePixels` runs to its end and establishes its invariant. -/
theorem loadAvailablePixels_scanned (mask : CImg ℕ) :
    ∃ l, loadAvailablePixels mask [] = some (mask.width, mask.height, l) ∧
      scanned mask 0 mask.height l := by
  have hloop : ∃ l, (List.range mask.height).foldlM
      (fun indexOfPixels y =>
        (List.range mask.width).foldlM
          (fun indexOfPixels x => do
            let v ← ImageSingle.value mask x y 0
            if v = 255 then pure (indexOfPixels ++ [y * mask.width + x])
            else pure indexOfPixels)
          indexOfPixels) [] = some l ∧ scanned mask 0 mask.height l := by
    apply foldlM_range_invariant _ (fun y l => scanned mask 0 y l)
    · refine ⟨List.sorted_nil, by simp, fun e => ?_⟩
      constructor
      · intro h; exact absurd h (List.not_mem_nil e)
      · rintro ⟨x1, y1, h1, h2, h3, h4⟩
        omega
    · intro y hy l hl
      obtain ⟨l', hl', hinv⟩ := foldlM_range_invariant
        (fun indexOfPixels x => do
            let v ← ImageSingle.value mask x y 0
            if v = 255 then pure (indexOfPixels ++ [y * mask.width + x])
            else pure indexOfPixels)
        (fun x l => scanned mask x y l) mask.width l hl
        (by
          intro x hx l1 hl1
          refine ⟨_, ?_, scanned_step mask x y hx l1 hl1⟩
          simp only [ImageSingle.value_zero mask x y hx hy, Option.some_bind,
            Option.bind_eq_bind]
          by_cases hv : mask.data x y 0 = 255
          · simp [hv]
          · simp [hv])
      exact ⟨l', hl', scanned_next_row mask y l' hinv⟩
  obtain ⟨l, hl, hs⟩ := hloop
  refine ⟨l, ?_, hs⟩
  unfold loadAvailablePixels
  simp only []
  rw [hl]
  rfl

/-- The loop over the pixels of the visualisation mappers runs to its end when every
listed index is below `width*height` and every read of the matrix succeeds: all its
writes fall inside the image. -/
theorem scatter_foldlM_inside {K : Type} [Zero K] (indexOfPixels : List ℕ)
    (width height C : ℕ) (read : ℕ → ℕ → Option K) (g : K → K)
    (hw : 0 < width) (hh : 0 < height)
    (hrange : ∀ idx ∈ indexOfPixels, idx < width * height)
    (hread : ∀ p c, p < indexOfPixels.length → c < C → ∃ v, read p c = some v) :
    ∃ img : CImg K, (List.range indexOfPixels.length).foldlM
        (fun img p => do
          let index ← indexOfPixels[p]?
          let x ← checkedMod index width
          let y ← checkedDiv index width
          (List.range C).foldlM
            (fun img c => do
              let v ← read p c
              img.set x y c (g v))
            img)
        (CImg.filled width height C (0 : K)) = some img ∧
      (0 < C → img.width = width ∧ img.height = height ∧ img.spectrum = C) := by
  rcases Nat.eq_zero_or_pos C with hC | hC
  · subst hC
    obtain ⟨img, himg, _⟩ := foldlM_range_invariant
      (fun (img : CImg K) p => do
          let index ← indexOfPixels[p]?
          let x ← checkedMod index width
          let y ← checkedDiv index width
          (List.range 0).foldlM
            (fun img c => do
              let v ← read p c
              img.set x y c (g v))
            img)
      (fun _ _ => True) indexOfPixels.length (CImg.filled width height 0 (0 : K)) trivial
      (by
        intro k hk img _
        refine ⟨img, ?_, trivial⟩
        have hget : indexOfPixels[k]? = some (indexOfPixels.get ⟨k, hk⟩) := by
          simp [List.getElem?_eq_getElem hk]
        simp only [hget, Option.some_bind, Option.bind_eq_bind, checkedMod, checkedDiv,
          Nat.pos_iff_ne_zero.1 hw, if_false, List.range_zero, List.foldlM_nil]
        rfl)
    exact ⟨img, himg, fun h => absurd h (Nat.lt_irrefl 0)⟩
  · obtain ⟨f1, f2, f3, _⟩ := CImg.filled_of_pos width height C (0 : K) hw hh hC
    obtain ⟨img, himg, h1, h2, h3⟩ := foldlM_range_invariant
      (fun (img : CImg K) p => do
          let index ← indexOfPixels[p]?
          let x ← checkedMod index width
          let y ← checkedDiv index width
          (List.range C).foldlM
            (fun img c => do
              let v ← read p c
              img.set x y c (g v))
            img)
      (fun _ (img : CImg K) => img.width = width ∧ img.height = height ∧ img.spectrum = C)
      indexOfPixels.length (CImg.filled width height C (0 : K)) ⟨f1, f2, f3⟩
      (by
        intro k hk img ⟨h1, h2, h3⟩
        have hget : indexOfPixels[k]? = some (indexOfPixels.get ⟨k, hk⟩) := by
          simp [List.getElem?_eq_getElem hk]
        have hidx : indexOfPixels.get ⟨k, hk⟩ < width * height :=
          hrange _ (List.get_mem _ _ _)
        have hx : indexOfPixels.get ⟨k, hk⟩ % width < img.width := by
          rw [h1]; exact Nat.mod_lt _ hw
        have hy : indexOfPixels.get ⟨k, hk⟩ / width < img.height := by
          rw [h2]; exact Nat.div_lt_of_lt_mul hidx
        obtain ⟨img', hfold, g1, g2, g3, _⟩ := channels_foldlM img
          (indexOfPixels.get ⟨k, hk⟩ % width) (indexOfPixels.get ⟨k, hk⟩ / width) C (read k) g
          (fun c => (read k c).getD 0) hx hy (by rw [h3])
          (fun c hc => by
            obtain ⟨v, hv⟩ := hread k c hk hc
            simp only [hv, Option.getD_some])
        refine ⟨img', ?_, g1.trans h1, g2.trans h2, g3.trans h3⟩
        simp only [hget, Option.some_bind, Option.bind_eq_bind, checkedMod, checkedDiv,
          Nat.pos_iff_ne_zero.1 hw, if_false]
        exact hfold)
    exact ⟨img, himg, fun _ => ⟨h1, h2, h3⟩⟩

/-- A sum over the first `c` of `a` indices. -/
theorem sum_fin_of_lt {K : Type} [AddCommMonoid K] {c a : ℕ} (h : c ≤ a) (F : Fin c → K) :
    ∑ l : Fin a, (if hl : l.val < c then F ⟨l.val, hl⟩ else 0) = ∑ t : Fin c, F t := by
  have h1 := Fin.sum_univ_eq_sum_range (fun l => if hl : l < c then F ⟨l, hl⟩ else 0) a
  have h2 := Fin.sum_univ_eq_sum_range (fun l => if hl : l < c then F ⟨l, hl⟩ else 0) c
  rw [h1]
  have h3 : ∑ t : Fin c, F t = ∑ t : Fin c, (if hl : t.val < c then F ⟨t.val, hl⟩ else 0) :=
    Finset.sum_congr rfl (fun t _ => by simp [t.isLt])
  rw [h3, h2]
  symm
  apply Finset.sum_subset
  · intro x hx
    rw [Finset.mem_range] at hx ⊢
    omega
  · intro x _ hx
    rw [Finset.mem_range] at hx
    simp [hx]

/-- The matrix `V * Sinv * U^T` assembled by `pinvSvdThin` and `pinvSvdFull`, entry by
entry: only the first `min m n` columns of `U` and `V` enter. -/
theorem pinvSvd_apply {K : Type} [LinearOrderedField K] {m n : ℕ} (svd : JacobiSVD K m n)
    (ε : K) (hU : min m n ≤ svd.colsU) (hV : min m n ≤ svd.colsV) (i : Fin n) (j : Fin m) :
    (svd.matrixV * getInverseSigma svd ε * svd.matrixUᵀ) i j =
      ∑ t : Fin (min m n), svd.matrixV i ⟨t.val, lt_of_lt_of_le t.isLt hV⟩ *
        (if svd.singularValues t > ε then 1 / svd.singularValues t else 0) *
        svd.matrixU j ⟨t.val, lt_of_lt_of_le t.isLt hU⟩ := by
  rw [getInverseSigma_apply]
  simp only [Matrix.mul_apply, Matrix.transpose_apply, Matrix.of_apply]
  rw [← sum_fin_of_lt hU]
  apply Finset.sum_congr rfl
  intro l _
  by_cases hl : l.val < min m n
  · rw [dif_pos hl]
    have hlV : l.val < svd.colsV := lt_of_lt_of_le hl hV
    rw [Finset.sum_eq_single (⟨l.val, hlV⟩ : Fin svd.colsV)]
    · have hsv : svd.sv l.val = svd.singularValues ⟨l.val, hl⟩ :=
        JacobiSVD.sv_val svd ⟨l.val, hl⟩
      simp [hl, hsv]
    · intro k _ hk
      have : ¬ k.val = l.val := fun h => hk (Fin.ext h)
      simp [this]
    · intro h; exact absurd (Finset.mem_univ _) h
  · rw [dif_neg hl, Finset.sum_eq_zero, zero_mul]
    intro k _
    by_cases hkl : k.val = l.val
    · have : ¬ k.val < min m n := hkl ▸ hl
      simp [hkl, this, hl]
    · simp [hkl]

/-- A search from the start of the string. -/
theorem StdString.find_zero (str pattern : List Char) :
    StdString.find str pattern 0 = StdString.findFrom pattern str 0 := by
  simp [StdString.find]

/-- A successful search of `std::string::find` reports the first occurrence. -/
theorem StdString.findFrom_some (pattern : List Char) :
    ∀ (rest : List Char) (pos i : ℕ), StdString.findFrom pattern rest pos = some i →
      ∃ k, i = pos + k ∧ k ≤ rest.length ∧ pattern <+: rest.drop k ∧
        ∀ j, j < k → ¬ pattern <+: rest.drop j := by
  intro rest
  induction rest with
  | nil =>
    intro pos i h
    by_cases hp : pattern = []
    · simp only [StdString.findFrom, if_pos hp, Option.some.injEq] at h
      exact ⟨0, by omega, le_rfl, by simp [hp], fun j hj => absurd hj (Nat.not_lt_zero j)⟩
    · simp [StdString.findFrom, hp] at h
  | cons c rest ih =>
    intro pos i h
    by_cases hp : pattern <+: c :: rest
    · rw [StdString.findFrom, if_pos hp, Option.some.injEq] at h
      exact ⟨0, by omega, Nat.zero_le _, by simpa using hp,
        fun j hj => absurd hj (Nat.not_lt_zero j)⟩
    · rw [StdString.findFrom, if_neg hp] at h
      obtain ⟨k, hk, hle, hpre, hmin⟩ := ih (pos + 1) i h
      refine ⟨k + 1, by omega, by simpa using hle, by simpa using hpre, fun j hj => ?_⟩
      cases j with
      | zero => simpa using hp
      | succ j => simpa using hmin j (by omega)

/-- A search of `std::string::find` that reports `npos` has met no occurrence. -/
theorem StdString.findFrom_none (pattern : List Char) :
    ∀ (rest : List Char) (pos : ℕ), StdString.findFrom pattern rest pos = none →
      ∀ j, ¬ pattern <+: rest.drop j := by
  intro rest
  induction rest with
  | nil =>
    intro pos h j
    by_cases hp : pattern = []
    · simp [StdString.findFrom, hp] at h
    · simpa using hp
  | cons c rest ih =>
    intro pos h j
    by_cases hp : pattern <+: c :: rest
    · rw [StdString.findFrom, if_pos hp] at h
      exact absurd h (by simp)
    · rw [StdString.findFrom, if_neg hp] at h
      cases j with
      | zero => simpa using hp
      | succ j => simpa using ih (pos + 1) h j

/-- An occurrence of `pattern` inside `str` starts at some position of `str`. -/
theorem occurrence_starts_at {pattern str : List Char} (h : pattern <:+: str) :
    ∃ j, j + pattern.length ≤ str.length ∧ pattern <+: str.drop j := by
  obtain ⟨a, b, hab⟩ := h
  refine ⟨a.length, ?_, b, ?_⟩
  · rw [← hab]; simp
  · rw [← hab, List.append_assoc, List.drop_left]

/-- One pass of the loop of `splitString` that finds the delimiter. -/
theorem splitStringLoop_found (delim : List Char) (fuel : ℕ) (_str : List Char)
    (res : List (List Char)) (p : ℕ) (h : StdString.find _str delim 0 = some p)
    (hp : p + delim.length ≤ _str.length) :
    splitStringLoop delim (fuel + 1) _str res =
      splitStringLoop delim fuel (_str.drop (p + delim.length)) (res ++ [_str.take p]) := by
  rw [splitStringLoop, h]
  simp [StdString.substr, StdString.substrFrom, hp]

/-- The last pass of the loop of `splitString` and the statements behind the loop. -/
theorem splitStringLoop_npos (delim : List Char) (fuel : ℕ) (_str : List Char)
    (res : List (List Char)) (h : StdString.find _str delim 0 = none) :
    splitStringLoop delim (fuel + 1) _str res =
      some (if _str.length > 0 then res ++ [_str] else res) := by
  rw [splitStringLoop, h]

/-- The pieces joined by the delimiter, one piece at a time. -/
theorem intercalate_cons_of_ne_nil (delim piece : List Char) (pieces : List (List Char))
    (h : pieces ≠ []) :
    List.intercalate delim (piece :: pieces) =
      piece ++ delim ++ List.intercalate delim pieces := by
  cases pieces with
  | nil => exact absurd rfl h
  | cons q l => simp [List.intercalate, List.intersperse]

/-- The loop of `splitString` on a non-empty rest that does not end with the delimiter. -/
theorem splitStringLoop_pieces (delim : List Char) (hd : delim ≠ []) :
    ∀ (n : ℕ) (_str : List Char), _str.length ≤ n → _str ≠ [] → ¬ delim <:+ _str →
      ∃ pieces : List (List Char), pieces ≠ [] ∧ (∀ piece ∈ pieces, ¬ delim <:+: piece) ∧
        List.intercalate delim pieces = _str ∧
        ∀ (res : List (List Char)) (fuel : ℕ), _str.length < fuel →
          splitStringLoop delim fuel _str res = some (res ++ pieces) := by
  have hdl : 0 < delim.length := List.length_pos.2 hd
  intro n
  induction n with
  | zero =>
    intro _str hn hne
    exact absurd (List.length_eq_zero.1 (Nat.le_zero.1 hn)) hne
  | succ n ih =>
    intro _str hn hne hsuf
    cases hfind : StdString.find _str delim 0 with
    | none =>
      refine ⟨[_str], by simp, ?_, by simp [List.intercalate], fun res fuel hfuel => ?_⟩
      · intro piece hpiece hinf
        rw [List.mem_singleton] at hpiece
        subst hpiece
        obtain ⟨j, _, hj⟩ := occurrence_starts_at hinf
        rw [StdString.find_zero] at hfind
        exact StdString.findFrom_none delim piece 0 hfind j hj
      · obtain ⟨f, rfl⟩ : ∃ f, fuel = f + 1 := ⟨fuel - 1, by omega⟩
        rw [splitStringLoop_npos delim f _str res hfind,
          if_pos (List.length_pos.2 hne)]
    | some p =>
      have hfind2 := hfind
      rw [StdString.find_zero] at hfind2
      obtain ⟨k, hk, hle, hpre, hmin⟩ := StdString.findFrom_some delim _str 0 p hfind2
      have hkp : k = p := by omega
      subst hkp
      obtain ⟨rest, hrest⟩ := hpre
      have hsplit : _str = _str.take k ++ (delim ++ rest) := by
        rw [hrest, List.take_append_drop]
      have hlen : _str.length = k + (delim.length + rest.length) := by
        have := congrArg List.length hsplit
        simpa [List.length_take, Nat.min_eq_left hle] using this
      have hdrop : _str.drop (k + delim.length) = rest := by
        rw [← List.drop_drop, ← hrest, List.drop_left]
      have hrne : rest ≠ [] := by
        intro h0
        apply hsuf
        refine ⟨_str.take k, ?_⟩
        rw [h0, List.append_nil] at hsplit
        exact hsplit.symm
      have hrsuf : ¬ delim <:+ rest := by
        intro h0
        apply hsuf
        refine h0.trans ⟨_str.take k ++ delim, ?_⟩
        rw [List.append_assoc]
        exact hsplit.symm
      obtain ⟨pieces, hpne, hpinf, hjoin, hloop⟩ := ih rest (by omega) hrne hrsuf
      refine ⟨_str.take k :: pieces, by simp, ?_, ?_, fun res fuel hfuel => ?_⟩
      · intro piece hpiece
        rcases List.mem_cons.1 hpiece with h0 | h0
        · subst h0
          intro hinf
          obtain ⟨j, hj, a, ha⟩ := occurrence_starts_at hinf
          have hjk : j < k := by
            have : (_str.take k).length ≤ k := by simp [List.length_take]
            omega
          apply hmin j hjk
          refine ⟨a ++ _str.drop k, ?_⟩
          rw [← List.append_assoc, ha]
          have h1 : _str.drop j = (_str.take k ++ _str.drop k).drop j := by
            rw [List.take_append_drop]
          rw [h1, List.drop_append_of_le_length]
          simp [List.length_take, Nat.min_eq_left hle]
          omega
        · exact hpinf piece h0
      · rw [intercalate_cons_of_ne_nil delim _ pieces hpne, hjoin, List.append_assoc]
        exact hsplit.symm
      · obtain ⟨f, rfl⟩ : ∃ f, fuel = f + 1 := ⟨fuel - 1, by omega⟩
        rw [splitStringLoop_found delim f _str res k hfind (by omega), hdrop,
          hloop (res ++ [_str.take k]) f (by omega)]
        simp

/-- The matrix that `buildObservationMatrix` returns when every listed pixel lies inside
every image: row `c*numberOfPixels + p` of column `f` holds channel `c` of pixel `p` of
image `f`. -/
theorem buildObservationMatrix_apply {K : Type} [Zero K] (load : String → CImg K)
    (indexOfPixels : List ℕ) (obsSingle : List (ObservationSingle K)) (color width : ℕ)
    (hwidth : ∀ obs ∈ obsSingle, (load obs.strImage).width = width)
    (hcolor : ∀ obs ∈ obsSingle, color ≤ (load obs.strImage).spectrum)
    (hrange : ∀ obs ∈ obsSingle, ∀ idx ∈ indexOfPixels,
      idx < width * (load obs.strImage).height) :
    ∃ I : Matrix (Fin (indexOfPixels.length * color)) (Fin obsSingle.length) K,
      buildObservationMatrix load indexOfPixels obsSingle color width = some I ∧
      ∀ (c : Fin color) (p : Fin indexOfPixels.length) (f : Fin obsSingle.length),
        I ⟨c.val * indexOfPixels.length + p.val, observation_row_lt c p⟩ f =
          (load (obsSingle.get f).strImage).data
            (indexOfPixels.get p % width) (indexOfPixels.get p / width) c.val := by
  -- the value that position `(r, f)` is meant to hold
  let T : ℕ → ℕ → K := fun r f =>
    match obsSingle[f]? with
    | some obs => (load obs.strImage).data
        (indexOfPixels.getD (r % indexOfPixels.length) 0 % width)
        (indexOfPixels.getD (r % indexOfPixels.length) 0 / width) (r / indexOfPixels.length)
    | none => 0
  have hmain : ∃ I : Matrix (Fin (indexOfPixels.length * color)) (Fin obsSingle.length) K,
      buildObservationMatrix load indexOfPixels obsSingle color width = some I ∧
      ∀ r f (hr : r < indexOfPixels.length * color) (hf : f < obsSingle.length),
        f < obsSingle.length → I ⟨r, hr⟩ ⟨f, hf⟩ = T r f := by
    unfold buildObservationMatrix
    apply foldlM_range_invariant _
      (fun k (I : Matrix (Fin (indexOfPixels.length * color)) (Fin obsSingle.length) K) =>
        ∀ r f (hr : r < indexOfPixels.length * color) (hf : f < obsSingle.length),
          f < k → I ⟨r, hr⟩ ⟨f, hf⟩ = T r f)
    · intro r f hr hf hk
      exact absurd hk (Nat.not_lt_zero f)
    · intro k hk I hI
      have hget : obsSingle[k]? = some (obsSingle.get ⟨k, hk⟩) := by
        simp [List.getElem?_eq_getElem hk]
      have hmem : obsSingle.get ⟨k, hk⟩ ∈ obsSingle := List.get_mem _ _ _
      simp only [hget, Option.some_bind, Option.bind_eq_bind]
      have hmid := foldlM_range_invariant
        (fun (I : Matrix (Fin (indexOfPixels.length * color)) (Fin obsSingle.length) K) p =>
          indexOfPixels[p]?.bind fun index =>
            (checkedMod index width).bind fun x =>
              (checkedDiv index width).bind fun y =>
                (ImageSingle.pixelValue (load (obsSingle.get ⟨k, hk⟩).strImage) x y).bind
                  fun pixelValue =>
                    (List.range color).foldlM
                      (fun I c => pixelValue[c]?.bind fun v =>
                        setCoeffAt I (c * indexOfPixels.length + p) k v) I)
        (fun j (I : Matrix (Fin (indexOfPixels.length * color)) (Fin obsSingle.length) K) =>
          ∀ r f (hr : r < indexOfPixels.length * color) (hf : f < obsSingle.length),
            (f < k ∨ (f = k ∧ r % indexOfPixels.length < j)) →
              I ⟨r, hr⟩ ⟨f, hf⟩ = T r f)
        indexOfPixels.length I
        (by
          intro r f hr hf h
          rcases h with h | h
          · exact hI r f hr hf h
          · exact absurd h.2 (Nat.not_lt_zero _))
        (by
          intro j hj I1 hI1
          have hgetp : indexOfPixels[j]? = some (indexOfPixels.get ⟨j, hj⟩) := by
            simp [List.getElem?_eq_getElem hj]
          have hidx := hrange _ hmem _ (List.get_mem indexOfPixels j hj)
          have hw : 0 < width := by
            rcases Nat.eq_zero_or_pos width with h | h
            · rw [h] at hidx; simp at hidx
            · exact h
          have hx : indexOfPixels.get ⟨j, hj⟩ % width <
              (load (obsSingle.get ⟨k, hk⟩).strImage).width := by
            rw [hwidth _ hmem]; exact Nat.mod_lt _ hw
          have hy : indexOfPixels.get ⟨j, hj⟩ / width <
              (load (obsSingle.get ⟨k, hk⟩).strImage).height :=
            Nat.div_lt_of_lt_mul hidx
          simp only [hgetp, Option.some_bind, checkedMod, checkedDiv,
            Nat.pos_iff_ne_zero.1 hw, if_false,
            ImageSingle.pixelValue_of_lt _ _ _ hx hy]
          have hinner := foldlM_range_invariant
            (fun (I : Matrix (Fin (indexOfPixels.length * color)) (Fin obsSingle.length) K)
                c =>
              ((List.range (load (obsSingle.get ⟨k, hk⟩).strImage).spectrum).map
                (fun c => (load (obsSingle.get ⟨k, hk⟩).strImage).data
                  (indexOfPixels.get ⟨j, hj⟩ % width)
                  (indexOfPixels.get ⟨j, hj⟩ / width) c))[c]?.bind fun v =>
                setCoeffAt I (c * indexOfPixels.length + j) k v)
            (fun i
                (I : Matrix (Fin (indexOfPixels.length * color)) (Fin obsSingle.length) K) =>
              ∀ r f (hr : r < indexOfPixels.length * color) (hf : f < obsSingle.length),
                ((f < k ∨ (f = k ∧ r % indexOfPixels.length < j)) ∨
                  (f = k ∧ r % indexOfPixels.length = j ∧ r / indexOfPixels.length < i)) →
                I ⟨r, hr⟩ ⟨f, hf⟩ = T r f)
            color I1
            (by
              intro r f hr hf h
              rcases h with h | h
              · exact hI1 r f hr hf h
              · exact absurd h.2.2 (Nat.not_lt_zero _))
            (by
              intro i hi I2 hI2
              have hspec : i < (load (obsSingle.get ⟨k, hk⟩).strImage).spectrum :=
                lt_of_lt_of_le hi (hcolor _ hmem)
              have hmod : (i * indexOfPixels.length + j) % indexOfPixels.length = j := by
                rw [Nat.mul_comm, Nat.mul_add_mod, Nat.mod_eq_of_lt hj]
              have hdiv : (i * indexOfPixels.length + j) / indexOfPixels.length = i := by
                rw [Nat.mul_comm, Nat.mul_add_div (by omega), Nat.div_eq_of_lt hj,
                  Nat.add_zero]
              have hval : (load (obsSingle.get ⟨k, hk⟩).strImage).data
                  (indexOfPixels.get ⟨j, hj⟩ % width)
                  (indexOfPixels.get ⟨j, hj⟩ / width) i =
                  T (i * indexOfPixels.length + j) k := by
                simp only [T, hget, hmod, hdiv]
                rw [List.getD_eq_getElem _ _ hj]
                rfl
              have hrow : i * indexOfPixels.length + j < indexOfPixels.length * color :=
                observation_row_lt ⟨i, hi⟩ ⟨j, hj⟩
              obtain ⟨M', hM', hgood⟩ := setCoeffAt_target I2 T
                (fun r f => (f < k ∨ (f = k ∧ r % indexOfPixels.length < j)) ∨
                  (f = k ∧ r % indexOfPixels.length = j ∧ r / indexOfPixels.length < i))
                (i * indexOfPixels.length + j) k hrow hk
                (fun r f hr hf h => hI2 r f hr hf h)
              refine ⟨M', ?_, ?_⟩
              · simp only [List.getElem?_map, List.getElem?_range hspec, Option.map_some',
                  Option.some_bind, hval]
                exact hM'
              · intro r f hr hf h
                apply hgood r f hr hf
                rcases h with h | ⟨h1, h2, h3⟩
                · exact Or.inl (Or.inl h)
                · by_cases hri : r / indexOfPixels.length = i
                  · right
                    refine ⟨?_, h1⟩
                    rw [← Nat.div_add_mod' r indexOfPixels.length, hri, h2]
                  · exact Or.inl (Or.inr ⟨h1, h2, by omega⟩))
          obtain ⟨I3, hI3, hgood⟩ := hinner
          refine ⟨I3, hI3, ?_⟩
          intro r f hr hf h
          apply hgood r f hr hf
          rcases h with h | ⟨h1, h2⟩
          · exact Or.inl (Or.inl h)
          · by_cases hrj : r % indexOfPixels.length = j
            · right
              refine ⟨h1, hrj, ?_⟩
              apply Nat.div_lt_of_lt_mul
              exact hr
            · exact Or.inl (Or.inr ⟨h1, by omega⟩))
      obtain ⟨I4, hI4, hgood⟩ := hmid
      refine ⟨I4, hI4, ?_⟩
      intro r f hr hf h
      apply hgood r f hr hf
      by_cases hfk : f = k
      · right
        refine ⟨hfk, Nat.mod_lt _ ?_⟩
        rcases Nat.eq_zero_or_pos indexOfPixels.length with h0 | h0
        · rw [h0] at hr; simp at hr
        · exact h0
      · exact Or.inl (by omega)
  obtain ⟨I, hI, hgood⟩ := hmain
  refine ⟨I, hI, ?_⟩
  intro c p f
  rw [hgood _ f.val (observation_row_lt c p) f.isLt f.isLt]
  have hget : obsSingle[f.val]? = some (obsSingle.get f) := by
    simp [List.getElem?_eq_getElem f.isLt]
  have hmod : (c.val * indexOfPixels.length + p.val) % indexOfPixels.length = p.val := by
    rw [Nat.mul_comm, Nat.mul_add_mod, Nat.mod_eq_of_lt p.isLt]
  have hdiv : (c.val * indexOfPixels.length + p.val) / indexOfPixels.length = c.val := by
    rw [Nat.mul_comm, Nat.mul_add_div (by have := p.isLt; omega), Nat.div_eq_of_lt p.isLt,
      Nat.add_zero]
  simp only [T, hget, hmod, hdiv]
  rw [List.getD_eq_getElem _ _ p.isLt]
  rfl

/-- The rows written by the loop over the channels for one pixel. -/
theorem channelRows_foldl (P p : ℕ) (color : ℕ) (rows : List ℕ) :
    (List.range color).foldl (fun rows c => rows ++ [c * P + p]) rows =
      rows ++ (List.range color).map (fun c => c * P + p) := by
  induction color with
  | zero => simp
  | succ k ih =>
    rw [List.range_succ, List.foldl_append, ih]
    simp

/-- The rows written while one image is processed, pixel by pixel. -/
theorem pixelRows_foldl (P color n : ℕ) :
    (List.range n).foldl
      (fun rows p => (List.range color).foldl (fun rows c => rows ++ [c * P + p]) rows) [] =
      (List.range n).flatMap (fun p => (List.range color).map (fun c => c * P + p)) := by
  induction n with
  | zero => simp
  | succ k ih =>
    rw [List.range_succ, List.foldl_append, ih]
    simp [channelRows_foldl, List.flatMap_append]

/-- Every row of `I` is written once while one image is processed. -/
theorem buildObservationMatrixRows_perm (indexOfPixels : List ℕ) (color : ℕ) :
    (buildObservationMatrixRows indexOfPixels color).Perm
      (List.range (indexOfPixels.length * color)) := by
  unfold buildObservationMatrixRows
  simp only []
  rw [pixelRows_foldl]
  generalize indexOfPixels.length = P
  have hinj : ∀ c c1 p p1 : ℕ, p < P → p1 < P → c * P + p = c1 * P + p1 →
      c = c1 ∧ p = p1 := by
    intro c c1 p p1 hp hp1 h
    have hP : 0 < P := by omega
    have e1 : (c * P + p) / P = c := by
      rw [Nat.mul_comm, Nat.mul_add_div hP, Nat.div_eq_of_lt hp, Nat.add_zero]
    have e2 : (c1 * P + p1) / P = c1 := by
      rw [Nat.mul_comm, Nat.mul_add_div hP, Nat.div_eq_of_lt hp1, Nat.add_zero]
    have hc : c = c1 := by rw [← e1, ← e2, h]
    subst hc
    exact ⟨rfl, by omega⟩
  apply (List.perm_ext_iff_of_nodup ?_ (List.nodup_range _)).2
  · intro r
    simp only [List.mem_flatMap, List.mem_map, List.mem_range]
    constructor
    · rintro ⟨p, hp, c, hc, rfl⟩
      calc c * P + p < c * P + P := by omega
        _ = P * (c + 1) := by ring
        _ ≤ P * color := Nat.mul_le_mul_left P hc
    · intro hr
      have hP : 0 < P := by
        rcases Nat.eq_zero_or_pos P with h | h
        · rw [h, Nat.zero_mul] at hr; omega
        · exact h
      refine ⟨r % P, Nat.mod_lt _ hP, r / P, ?_, ?_⟩
      · rw [Nat.div_lt_iff_lt_mul hP, Nat.mul_comm]; exact hr
      · rw [Nat.mul_comm]; exact Nat.div_add_mod r P
  · rw [List.nodup_flatMap]
    constructor
    · intro p hp
      apply List.Nodup.map_on _ (List.nodup_range _)
      intro c _ c1 _ h
      exact (hinj c c1 p p (List.mem_range.1 hp) (List.mem_range.1 hp) h).1
    · apply List.Nodup.pairwise_of_forall_ne (List.nodup_range _)
      intro p hp p1 hp1 hne
      simp only [Function.onFun, List.disjoint_left, List.mem_map, List.mem_range]
      rintro r ⟨c, _, rfl⟩ ⟨c1, _, h⟩
      exact hne (hinj c1 c p1 p (List.mem_range.1 hp1) (List.mem_range.1 hp) h).2.symm

/-! ## The claims, concluded -/

/-- Claim C21, evaluated against the source. After `k` calls of `addObservation` on a
default-constructed `ObservationAll` or `CpsConfig` the stored vector holds `k`
observations (none for `k = 0`), yet `numberOfObservation()` hands no value to its
caller: the body of `ObservationAll::numberOfObservation` evaluates `observation_.size()`
and has no `return` statement, and `CpsConfig::numberOfObservation` forwards to it. -/
theorem numberOfObservation_no_value {K : Type} (observations : List (ObservationSingle K)) :
    (observations.foldl ObservationAll.addObservation ObservationAll.ctor).observation.length =
        observations.length ∧
      (observations.foldl ObservationAll.addObservation
        ObservationAll.ctor).numberOfObservation = none ∧
      (observations.foldl CpsConfig.addObservation CpsConfig.ctor).obsAll.observation.length =
        observations.length ∧
      (observations.foldl CpsConfig.addObservation CpsConfig.ctor).numberOfObservation = none := by
  refine ⟨?_, rfl, ?_, rfl⟩
  · rw [ObservationAll.addObservation_foldl]
    simp [ObservationAll.ctor, ObservationAll.observation]
  · rw [CpsConfig.addObservation_stored]
    simp [CpsConfig.ctor, CpsConfig.obsAll, ObservationAll.ctor, ObservationAll.observation]

/-- Claim C22, evaluated at `color = 2`, one pixel, `S = (3, 0, 0; 0, 0, 0)` and its albedo
`R = (3, 0)`: the albedo of channel `1` is zero, the test `R(p) > 0` reads channel `0`
only and lets the pixel pass, the reciprocal `1.0 / R(1)` is formed with the divisor `0`,
and row `0` of the result is not the zero vector. -/
theorem estimateSurfaceNormal_zero_divisor :
    coeff (!![3, 0] : Matrix (Fin 1) (Fin 2) ℚ) (1 * 1 + 0) = some 0 ∧
      estimateSurfaceNormalDivisors (!![3, 0] : Matrix (Fin 1) (Fin 2) ℚ) 1 2 = some [3, 0] ∧
      ∃ N : Matrix (Fin 1) (Fin 3) ℚ,
        estimateSurfaceNormal (!![3, 0, 0; 0, 0, 0] : Matrix (Fin 2) (Fin 3) ℚ)
          (!![3, 0] : Matrix (Fin 1) (Fin 2) ℚ) 1 2 = some N ∧ N 0 ≠ 0 := by
  refine ⟨by decide, by decide, ?_⟩
  obtain ⟨N, hN, hrow⟩ := estimateSurfaceNormal_apply
    (!![3, 0, 0; 0, 0, 0] : Matrix (Fin 2) (Fin 3) ℚ) (!![3, 0] : Matrix (Fin 1) (Fin 2) ℚ) 1 2
    (by norm_num) (by norm_num) (by norm_num) (by norm_num)
  refine ⟨N, hN, ?_⟩
  intro h
  have h0 := congrFun (hrow 0) 0
  rw [h] at h0
  simp [Fin.sum_univ_two] at h0

/-- Claim C23. When the decomposition that the solver returns for `ComputeFull` has
square factors and the one for `ComputeThin` consists of the first `min m n` columns of
these factors, with the same singular values, `pinvSvdFull(A)` and `pinvSvdThin(A)` are
the same `n x m` matrix. -/
theorem pinvSvdFull_eq_pinvSvdThin {K : Type} [LinearOrderedField K] (jacobi : SvdSolver K)
    {m n : ℕ} (A : Matrix (Fin m) (Fin n) K)
    (hfull : (jacobi m n A .ComputeFull).IsFull)
    (hthin : (jacobi m n A .ComputeThin).IsThin)
    (hU : ∀ (i : Fin m) (j : Fin (jacobi m n A .ComputeThin).colsU)
      (j1 : Fin (jacobi m n A .ComputeFull).colsU), j.val = j1.val →
      (jacobi m n A .ComputeThin).matrixU i j = (jacobi m n A .ComputeFull).matrixU i j1)
    (hV : ∀ (i : Fin n) (j : Fin (jacobi m n A .ComputeThin).colsV)
      (j1 : Fin (jacobi m n A .ComputeFull).colsV), j.val = j1.val →
      (jacobi m n A .ComputeThin).matrixV i j = (jacobi m n A .ComputeFull).matrixV i j1)
    (hsv : (jacobi m n A .ComputeThin).singularValues =
      (jacobi m n A .ComputeFull).singularValues) :
    pinvSvdFull jacobi A = pinvSvdThin jacobi A := by
  ext i j
  simp only [pinvSvdFull, pinvSvdThin]
  rw [pinvSvd_apply _ _ (by rw [hfull.1]; exact min_le_left m n)
      (by rw [hfull.2]; exact min_le_right m n),
    pinvSvd_apply _ _ (le_of_eq hthin.1.symm) (le_of_eq hthin.2.symm)]
  apply Finset.sum_congr rfl
  intro t _
  have e1 := hU j ⟨t.val, lt_of_lt_of_le t.isLt (le_of_eq hthin.1.symm)⟩
    ⟨t.val, lt_of_lt_of_le t.isLt (by rw [hfull.1]; exact min_le_left m n)⟩ rfl
  have e2 := hV i ⟨t.val, lt_of_lt_of_le t.isLt (le_of_eq hthin.2.symm)⟩
    ⟨t.val, lt_of_lt_of_le t.isLt (by rw [hfull.2]; exact min_le_right m n)⟩ rfl
  rw [hsv, e1, e2]

/-- Claim C23 at a concrete input: the `2 x 1` matrix `(2; 0)`, whose full decomposition
has a `2 x 2` factor `U` and whose thin decomposition keeps the first column of it. -/
theorem pinvSvdFull_eq_pinvSvdThin_witness :
    pinvSvdFull rectangularSolver (!![2; 0] : Matrix (Fin 2) (Fin 1) ℚ) =
      pinvSvdThin rectangularSolver (!![2; 0] : Matrix (Fin 2) (Fin 1) ℚ) :=
  pinvSvdFull_eq_pinvSvdThin rectangularSolver (!![2; 0] : Matrix (Fin 2) (Fin 1) ℚ)
    ⟨rfl, rfl⟩ ⟨rfl, rfl⟩
    (fun i j j1 h => by
      show (if i.val = j.val then (1 : ℚ) else 0) = (1 : Matrix (Fin 2) (Fin 2) ℚ) i j1
      rw [h, Matrix.one_apply]
      simp only [Fin.ext_iff])
    (fun i j j1 h => by
      show (if i.val = j.val then (1 : ℚ) else 0) = (1 : Matrix (Fin 1) (Fin 1) ℚ) i j1
      rw [h, Matrix.one_apply]
      simp only [Fin.ext_iff])
    rfl

/-- Claim C24. The row assignment `(c, p) -> c*P + p` of `buildObservationMatrix` is a
bijection from the pairs of a channel `c < color` and a pixel `p < P` onto the `P*color`
rows of `I`; the rows written while one image is processed are a rearrangement of
`0, ..., P*color - 1`, so every row is written exactly once; and in the matrix that
`buildObservationMatrix` returns (every listed pixel lying inside every image), every row
`r` of every column `f` holds the value of exactly one pair: channel `c` of pixel `p` of
image `f` for the one `(c, p)` with `r = c*P + p`. -/
theorem buildObservationMatrix_rows_bijective {K : Type} [Zero K] (load : String → CImg K)
    (indexOfPixels : List ℕ) (obsSingle : List (ObservationSingle K)) (color width : ℕ) :
    Function.Bijective (fun cp : Fin color × Fin indexOfPixels.length =>
      (⟨cp.1.val * indexOfPixels.length + cp.2.val, observation_row_lt cp.1 cp.2⟩ :
        Fin (indexOfPixels.length * color))) ∧
    (buildObservationMatrixRows indexOfPixels color).Perm
      (List.range (indexOfPixels.length * color)) ∧
    ((∀ obs ∈ obsSingle, (load obs.strImage).width = width) →
      (∀ obs ∈ obsSingle, color ≤ (load obs.strImage).spectrum) →
      (∀ obs ∈ obsSingle, ∀ idx ∈ indexOfPixels,
        idx < width * (load obs.strImage).height) →
      ∃ I : Matrix (Fin (indexOfPixels.length * color)) (Fin obsSingle.length) K,
        buildObservationMatrix load indexOfPixels obsSingle color width = some I ∧
        ∀ (r : Fin (indexOfPixels.length * color)) (f : Fin obsSingle.length),
          ∃! cp : Fin color × Fin indexOfPixels.length,
            r.val = cp.1.val * indexOfPixels.length + cp.2.val ∧
            I r f = (load (obsSingle.get f).strImage).data
              (indexOfPixels.get cp.2 % width) (indexOfPixels.get cp.2 / width)
              cp.1.val) := by
  have hinj : ∀ (c c1 : Fin color) (p p1 : Fin indexOfPixels.length),
      c.val * indexOfPixels.length + p.val = c1.val * indexOfPixels.length + p1.val →
      c = c1 ∧ p = p1 := by
    intro c c1 p p1 h
    have hP : 0 < indexOfPixels.length := lt_of_le_of_lt (Nat.zero_le _) p.isLt
    have e1 : (c.val * indexOfPixels.length + p.val) / indexOfPixels.length = c.val := by
      rw [Nat.mul_comm, Nat.mul_add_div hP, Nat.div_eq_of_lt p.isLt, Nat.add_zero]
    have e2 : (c1.val * indexOfPixels.length + p1.val) / indexOfPixels.length = c1.val := by
      rw [Nat.mul_comm, Nat.mul_add_div hP, Nat.div_eq_of_lt p1.isLt, Nat.add_zero]
    have hc : c.val = c1.val := by rw [← e1, ← e2, h]
    refine ⟨Fin.ext hc, Fin.ext ?_⟩
    rw [hc] at h
    omega
  have hsurj : ∀ r : Fin (indexOfPixels.length * color),
      ∃ cp : Fin color × Fin indexOfPixels.length,
        r.val = cp.1.val * indexOfPixels.length + cp.2.val := by
    intro r
    have hP : 0 < indexOfPixels.length := by
      rcases Nat.eq_zero_or_pos indexOfPixels.length with h | h
      · have h2 := r.isLt
        have h3 : indexOfPixels.length * color = 0 := by rw [h, Nat.zero_mul]
        omega
      · exact h
    refine ⟨(⟨r.val / indexOfPixels.length, ?_⟩,
      ⟨r.val % indexOfPixels.length, Nat.mod_lt _ hP⟩), ?_⟩
    · rw [Nat.div_lt_iff_lt_mul hP]
      exact lt_of_lt_of_eq r.isLt (Nat.mul_comm _ _)
    · show r.val = r.val / indexOfPixels.length * indexOfPixels.length +
        r.val % indexOfPixels.length
      exact (Nat.div_add_mod' r.val _).symm
  refine ⟨⟨?_, ?_⟩, buildObservationMatrixRows_perm indexOfPixels color, ?_⟩
  · rintro ⟨c, p⟩ ⟨c1, p1⟩ h
    have := hinj c c1 p p1 (Fin.mk.inj_iff.1 h)
    exact Prod.ext this.1 this.2
  · intro r
    obtain ⟨cp, hcp⟩ := hsurj r
    exact ⟨cp, Fin.ext hcp.symm⟩
  · intro hwidth hcolor hrange
    obtain ⟨I, hI, hval⟩ := buildObservationMatrix_apply load indexOfPixels obsSingle color
      width hwidth hcolor hrange
    refine ⟨I, hI, fun r f => ?_⟩
    obtain ⟨cp, hcp⟩ := hsurj r
    refine ⟨cp, ⟨hcp, ?_⟩, ?_⟩
    · have hr : r = ⟨cp.1.val * indexOfPixels.length + cp.2.val,
          observation_row_lt cp.1 cp.2⟩ := Fin.ext hcp
      rw [hr]
      exact hval cp.1 cp.2 f
    · rintro ⟨c1, p1⟩ ⟨h1, _⟩
      have := hinj c1 cp.1 p1 cp.2 (h1.symm.trans hcp)
      exact Prod.ext this.1 this.2

/-- Claim C24 at a concrete input: two pixels and two channels of one `2 x 2` image of
constant value `7`. -/
theorem buildObservationMatrix_rows_bijective_witness :
    (buildObservationMatrixRows [3, 0] 2).Perm (List.range ([3, 0].length * 2)) ∧
    ∃ I : Matrix (Fin ([3, 0].length * 2))
        (Fin [(⟨"a.png", "0 0 1", 1⟩ : ObservationSingle ℚ)].length) ℚ,
      buildObservationMatrix (fun _ => CImg.filled 2 2 2 (7 : ℚ)) [3, 0]
        [(⟨"a.png", "0 0 1", 1⟩ : ObservationSingle ℚ)] 2 2 = some I ∧
      I ⟨3, by decide⟩ ⟨0, by decide⟩ = 7 := by
  obtain ⟨_, hperm, hentries⟩ := buildObservationMatrix_rows_bijective
    (fun _ => CImg.filled 2 2 2 (7 : ℚ)) [3, 0]
    [(⟨"a.png", "0 0 1", 1⟩ : ObservationSingle ℚ)] 2 2
  obtain ⟨I, hI, hval⟩ := hentries (fun _ _ => rfl) (fun _ _ => le_refl 2)
    (fun _ _ idx hidx => by
      simp only [List.mem_cons, List.mem_singleton, List.not_mem_nil, or_false] at hidx
      rcases hidx with h | h <;> simp [h, CImg.filled])
  refine ⟨hperm, I, hI, ?_⟩
  obtain ⟨cp, ⟨_, h2⟩, _⟩ := hval ⟨3, by decide⟩ ⟨0, by decide⟩
  rw [h2]
  simp [CImg.filled]

/-- Claim C26. For `width, height > 0` and every index `idx < width*height` the
coordinates `idx % width` and `idx / width` exist and lie below `width` and `height`;
such are all indices that `loadAvailablePixels` produces from a mask of this size; the
pixel read of `buildObservationMatrix` at these coordinates succeeds in every image of
this size; and for an index list below `width*height` the mappers
`saveSurfaceNormalToImage`, `saveSurfaceAlbedoToImage` and `saveReprojectionError` run to
their end, every write falling inside the image. -/
theorem pixel_accesses_inside (width height : ℕ) (hw : 0 < width) (hh : 0 < height) :
    (∀ idx, idx < width * height →
      checkedMod idx width = some (idx % width) ∧
        checkedDiv idx width = some (idx / width) ∧
        idx % width < width ∧ idx / width < height ∧
        (computePixelLocation width idx).x < width ∧
        (computePixelLocation width idx).y < height) ∧
    (∀ mask : CImg ℕ, mask.width = width → mask.height = height →
      ∃ indexOfPixels, loadAvailablePixels mask [] = some (width, height, indexOfPixels) ∧
        ∀ idx ∈ indexOfPixels, idx < width * height) ∧
    (∀ {K : Type} (img : CImg K) (idx : ℕ), img.width = width → img.height = height →
      idx < width * height →
      ImageSingle.pixelValue img (idx % width) (idx / width) =
        some ((List.range img.spectrum).map
          (fun c => img.data (idx % width) (idx / width) c))) ∧
    ∀ {K : Type} [LinearOrderedField K] (indexOfPixels : List ℕ),
      (∀ idx ∈ indexOfPixels, idx < width * height) →
      (∀ N : Matrix (Fin indexOfPixels.length) (Fin 3) K,
        ∃ img, saveSurfaceNormalToImage N indexOfPixels width height = some img ∧
          img.width = width ∧ img.height = height) ∧
      (∀ (color : ℕ) (R : Matrix (Fin 1) (Fin (color * indexOfPixels.length)) K),
        ∃ img, saveSurfaceAlbedoToImage R indexOfPixels width height color = some img ∧
          (0 < color → img.width = width ∧ img.height = height)) ∧
      ∀ (color ic : ℕ) (Idiff : Matrix (Fin (color * indexOfPixels.length)) (Fin ic) K),
        color ≤ ic →
        ∃ img, saveReprojectionError Idiff indexOfPixels width height color = some img ∧
          (0 < color → img.width = width ∧ img.height = height) := by
  refine ⟨fun idx hidx => ?_, fun mask hmw hmh => ?_, fun img idx hiw hih hidx => ?_,
    fun indexOfPixels hrange => ⟨fun N => ?_, fun color R => ?_, fun color ic Idiff hic => ?_⟩⟩
  · have h1 : idx % width < width := Nat.mod_lt _ hw
    have h2 : idx / width < height := Nat.div_lt_of_lt_mul hidx
    refine ⟨?_, ?_, h1, h2, h1, h2⟩
    · simp [checkedMod, Nat.pos_iff_ne_zero.1 hw]
    · simp [checkedDiv, Nat.pos_iff_ne_zero.1 hw]
  · obtain ⟨l, hl, _, hb, _⟩ := loadAvailablePixels_scanned mask
    refine ⟨l, by rw [hl, hmw, hmh], fun idx hidx => ?_⟩
    have := hb idx hidx
    rw [hmw, hmh] at this
    rw [Nat.mul_comm]; omega
  · exact ImageSingle.pixelValue_of_lt img _ _ (by rw [hiw]; exact Nat.mod_lt _ hw)
      (by rw [hih]; exact Nat.div_lt_of_lt_mul hidx)
  · obtain ⟨img, himg, hdim⟩ := scatter_foldlM_inside indexOfPixels width height 3
      (fun p c => coeffAt N p c) (fun v => 255 * (v + 1) / 2) hw hh hrange
      (fun p c hp hc => ⟨_, Eigen.coeffAt_of_lt N hp hc⟩)
    exact ⟨img, himg, (hdim (by norm_num)).1, (hdim (by norm_num)).2.1⟩
  · obtain ⟨img, himg, hdim⟩ := scatter_foldlM_inside indexOfPixels width height color
      (fun p c => coeff R (c * indexOfPixels.length + p)) (fun v => 255 * (v + 1) / 2)
      hw hh hrange
      (fun p c hp hc => by
        have hlt : c * indexOfPixels.length + p < color * indexOfPixels.length :=
          channel_row_lt ⟨c, hc⟩ ⟨p, hp⟩
        exact ⟨_, Eigen.coeff_rowVector R hlt⟩)
    exact ⟨img, himg, fun h => ⟨(hdim h).1, (hdim h).2.1⟩⟩
  · obtain ⟨img, himg, hdim⟩ := scatter_foldlM_inside indexOfPixels width height color
      (fun p c => coeffAt Idiff (c * indexOfPixels.length + p) c) (fun v => |v|)
      hw hh hrange
      (fun p c hp hc => by
        have hlt : c * indexOfPixels.length + p < color * indexOfPixels.length :=
          channel_row_lt ⟨c, hc⟩ ⟨p, hp⟩
        exact ⟨_, Eigen.coeffAt_of_lt Idiff hlt (lt_of_lt_of_le hc hic)⟩)
    exact ⟨img, himg, fun h => ⟨(hdim h).1, (hdim h).2.1⟩⟩

/-- Claim C26 at a concrete input: the index `5` in an image of width `2` and height
`3`. -/
theorem pixel_accesses_inside_witness :
    (0 < 2 ∧ 0 < 3) ∧
      checkedMod 5 2 = some 1 ∧ checkedDiv 5 2 = some 2 ∧
      ∃ img, saveSurfaceAlbedoToImage (!![7, 8] : Matrix (Fin 1) (Fin (1 * [5, 5].length)) ℚ)
        [5, 5] 2 3 1 = some img ∧ img.width = 2 ∧ img.height = 3 := by
  have h := pixel_accesses_inside 2 3 (by norm_num) (by norm_num)
  obtain ⟨img, himg, hdim⟩ := (h.2.2.2 [5, 5] (by simp)).2.1 1
    (!![7, 8] : Matrix (Fin 1) (Fin (1 * [5, 5].length)) ℚ)
  have h5 := h.1 5 (by norm_num)
  exact ⟨⟨by norm_num, by norm_num⟩, h5.1, h5.2.1, img, himg, (hdim (by norm_num)).1,
    (hdim (by norm_num)).2⟩

/-- Claim C27, evaluated against the source. `indexOfPixels(list)` sets
`numberOfPixels()` to the length `P` of the list and `indexOfPixel(n)` returns `list[n]`
for `n < P`; for `n >= P` it reads `indexOfPixels_[std::min(n, numberOfPixels_)]`, the
position `P` one past the last element, and no element of the list is returned: for the
list `(7)`, `indexOfPixel(1)` reads position `1` of a vector of size `1`. -/
theorem indexOfPixel_past_the_end :
    (∀ (cps : CalibratedPhotometricStereo) (list : List ℕ),
      (cps.setIndexOfPixels list).numberOfPixels = list.length) ∧
    (∀ (cps : CalibratedPhotometricStereo) (list : List ℕ) (n : Fin list.length),
      (cps.setIndexOfPixels list).indexOfPixel n.val = some (list.get n)) ∧
    (∀ (cps : CalibratedPhotometricStereo),
      (cps.setIndexOfPixels [7]).indexOfPixel 0 = some 7 ∧
      (cps.setIndexOfPixels [7]).indexOfPixel 1 = none) ∧
    ∀ (cps : CalibratedPhotometricStereo) (list : List ℕ) (n : ℕ),
      (cps.setIndexOfPixels list).indexOfPixel (list.length + n) = none := by
  refine ⟨fun _ _ => rfl, fun cps list n => ?_, fun cps => ⟨?_, ?_⟩, fun cps list n => ?_⟩
  · rw [indexOfPixel_setIndexOfPixels, min_eq_left n.isLt.le]
    simp
  · exact indexOfPixel_setIndexOfPixels cps [7] 0
  · exact indexOfPixel_setIndexOfPixels cps [7] 1
  · have := indexOfPixel_setIndexOfPixels cps list (list.length + n)
    rw [min_eq_right (Nat.le_add_right _ _)] at this
    simpa using this

/-- Claim C29. For a non-empty `delim` and a non-empty `str` that does not end with
`delim`, `splitString` ends, within `str.length + 1` evaluations of the loop condition,
with pieces none of which contains `delim` and which, joined by `delim`, give `str`. -/
theorem splitString_pieces (str delim : List Char) (hdelim : delim ≠ []) (hstr : str ≠ [])
    (hend : ¬ delim <:+ str) :
    ∃ pieces : List (List Char),
      (∀ fuel, str.length < fuel → splitString fuel str delim = some pieces) ∧
      (∀ piece ∈ pieces, ¬ delim <:+: piece) ∧
      List.intercalate delim pieces = str := by
  obtain ⟨pieces, _, hinf, hjoin, hloop⟩ :=
    splitStringLoop_pieces delim hdelim str.length str le_rfl hstr hend
  refine ⟨pieces, fun fuel hfuel => ?_, hinf, hjoin⟩
  unfold splitString
  rw [hloop [] fuel hfuel]
  simp

/-- Claim C29 at a concrete input: the string `a->->b-` and the delimiter `->`. -/
theorem splitString_pieces_witness :
    (['-', '>'] ≠ [] ∧ ['a', '-', '>', '-', '>', 'b', '-'] ≠ [] ∧
        ¬ ['-', '>'] <:+ ['a', '-', '>', '-', '>', 'b', '-']) ∧
      ∃ pieces : List (List Char),
        splitString 8 ['a', '-', '>', '-', '>', 'b', '-'] ['-', '>'] = some pieces ∧
        (∀ piece ∈ pieces, ¬ ['-', '>'] <:+: piece) ∧
        List.intercalate ['-', '>'] pieces = ['a', '-', '>', '-', '>', 'b', '-'] := by
  have hend : ¬ ['-', '>'] <:+ ['a', '-', '>', '-', '>', 'b', '-'] := by decide
  obtain ⟨pieces, hrun, hpieces, hjoin⟩ :=
    splitString_pieces ['a', '-', '>', '-', '>', 'b', '-'] ['-', '>'] (by simp) (by simp) hend
  exact ⟨⟨by simp, by simp, hend⟩, pieces, hrun 8 (by simp), hpieces, hjoin⟩
